import Mathlib

/-!
# Causal key-value store: vector clocks and the multi-version store

A shallow embedding of `vendor/kvstore/vectorclock/vectorclock.go` and
`vendor/kvstore/kvstore.go`.

Modelling conventions.

* `uint32` values are natural numbers; the only arithmetic on them
  (`Increment`) is reduced modulo `2^32`.
* A Go `map` is an association list with pairwise distinct keys: `mapGet`
  is the lookup `m[k]` and `mapSet` the assignment `m[k] = v`.
* A `[]byte` payload is modelled by what `json.Unmarshal` makes of it: it is
  empty, or it is rejected by the decoder, or it decodes to a `CausalContext`
  (and `json.Marshal` of a context is the payload that decodes to it).
* `time.Time` is an integer instant; `After` is `>`.
* A run-time panic (slice index out of range, nil mutex) is the result
  `none`.  The recursion of `isAvailable` through `traverseValues` is
  bounded by a fuel argument; `none` is returned when the fuel runs out.
* The per-key mutexes are modelled by the set of keys that own one
  (`locks`); operations are executed one at a time.  The field `dependency`
  of `KVStore` is never read or written and is left out.

The package `vendor/node` (`ip.go`, `view.go`, `shards.go`) is embedded in
the namespace `node`.

* `NewIP` consists of calls into the Go library (`strings.TrimSpace`,
  `url.URL.Hostname`, `url.URL.Port`); it is the parameter `parse` of
  `NewView` and `NewShards`.  `plainIP` is the parser used on concrete texts.
* `strings.Split(s, ",")` is `splitComma` on the characters of the text, and
  the Go order `<` on strings is `textLess`.
* The mutex of a view is not modelled; methods that update the view return
  the new view.
* The loop of `View.Remove` ranges over the slice as it was when the loop
  began while it shortens `v.Nodes` inside the same array; `removeLoop`
  carries the array and the current length.

The request handlers of `KVCalls.go` (package `main`) are embedded in the
namespace `main`.

* A handler returns `json.Marshal` of a `MethodReply`; the embedding returns
  the `MethodReply`.  The payload text of a request is the `Payload` that the
  store receives as `[]byte(payload)`, so `payload == ""` is `Payload.empty`.
* The statuses of `net/http` are the numbers in the namespace `http`.
* `time.Now()` and `json.Unmarshal` of a `kvstore.Value` are the parameters
  `now` and `unmarshal` of `putKVRequest`.
* `len(data)` is the number of bytes of the UTF-8 text, `utf8ByteSize`.

Concurrent invocations of `garbageCollection` are configurations `Config` of
a store and one `Phase` for each invocation; `gcStep` is the next atomic step
of an invocation (the compare-and-swap of `gcInUse`, the compaction of one
key under its lock, the store of 0) and `gcRun` an interleaving.

`vendor/merkletree/merkletree.go` is embedded in the namespace `merkletree`.

* A `Node` is a leaf or a parent with its two children; the pointers `Left`
  and `Right` of a parent are the nodes they point to.
* The method `hash()` of the data and SHA-256 of two hashes in a row are the
  parameters `hash` and `sum`; the loop of `Build` takes a fuel argument.
-/

/-- Lookup `m[k]` in a Go map. -/
def mapGet {κ α : Type} [DecidableEq κ] : List (κ × α) → κ → Option α
  | [], _ => none
  | (k', v) :: m, k => if k' = k then some v else mapGet m k

/-- Assignment `m[k] = v` in a Go map. -/
def mapSet {κ α : Type} [DecidableEq κ] : List (κ × α) → κ → α → List (κ × α)
  | [], k, v => [(k, v)]
  | (k', v') :: m, k, v => if k' = k then (k, v) :: m else (k', v') :: mapSet m k v

namespace vectorclock

/-- Tuple is the information for a single node. -/
structure Tuple where
  Identifier : Nat
  Count : Nat
deriving DecidableEq, Repr

/-- VectorClock is a slice of tuples. -/
abbrev VectorClock := List Tuple

def searchIndex : VectorClock → Nat → Option Nat
  | [], _ => none
  | t :: rest, ident =>
    if t.Identifier = ident then some 0
    else match searchIndex rest ident with
      | some i => some (i + 1)
      | none => none

def Equal : Nat := 0
def Larger : Nat := 1
def Smaller : Nat := 2
def Uncomparable : Nat := 3
def Max : Nat := 4

/-- The hash table built by `hashMap[v.Identifier] = v.Count` over a clock. -/
def hashMapOf (v : VectorClock) : List (Nat × Nat) :=
  v.foldl (fun m t => mapSet m t.Identifier t.Count) []

/-- First loop of `Compare`: ranges over `hashMap1`, looking up `hashMap2`. -/
def scanFirst (hashMap2 : List (Nat × Nat)) (flags : Bool × Bool) (entry : Nat × Nat) :
    Bool × Bool :=
  match mapGet hashMap2 entry.1 with
  | none => (true, flags.2)
  | some val2 =>
    if entry.2 > val2 then (true, flags.2)
    else if entry.2 < val2 then (flags.1, true)
    else flags

/-- Second loop of `Compare`: ranges over `hashMap2`, looking up `hashMap1`. -/
def scanSecond (hashMap1 : List (Nat × Nat)) (flags : Bool × Bool) (entry : Nat × Nat) :
    Bool × Bool :=
  match mapGet hashMap1 entry.1 with
  | none => (flags.1, true)
  | some val =>
    if val > entry.2 then (true, flags.2)
    else if val < entry.2 then (flags.1, true)
    else flags

/-- Compare is used to compare one vector clock with another. -/
def Compare (v v2 : VectorClock) : Nat :=
  let hashMap1 := hashMapOf v
  let hashMap2 := hashMapOf v2
  let flags := hashMap1.foldl (scanFirst hashMap2) (false, false)
  let flags := hashMap2.foldl (scanSecond hashMap1) flags
  if flags.1 && flags.2 then Uncomparable
  else if flags.1 then Larger
  else if flags.2 then Smaller
  else Equal

/-- Increment adds `count` (modulo `2^32`) to the first tuple of `ident`; the
clock is returned with the success flag, since the Go method updates in place. -/
def Increment (v : VectorClock) (ident count : Nat) : VectorClock × Bool :=
  match searchIndex v ident with
  | none => (v, false)
  | some i =>
    match v.get? i with
    | none => (v, false)
    | some t => (v.set i { t with Count := (t.Count + count) % 2 ^ 32 }, true)

def ZeroClock : VectorClock → Bool
  | [] => true
  | node :: rest => if node.Count ≠ 0 then false else ZeroClock rest

def Copy (v : VectorClock) : VectorClock :=
  v.foldl (fun clock node => clock ++ [{ Identifier := node.Identifier, Count := node.Count }]) []

/-- The entries of a clock as (identifier, count) pairs, in clock order. -/
def entries (v : VectorClock) : List (Nat × Nat) :=
  v.map (fun t => (t.Identifier, t.Count))

/-- Specification of the increment by one: the tuple of `ident` has its count
raised by one, every other tuple is unchanged. -/
def bump (ident : Nat) (t : Tuple) : Tuple :=
  if t.Identifier = ident then { t with Count := t.Count + 1 } else t

end vectorclock

namespace kvstore

open vectorclock

structure CausalContext where
  Clock : VectorClock
  Key : String
deriving DecidableEq, Repr

structure Value where
  Timestamp : Int
  Clock : VectorClock
  Depends : CausalContext
  Available : Bool
  Data : String
deriving DecidableEq, Repr

/-- The zero value `Value{}`. -/
def Value.zero : Value :=
  { Timestamp := 0, Clock := [], Depends := { Clock := [], Key := "" },
    Available := false, Data := "" }

/-- A byte payload, by the outcome of `len(p) == 0` and `json.Unmarshal`. -/
inductive Payload where
  | empty
  | malformed
  | encoded (c : CausalContext)
deriving DecidableEq, Repr

structure KVStore where
  data : List (String × List Value)
  locks : List String
  gcInUse : Nat
deriving DecidableEq, Repr

/-- The four result slots `[vectorclock.Max][]T` of `traverseValues`. -/
structure Slots (α : Type) where
  equal : List α
  larger : List α
  smaller : List α
  uncomparable : List α
deriving DecidableEq, Repr

def Slots.nil {α : Type} : Slots α := ⟨[], [], [], []⟩

/-- Read of `all[relation]`. -/
def Slots.at {α : Type} (a : Slots α) (relation : Nat) : List α :=
  if relation = Equal then a.equal
  else if relation = Larger then a.larger
  else if relation = Smaller then a.smaller
  else a.uncomparable

/-- The update `all[relation] = append(all[relation], x)`. -/
def Slots.push {α : Type} (a : Slots α) (relation : Nat) (x : α) : Slots α :=
  if relation = Equal then { a with equal := a.equal ++ [x] }
  else if relation = Larger then { a with larger := a.larger ++ [x] }
  else if relation = Smaller then { a with smaller := a.smaller ++ [x] }
  else { a with uncomparable := a.uncomparable ++ [x] }

/-- The loop of `traverseValues`, from position `index` on; `avail` is the
call `s.isAvailable`, which may fail to return. -/
def traverseLoop (avail : Value → Option Bool) (clock : VectorClock) (onlyAvailable : Bool) :
    List Value → Nat → Slots Value × Slots Nat → Option (Slots Value × Slots Nat)
  | [], _, acc => some acc
  | value :: rest, index, acc =>
    if !onlyAvailable then
      let relation := Compare value.Clock clock
      traverseLoop avail clock onlyAvailable rest (index + 1)
        (acc.1.push relation value, acc.2.push relation index)
    else
      match avail value with
      | none => none
      | some true =>
        let relation := Compare value.Clock clock
        traverseLoop avail clock onlyAvailable rest (index + 1)
          (acc.1.push relation value, acc.2.push relation index)
      | some false => traverseLoop avail clock onlyAvailable rest (index + 1) acc

def traverseValues (avail : Value → Option Bool) (values : List Value) (clock : VectorClock)
    (onlyAvailable : Bool) : Option (Slots Value × Slots Nat) :=
  traverseLoop avail clock onlyAvailable values 0 (Slots.nil, Slots.nil)

/-- The availability check; `fuel` bounds the depth of the recursion through
`traverseValues`. -/
def isAvailable : Nat → KVStore → Value → Option Bool
  | 0, _, _ => none
  | fuel + 1, s, value =>
    if value.Available then some true
    else if ZeroClock value.Depends.Clock then some true
    else
      match mapGet s.data value.Depends.Key with
      | none => some false
      | some dependentValues =>
        match traverseValues (isAvailable fuel s) dependentValues value.Depends.Clock true with
        | none => none
        | some allDependentValues =>
          if (allDependentValues.1.at Equal).length = 0 then some false else some true

/-- The inner loop of `findDependencies` over one bucket. -/
def findInBucket (context : CausalContext) (key : String) :
    List Value → Nat → List String × List Nat → List String × List Nat
  | [], _, acc => acc
  | value :: rest, index, acc =>
    if Compare value.Depends.Clock context.Clock = Equal ∧ key = context.Key then
      findInBucket context key rest (index + 1) (acc.1 ++ [key], acc.2 ++ [index])
    else findInBucket context key rest (index + 1) acc

/-- The outer loop of `findDependencies` over the entries of `s.data`; locking
the mutex of a key without one is a nil dereference. -/
def findLoop (locks : List String) (context : CausalContext) :
    List (String × List Value) → List String × List Nat → Option (List String × List Nat)
  | [], acc => some acc
  | (key, values) :: rest, acc =>
    if key ≠ context.Key ∧ key ∉ locks then none
    else findLoop locks context rest (findInBucket context key values 0 acc)

def findDependencies (s : KVStore) (context : CausalContext) :
    Option (List String × List Nat) :=
  findLoop s.locks context s.data ([], [])

/-- The rewriting loop of `delete` over the dependents found. -/
def rewriteLoop (key : String) (value : Value) :
    List String → List Nat → KVStore → Option KVStore
  | dependentKey :: keys, valueIndex :: indices, s =>
    if dependentKey ≠ key ∧ dependentKey ∉ s.locks then none
    else
      let bucket := (mapGet s.data dependentKey).getD []
      match bucket.get? valueIndex with
      | none => none
      | some found =>
        let dependentValue := { found with Depends := value.Depends }
        let bucket := bucket.eraseIdx valueIndex
        let bucket := bucket ++ [dependentValue]
        rewriteLoop key value keys indices { s with data := mapSet s.data dependentKey bucket }
  | _, _, s => some s

/-- The internal `delete(key, value, index)`. -/
def delete (s : KVStore) (key : String) (value : Value) (index : Nat) : Option KVStore :=
  let dependencyContext : CausalContext := { Clock := value.Clock, Key := key }
  match findDependencies s dependencyContext with
  | none => none
  | some dependents =>
    match rewriteLoop key value dependents.1 dependents.2 s with
    | none => none
    | some s =>
      let bucket := (mapGet s.data key).getD []
      if index < bucket.length then
        some { s with data := mapSet s.data key (bucket.eraseIdx index) }
      else none

/-- The loop `for len(allValues) > 1` of `garbageCollection` on one key. -/
def compactKey : Nat → KVStore → String → Option KVStore
  | 0, s, key => if ((mapGet s.data key).getD []).length > 1 then none else some s
  | fuel + 1, s, key =>
    match (mapGet s.data key).getD [] with
    | first :: second :: _ =>
      let relation := Compare first.Clock second.Clock
      let next :=
        if relation = Smaller then delete s key first 0
        else if relation = Larger then delete s key second 1
        else if first.Timestamp > second.Timestamp then delete s key second 1
        else delete s key first 0
      match next with
      | none => none
      | some s => compactKey fuel s key
    | _ => some s

/-- The loop of `garbageCollection` over the keys of `s.locks`, in the order
`order` in which the map iteration yields them. -/
def compactAll : List String → KVStore → Option KVStore
  | [], s => some s
  | key :: rest, s =>
    match compactKey ((mapGet s.data key).getD []).length s key with
    | none => none
    | some s => compactAll rest s

def garbageCollection (s : KVStore) (order : List String) : Option KVStore :=
  if s.gcInUse ≠ 0 then some s
  else
    match compactAll order { s with gcInUse := 1 } with
    | none => none
    | some s => some { s with gcInUse := 0 }

/-- The store built by `New`. -/
def New : KVStore := { data := [], locks := [], gcInUse := 0 }

def Err : Int := -1
def Found : Int := 0
def Old : Int := 1
def Diverged : Int := 2
def NotFound : Int := 3
def Added : Int := 0
def Replaced : Int := 1

/-- Get acquires a key from the KVStore. -/
def Get (fuel : Nat) (s : KVStore) (key : String) (receivedPayload : Payload) :
    Option (Value × Payload × Int) :=
  if key ∉ s.locks then some (Value.zero, Payload.empty, NotFound)
  else
    let valueList := (mapGet s.data key).getD []
    match receivedPayload with
    | Payload.empty => some (Value.zero, Payload.empty, Err)
    | Payload.malformed => some (Value.zero, Payload.empty, Err)
    | Payload.encoded causalPayload =>
      match traverseValues (isAvailable fuel s) valueList causalPayload.Clock true with
      | none => none
      | some all =>
        let allValues := all.1
        let pick : Option (Value × Int) :=
          if (allValues.at Equal).length > 0 then
            some ((allValues.at Equal).headD Value.zero, Found)
          else if (allValues.at Larger).length > 0 then
            some ((allValues.at Larger).headD Value.zero, Found)
          else if (allValues.at Smaller).length > 0 then
            some ((allValues.at Smaller).headD Value.zero, Old)
          else if (allValues.at Uncomparable).length > 0 then
            some ((allValues.at Uncomparable).headD Value.zero, Diverged)
          else none
        match pick with
        | none => some (Value.zero, Payload.empty, NotFound)
        | some (returnValue, returnCode) =>
          some (returnValue,
            Payload.encoded { Clock := returnValue.Clock, Key := key }, returnCode)

/-- Put places a key-value pair into the KVStore. -/
def Put (fuel : Nat) (s : KVStore) (key : String) (value : Value) (receivedPayload : Payload)
    (ident : Nat) : Option (KVStore × Value × Payload × Int) :=
  match receivedPayload with
  | Payload.empty => some (s, Value.zero, Payload.empty, Err)
  | Payload.malformed => some (s, Value.zero, Payload.empty, Err)
  | Payload.encoded causalPayload =>
    let value := { value with Depends := causalPayload }
    let value := { value with Clock := Copy causalPayload.Clock }
    let value := { value with Clock := (Increment value.Clock ident 1).1 }
    match isAvailable fuel s value with
    | none => none
    | some available =>
      let value := { value with Available := available }
      let locks := if key ∈ s.locks then s.locks else s.locks ++ [key]
      let found := mapGet s.data key
      let returnCode := if found.isSome then Replaced else Added
      let valueList := found.getD [] ++ [value]
      some ({ s with data := mapSet s.data key valueList, locks := locks }, value,
        Payload.encoded { Clock := value.Clock, Key := key }, returnCode)

/-- The two loops of `Delete` over the values and indices recorded beforehand. -/
def deleteEach (key : String) : List Value → List Nat → KVStore → Option KVStore
  | value :: values, index :: indices, s =>
    match delete s key value index with
    | none => none
    | some s => deleteEach key values indices s
  | _, _, s => some s

/-- Delete removes all keys with an equal or older causal context than the
one provided. -/
def Delete (s : KVStore) (key : String) (receivedPayload : Payload) : Option (KVStore × Bool) :=
  match receivedPayload with
  | Payload.empty => some (s, false)
  | Payload.malformed => some (s, false)
  | Payload.encoded causalPayload =>
    if key ∉ s.locks then some (s, false)
    else
      let valueList := (mapGet s.data key).getD []
      match traverseValues (fun _ => some true) valueList causalPayload.Clock false with
      | none => none
      | some all =>
        match deleteEach key (all.1.at Equal) (all.2.at Equal) s with
        | none => none
        | some s =>
          match deleteEach key (all.1.at Smaller) (all.2.at Smaller) s with
          | none => none
          | some s => some (s, true)

/-- The bucket `s.data[key]`, empty when the key has no entry. -/
def bucket (s : KVStore) (key : String) : List Value :=
  (mapGet s.data key).getD []

/-- The Versions of a bucket that the availability check accepts. -/
def availableOf (fuel : Nat) (s : KVStore) (values : List Value) : List Value :=
  values.filter (fun v => isAvailable fuel s v == some true)

/-- Specification of the classify helper: the Versions of `available` whose
clock stands in `relation` to the reference clock, in insertion order. -/
def classOf (clock : VectorClock) (relation : Nat) (available : List Value) : List Value :=
  available.filter (fun v => decide (Compare v.Clock clock = relation))

/-- Specification of the selection made by `Get`: the first Version of the
first non-empty class in the order Equal, Larger, Smaller, Uncomparable. -/
def GetSpec (key : String) (clock : VectorClock) (available : List Value) :
    Value × Payload × Int :=
  match classOf clock Equal available with
  | v :: _ => (v, Payload.encoded { Clock := v.Clock, Key := key }, Found)
  | [] =>
    match classOf clock Larger available with
    | v :: _ => (v, Payload.encoded { Clock := v.Clock, Key := key }, Found)
    | [] =>
      match classOf clock Smaller available with
      | v :: _ => (v, Payload.encoded { Clock := v.Clock, Key := key }, Old)
      | [] =>
        match classOf clock Uncomparable available with
        | v :: _ => (v, Payload.encoded { Clock := v.Clock, Key := key }, Diverged)
        | [] => (Value.zero, Payload.empty, NotFound)

/-- The stores that `New`, `Put`, `Delete` and garbage collection produce. -/
inductive Reachable : KVStore → Prop where
  | new : Reachable New
  | put (fuel : Nat) (s s' : KVStore) (key : String) (value : Value) (payload : Payload)
      (ident : Nat) (out : Value × Payload × Int) :
      Reachable s → Put fuel s key value payload ident = some (s', out) → Reachable s'
  | delete (s s' : KVStore) (key : String) (payload : Payload) (removed : Bool) :
      Reachable s → Delete s key payload = some (s', removed) → Reachable s'
  | gc (s s' : KVStore) (order : List String) :
      Reachable s → order.Perm s.locks → garbageCollection s order = some s' → Reachable s'

/-! ### Concrete requests and stores of the scenarios -/

/-- The value `Value{Data: data, Timestamp: time}` that `putKVRequest` passes to `Put`. -/
def request (data : String) (time : Int) : Value :=
  { Value.zero with Data := data, Timestamp := time }

/-- The payload `{"clock":[{"identifier":0,"count":n}],"key":key}`. -/
def payloadOf (n : Nat) (key : String) : Payload :=
  Payload.encoded { Clock := [⟨0, n⟩], Key := key }

/-- A stored Version written by writer 0 from the context `({0:n}, key)`. -/
def version (data : String) (time : Int) (n : Nat) (key : String) (available : Bool) : Value :=
  { Timestamp := time, Clock := [⟨0, n + 1⟩], Depends := { Clock := [⟨0, n⟩], Key := key },
    Available := available, Data := data }

/-- After `Put("a", "1", ({0:1}, "a"))` on the new store: the Version depends
on its own key and its dependency is not met. -/
def selfDependent : KVStore :=
  { data := [("a", [version "1" 1 1 "a" false])], locks := ["a"], gcInUse := 0 }

/-- After `Put("a", "1", ({0:1}, ""))` and `Put("a", "2", ({0:0}, ""))`: the
causally newer Version was stored first. -/
def newerFirst : KVStore :=
  { data := [("a", [version "1" 1 1 "" false, version "2" 2 0 "" true])],
    locks := ["a"], gcInUse := 0 }

/-- After four Puts on "a" with the contexts `{0:0}`, `{0:0}`, `{0:5}`, `{0:7}`. -/
def fourSiblings : KVStore :=
  { data := [("a", [version "1" 1 0 "" true, version "2" 2 0 "" true,
                    version "3" 3 5 "" false, version "4" 4 7 "" false])],
    locks := ["a"], gcInUse := 0 }

/-- After `Put("a", "1", ({0:0}, ""))`. -/
def onlyA : KVStore :=
  { data := [("a", [version "1" 1 0 "" true])], locks := ["a"], gcInUse := 0 }

/-- After `Put("a", "1", ({0:0}, ""))` and `Put("b", "2", ({0:1}, "a"))`. -/
def chained : KVStore :=
  { data := [("a", [version "1" 1 0 "" true]), ("b", [version "2" 2 1 "a" true])],
    locks := ["a", "b"], gcInUse := 0 }

/-- The store `chained` after `Delete("a", ({0:1}, "a"))`. -/
def chainedDeleted : KVStore :=
  { data := [("a", []), ("b", [version "2" 2 1 "a" true])],
    locks := ["a", "b"], gcInUse := 0 }

/-- After `Put("b", "2", ({0:1}, "a"))` on the new store. -/
def onlyB : KVStore :=
  { data := [("b", [version "2" 1 1 "a" false])], locks := ["b"], gcInUse := 0 }

/-- After `Put("b", "2", ({0:1}, "a"))` and then `Put("a", "1", ({0:0}, ""))`:
the dependency of the Version on "b" arrived after it. -/
def pending : KVStore :=
  { data := [("b", [version "2" 1 1 "a" false]), ("a", [version "1" 2 0 "" true])],
    locks := ["b", "a"], gcInUse := 0 }

/-- The store `pending` after the internal `delete("a", v, 0)` of the Version on "a". -/
def pendingDeleted : KVStore :=
  { data := [("b", [version "2" 1 1 "a" false]), ("a", [])],
    locks := ["b", "a"], gcInUse := 0 }

/-- The store `onlyA` after `Delete("a", ({0:1}, "a"))`: the key keeps an
entry, with an empty bucket. -/
def emptied : KVStore :=
  { data := [("a", [])], locks := ["a"], gcInUse := 0 }

/-- The value that `Put` checks for availability: the request with
`Depends` set to the context and `Clock` set to the incremented copy of the
clock of the context. -/
def prepared (value : Value) (causalPayload : CausalContext) (ident : Nat) : Value :=
  { Timestamp := value.Timestamp, Clock := (Increment (Copy causalPayload.Clock) ident 1).1,
    Depends := causalPayload, Available := value.Available, Data := value.Data }

/-- The Version stored by `Put("a", "1", ({1:0}, ""))` of writer 0, whose
identifier the context does not declare. -/
def undeclared : Value :=
  { Timestamp := 1, Clock := [⟨1, 0⟩], Depends := { Clock := [⟨1, 0⟩], Key := "" },
    Available := true, Data := "1" }

/-- A store with the single Version `v` under the key "a". -/
def single (v : Value) : KVStore :=
  { data := [("a", [v])], locks := ["a"], gcInUse := 0 }

end kvstore

namespace vectorclock

/-- The flag `firstLarger` at the end of `Compare`, on the two hash tables. -/
def firstLarger (hashMap1 hashMap2 : List (Nat × Nat)) : Bool :=
  hashMap1.any (fun e => match mapGet hashMap2 e.1 with
    | none => true
    | some val2 => decide (e.2 > val2)) ||
  hashMap2.any (fun e => match mapGet hashMap1 e.1 with
    | none => false
    | some val => decide (val > e.2))

/-- The flag `secondLarger` at the end of `Compare`, on the two hash tables. -/
def secondLarger (hashMap1 hashMap2 : List (Nat × Nat)) : Bool :=
  hashMap1.any (fun e => match mapGet hashMap2 e.1 with
    | none => false
    | some val2 => decide (e.2 < val2)) ||
  hashMap2.any (fun e => match mapGet hashMap1 e.1 with
    | none => true
    | some val => decide (val < e.2))

/-- The rank of an identifier in a hash table: zero when it has no entry, its
count plus one when it has one. -/
def levelOf (m : List (Nat × Nat)) (ident : Nat) : Nat :=
  match mapGet m ident with
  | none => 0
  | some c => c + 1

/-- The rank of an identifier in a clock: an absent identifier ranks strictly
below every present one, also below one whose count is zero. -/
def level (v : VectorClock) (ident : Nat) : Nat := levelOf (entries v) ident

/-- The count of an identifier in a clock, an absent identifier counted as zero. -/
def zeroCount (v : VectorClock) (ident : Nat) : Nat := (mapGet (entries v) ident).getD 0

/-- Specification of `Increment(ident, n)` without wrap-around: the tuple of
`ident` has its count raised by `n`, every other tuple is unchanged. -/
def raise (ident n : Nat) (t : Tuple) : Tuple :=
  if t.Identifier = ident then { t with Count := t.Count + n } else t

end vectorclock

namespace kvstore

open vectorclock

/-- The Version stored by the Put number `i` (counted from 0) of the linear
chain of writer 0 on the key "a": its context is `({0:i}, "")` for the first
Put and the payload echoed by the previous Put, `({0:i}, "a")`, afterwards. -/
def chainVersion (data : Nat → String) (time : Nat → Int) (i : Nat) : Value :=
  version (data i) (time i) i (if i = 0 then "" else "a") true

/-- The store after the first `n` Puts of the linear chain. -/
def chainStore (data : Nat → String) (time : Nat → Int) : Nat → KVStore
  | 0 => New
  | n + 1 =>
    { data := [("a", (List.range (n + 1)).map (chainVersion data time))], locks := ["a"],
      gcInUse := 0 }

/-- The linear chain, run on the code: `n` Puts on "a" by writer 0 from the new
store, the first with the zero context `{0:0}`, each later one with the
payload echoed by the previous Put.  The result is the store and the payload
echoed last. -/
def linearChain (fuel : Nat) (data : Nat → String) (time : Nat → Int) :
    Nat → Option (KVStore × Payload)
  | 0 => some (New, payloadOf 0 "")
  | n + 1 =>
    match linearChain fuel data time n with
    | none => none
    | some (s, payload) =>
      match Put fuel s "a" (request (data n) (time n)) payload 0 with
      | none => none
      | some (s', _, echoed, _) => some (s', echoed)

/-- After `Put("a", "1", ({0:0}, ""))` and `Put("a", "2", ({0:1}, "a"))`: the
linear chain of two Puts. -/
def twoPuts : KVStore :=
  { data := [("a", [version "1" 1 0 "" true, version "2" 2 1 "a" true])], locks := ["a"],
    gcInUse := 0 }

/-- The data of the two Puts of scenario 1. -/
def twoData (i : Nat) : String := if i = 0 then "1" else "2"

/-- The times of the two Puts of scenario 1. -/
def twoTime (i : Nat) : Int := if i = 0 then 1 else 2

end kvstore

namespace kvstore

open vectorclock

/-- Representation invariant of the tables: the keys of `data` are pairwise
distinct, as in a Go map, and each of them owns a lock. -/
def Tables (s : KVStore) : Prop :=
  (s.data.map Prod.fst).Nodup ∧ ∀ k ∈ s.data.map Prod.fst, k ∈ s.locks

/-- The invariant of the stores between operations: the tables are consistent
and no compaction is in progress. -/
def WellFormed (s : KVStore) : Prop :=
  Tables s ∧ s.gcInUse = 0

/-- The store `s'` differs from `s` at most in the bucket of `key`: same
locks, same compaction flag, same keys, same bucket for every other key. -/
def SameExcept (s s' : KVStore) (key : String) : Prop :=
  s'.locks = s.locks ∧ s'.gcInUse = s.gcInUse ∧
    s'.data.map Prod.fst = s.data.map Prod.fst ∧
    ∀ k, k ≠ key → mapGet s'.data k = mapGet s.data k

end kvstore

namespace node

/-- IP holds IP and port. -/
structure IP where
  IP : String
  Port : String
deriving DecidableEq, Repr

/-- The Go comparison `a < b` of two strings, on their characters:
lexicographic, the shorter of two texts that agree coming first. -/
def textLess : List Char → List Char → Bool
  | [], [] => false
  | [], _ :: _ => true
  | _ :: _, [] => false
  | a :: as, b :: bs =>
    if a.toNat < b.toNat then true
    else if a = b then textLess as bs
    else false

/-- Compare is used to compare two IP's: 0 equal, -1 smaller, 1 larger. -/
def IP.Compare (i com : node.IP) : Int :=
  if i.IP = com.IP then
    if i.Port = com.Port then 0
    else if textLess i.Port.data com.Port.data then -1
    else 1
  else if textLess i.IP.data com.IP.data then -1
  else 1

/-- String is used to return the IP as a Host:IP string. -/
def IP.String (i : node.IP) : String :=
  i.IP ++ ":" ++ i.Port

structure View where
  Nodes : List IP
  Self : IP
deriving DecidableEq, Repr

def View.GetCopy (v : View) : List IP :=
  v.Nodes.foldl (fun copyView n => copyView ++ [n]) []

/-- The loop of `Exists` over the copy of the view. -/
def existsLoop (ip : IP) : List IP → Bool
  | [] => false
  | val :: rest => if val.Compare ip = 0 then true else existsLoop ip rest

def View.Exists (v : View) (ip : IP) : Bool :=
  existsLoop ip v.GetCopy

/-- Add is used to add an IP to the view; the view is returned with the result. -/
def View.Add (v : View) (ip : IP) : View × Bool :=
  if v.Exists ip then (v, false)
  else ({ v with Nodes := v.Nodes ++ [ip] }, true)

/-- The text `strings.Split(s, ",")`, on the characters of `s`. -/
def splitComma : List Char → List (List Char)
  | [] => [[]]
  | c :: rest =>
    if c = ',' then [] :: splitComma rest
    else
      match splitComma rest with
      | [] => [[c]]
      | head :: tail => (c :: head) :: tail

/-- NewView creates a new View; `parse` is `NewIP`, whose body is the host
and port parser of the Go library. -/
def NewView (parse : String → IP) (view : String) (self : String) : View :=
  let v : View := { Nodes := [], Self := { IP := "", Port := "" } }
  let viewList := (splitComma view.data).map String.mk
  let v := viewList.foldl (fun v ipPort => (v.Add (parse ipPort)).1) v
  { v with Self := parse self }

/-- Shard is a collection of IP's referenced by an ID. -/
structure Shard where
  View : View
  ID : Nat
deriving DecidableEq, Repr

structure Shards where
  Shards : List Shard
deriving DecidableEq, Repr

/-- The first loop of `NewShards`: `remaining` more sizes are appended to
`addList`, each `each`, raised by one while `extra` lasts. -/
def fillLoop (each : Nat) : Nat → Nat → List Nat → List Nat
  | 0, _, addList => addList
  | remaining + 1, extra, addList =>
    if extra > 0 then fillLoop each remaining (extra - 1) (addList ++ [each + 1])
    else fillLoop each remaining extra (addList ++ [each])

/-- One iteration of the repair loop of `NewShards`, at index `i`; an index
out of range is a panic. -/
def repairStep (addList : List Nat) (i : Nat) : Option (List Nat) :=
  match addList.get? i with
  | none => none
  | some x =>
    let moved : Option (List Nat) :=
      if i = 0 ∧ x = 1 then
        if addList.length > 1 then
          match addList.get? (i + 1) with
          | none => none
          | some y => some ((addList.set (i + 1) (y + 1)).set i 0)
        else some addList
      else if x = 1 then
        match addList.get? (i - 1) with
        | none => none
        | some y => some ((addList.set (i - 1) (y + 1)).set i 0)
      else some addList
    match moved with
    | none => none
    | some addList =>
      match addList.get? i with
      | none => none
      | some x => if x = 0 then some (addList.eraseIdx i) else some addList

/-- The repair loop of `NewShards`, for `i` from `count - 1` down to 0. -/
def repairLoop : Nat → List Nat → Option (List Nat)
  | 0, addList => some addList
  | i + 1, addList =>
    match repairStep addList i with
    | none => none
    | some addList => repairLoop i addList

/-- The inner loop of the last loop of `NewShards`: `val - j` more members
are appended to `viewString`, from position `index` of the copy. -/
def memberLoop (v : List IP) : Nat → Nat → Nat → String → Option (String × Nat)
  | 0, _, index, viewString => some (viewString, index)
  | remaining + 1, j, index, viewString =>
    match v.get? index with
    | none => none
    | some ip =>
      let viewString := if j ≠ 0 then viewString ++ "," else viewString
      memberLoop v remaining (j + 1) (index + 1) (viewString ++ ip.String)

/-- The last loop of `NewShards`, over the sizes of `addList` from shard `i`. -/
def shardLoop (parse : String → IP) (self : IP) (v : List IP) :
    List Nat → Nat → Nat → Option (List Shard)
  | [], _, _ => some []
  | val :: rest, i, index =>
    match memberLoop v val 0 index "" with
    | none => none
    | some (viewString, index) =>
      match shardLoop parse self v rest (i + 1) index with
      | none => none
      | some shards =>
        some ({ View := NewView parse viewString self.String, ID := i % 2 ^ 32 } :: shards)

/-- NewShards creates a number of clusters based on number provided; a
negative number panics in `make`. -/
def NewShards (parse : String → IP) (view : View) (num : Int) : Option Shards :=
  let v := view.GetCopy
  let num := if num = 0 then 1 else num
  if num < 0 then none
  else
    let each := v.length / num.toNat
    let extra := v.length % num.toNat
    let addList := fillLoop each num.toNat extra []
    match repairLoop num.toNat addList with
    | none => none
    | some addList =>
      match shardLoop parse view.Self v addList 0 0 with
      | none => none
      | some shards => some { Shards := shards }

/-- A host and port parser that agrees with `NewIP` on texts `host:port`
without white space, brackets or a second colon: the text before the last
colon and the text after it; a text without a colon is a host. -/
def plainIP (text : String) : IP :=
  let reversed := text.data.reverse
  if ':' ∈ text.data then
    { IP := String.mk ((reversed.dropWhile (fun c => c ≠ ':')).drop 1).reverse,
      Port := String.mk (reversed.takeWhile (fun c => c ≠ ':')).reverse }
  else { IP := text, Port := "" }

/-- The text that the last loop of `NewShards` builds from the members of one
shard: the endpoint texts, each but the first (`j = 0`) preceded by a comma. -/
def sepJoin : Nat → List IP → List Char
  | _, [] => []
  | j, ip :: rest => (if j ≠ 0 then [','] else []) ++ ip.String.data ++ sepJoin (j + 1) rest

/-- The view of scenario 5: five endpoints. -/
def fiveView : View :=
  { Nodes := [⟨"10.0.0.1", "8080"⟩, ⟨"10.0.0.2", "8080"⟩, ⟨"10.0.0.3", "8080"⟩,
              ⟨"10.0.0.4", "8080"⟩, ⟨"10.0.0.5", "8080"⟩],
    Self := ⟨"10.0.0.1", "8080"⟩ }

/-- A view whose only endpoint is what `NewIP("a,b:80")` yields: its host
holds a comma. -/
def commaView : View :=
  { Nodes := [⟨"a,b", "80"⟩], Self := ⟨"a,b", "80"⟩ }

end node

namespace kvstore

open vectorclock

/-- The Version stored by `Put("a", "1", ({1:5}, "a"))` of writer 0: the
writer has no tuple in the clock, so the clock of the Version is the clock it
depends on, under its own key. -/
def selfEqualVersion : Value :=
  { Timestamp := 1, Clock := [⟨1, 5⟩], Depends := { Clock := [⟨1, 5⟩], Key := "a" },
    Available := false, Data := "1" }

/-- After two Puts on "a" with the context `({0:0}, "")`: two Versions with the
clock `{0:1}`. -/
def twoEqual : KVStore :=
  { data := [("a", [version "1" 1 0 "" true, version "2" 2 0 "" true])], locks := ["a"],
    gcInUse := 0 }

end kvstore

namespace node

/-- Two distinct endpoints; the text of the second holds a comma, and each of
its two pieces is the text of the first. -/
def pairView : View :=
  { Nodes := [⟨"a", "1"⟩, ⟨"a:1,a", "1"⟩], Self := ⟨"a", "1"⟩ }

/-- Two distinct endpoints; the host of the first holds a comma. -/
def wideView : View :=
  { Nodes := [⟨"a,b", "80"⟩, ⟨"c", "80"⟩], Self := ⟨"c", "80"⟩ }

/-- A view that stores its two endpoints in descending order. -/
def unsortedView : View :=
  { Nodes := [⟨"b", "1"⟩, ⟨"a", "1"⟩], Self := ⟨"a", "1"⟩ }

end node

namespace node

/-- One iteration of the loop of `Remove`, at index `i`.  The loop ranges over
the slice `v.Nodes` as it was when the loop began: `arr` is the array behind
that slice, which `v.Nodes` shares, and `len` the current length of
`v.Nodes`.  On a match, `append(v.Nodes[:i], v.Nodes[i+1:]...)` moves the
members after `i` one place down inside the array and shortens `v.Nodes` by
one; the slice expression `v.Nodes[i+1:]` panics when `i + 1` exceeds the
current length. -/
def removeStep (ip : IP) (arr : List IP) (len i : Nat) : Option (List IP × Nat) :=
  match arr.get? i with
  | none => none
  | some val =>
    if val = ip then
      if i + 1 ≤ len then
        some (arr.take i ++ ((arr.drop (i + 1)).take (len - (i + 1)) ++ arr.drop (len - 1)),
          len - 1)
      else none
    else some (arr, len)

/-- The loop of `Remove`: `remaining` more iterations from index `i`. -/
def removeLoop (ip : IP) : Nat → Nat → List IP → Nat → Option (List IP × Nat)
  | 0, _, arr, len => some (arr, len)
  | remaining + 1, i, arr, len =>
    match removeStep ip arr len i with
    | none => none
    | some (arr, len) => removeLoop ip remaining (i + 1) arr len

/-- Remove is used to remove an IP from the view; the view is returned with
the result. -/
def View.Remove (v : View) (ip : IP) : Option (View × Bool) :=
  if !v.Exists ip then some (v, false)
  else
    match removeLoop ip v.Nodes.length 0 v.Nodes v.Nodes.length with
    | none => none
    | some (arr, len) => some ({ v with Nodes := arr.take len }, true)

/-- The view of the unit test of the package, after its first `Add`. -/
def testView : View :=
  { Nodes := [⟨"192.168.1.1", "8080"⟩, ⟨"192.168.1.2", "8080"⟩, ⟨"192.168.1.3", "8080"⟩,
              ⟨"192.168.1.4", "8080"⟩, ⟨"192.168.1.5", "8080"⟩],
    Self := ⟨"192.168.1.1", "8080"⟩ }

end node

namespace http

/-- The status code `http.StatusOK` of the Go library, as the others below. -/
def StatusOK : Nat := 200
def StatusCreated : Nat := 201
def StatusBadRequest : Nat := 400
def StatusUnauthorized : Nat := 401
def StatusForbidden : Nat := 403
def StatusNotFound : Nat := 404
def StatusConflict : Nat := 409
def StatusUnprocessableEntity : Nat := 422

end http

namespace main

/-- MethodReply is the JSON reply for an operation on the KV Store.  The
handlers return `json.Marshal` of it; the embedding returns the struct.  The
payload text is a `kvstore.Payload`, as in the store. -/
structure MethodReply where
  Msg : String
  Value : String
  IsExists : Bool
  Replaced : Bool
  Error : String
  View : String
  Result : String
  Payload : kvstore.Payload
  ID : Nat
  ShardIDs : String
  Members : String
  Count : Nat
  Owner : Nat
deriving DecidableEq, Repr

/-- The zero value `MethodReply{}`. -/
def MethodReply.zero : MethodReply :=
  { Msg := "", Value := "", IsExists := false, Replaced := false, Error := "", View := "",
    Result := "", Payload := kvstore.Payload.empty, ID := 0, ShardIDs := "", Members := "",
    Count := 0, Owner := 0 }

/-- The handler of a GET request on a key: the reply and the HTTP status. -/
def getKVRequest (fuel : Nat) (s : kvstore.KVStore) (key : String) (payload : kvstore.Payload) :
    Option (MethodReply × Nat) :=
  if payload = kvstore.Payload.empty then
    some ({ MethodReply.zero with Result := "Error", Msg := "Key does not exist",
                                  Payload := payload }, http.StatusNotFound)
  else
    let receivedPayload := payload
    match kvstore.Get fuel s key receivedPayload with
    | none => none
    | some (value, retPayload, retCode) =>
      if retCode = kvstore.Err then
        some ({ MethodReply.zero with Result := "Error", Msg := "Something fucked up!",
                                      Payload := payload }, http.StatusForbidden)
      else if retCode = kvstore.NotFound then
        some ({ MethodReply.zero with Result := "Error", Msg := "Key does not exist",
                                      Payload := payload }, http.StatusNotFound)
      else if retCode = kvstore.Diverged then
        some ({ MethodReply.zero with Result := "Error", Msg := "Value is not causally related",
                                      Payload := payload }, http.StatusConflict)
      else if retCode = kvstore.NotFound then
        some ({ MethodReply.zero with
                  Result := "Error",
                  Msg := "Unable to serve request and maintain causal consistency",
                  Payload := payload }, http.StatusBadRequest)
      else
        some ({ MethodReply.zero with Owner := 0, Result := "Success", Value := value.Data,
                                      Payload := retPayload }, http.StatusOK)

/-- The handler of a PUT request on a key: the store, the stored value, the
reply and the HTTP status.  `now` is the reading of `time.Now()` and
`unmarshal` the decoding of a `kvstore.Value` by `json.Unmarshal`, whose error
the handler drops. -/
def putKVRequest (fuel : Nat) (s : kvstore.KVStore) (key : String) (data : String)
    (payload : kvstore.Payload) (ident : Nat) (nodeConnecion : Bool) (now : Int)
    (unmarshal : String → kvstore.Value) :
    Option (kvstore.KVStore × kvstore.Value × MethodReply × Nat) :=
  if payload = kvstore.Payload.empty then
    some (s, kvstore.Value.zero,
      { MethodReply.zero with Result := "Error", Msg := "Something fucked up!",
                              Payload := payload }, http.StatusUnauthorized)
  else
    let receivedPayload := payload
    if data = "" then
      some (s, kvstore.Value.zero,
        { MethodReply.zero with Msg := "Error", Error := "Value is missing" },
        http.StatusUnprocessableEntity)
    else if data.utf8ByteSize > 1024 * 1024 then
      some (s, kvstore.Value.zero,
        { MethodReply.zero with Msg := "Error", Error := "Object too large. Size limit is 1MB" },
        http.StatusUnprocessableEntity)
    else
      let dataValue := if nodeConnecion then (unmarshal data).Data else data
      let timestamp := if nodeConnecion then (unmarshal data).Timestamp else now
      match kvstore.Put fuel s key { kvstore.Value.zero with Data := dataValue,
                                                             Timestamp := timestamp }
          receivedPayload ident with
      | none => none
      | some (s, value, retPayload, retCode) =>
        if retCode = kvstore.Err then
          some (s, kvstore.Value.zero,
            { MethodReply.zero with Result := "Error", Msg := "Something fucked up!",
                                    Payload := payload }, http.StatusForbidden)
        else if retCode = kvstore.Added then
          some (s, value,
            { MethodReply.zero with Replaced := false, Msg := "Added successfully",
                                    Payload := retPayload }, http.StatusOK)
        else
          some (s, value,
            { MethodReply.zero with Replaced := true, Msg := "Updated successfully",
                                    Payload := retPayload }, http.StatusCreated)

/-- The ASCII double quote. -/
def quote : Char := Char.ofNat 34

/-- The backslash. -/
def backslash : Char := Char.ofNat 92

/-- The pieces of `strings.Split(s, sep)` for the separator of two characters
backslash, quote: the text is cut at each occurrence, from the left. -/
def splitEscaped : List Char → List (List Char)
  | [] => [[]]
  | [c] => [[c]]
  | c :: d :: rest =>
    if c = backslash ∧ d = quote then [] :: splitEscaped rest
    else
      match splitEscaped (d :: rest) with
      | [] => [[c]]
      | head :: tail => (c :: head) :: tail

/-- The loop of `cleanPayload` over the pieces, from index `i`. -/
def joinLoop : List (List Char) → Nat → List Char → List Char
  | [], _, payload => payload
  | v :: rest, i, payload =>
    joinLoop rest (i + 1) (if i = 0 then payload ++ v else payload ++ [quote] ++ v)

/-- The function `cleanPayload`, on texts of valid UTF-8: the first and the
last byte of such a text are a quote exactly when the first and the last
character are. -/
def cleanPayload (payload : String) : String :=
  if payload.utf8ByteSize < 2 then payload
  else
    let text := payload.data
    let text := if text.head? = some quote then text.drop 1 else text
    let text := if text.getLast? = some quote then text.dropLast else text
    String.mk (joinLoop (splitEscaped text) 0 [])

/-- Each backslash followed by a quote replaced by a quote, from the left. -/
def replaceEscaped : List Char → List Char
  | [] => []
  | [c] => [c]
  | c :: d :: rest =>
    if c = backslash ∧ d = quote then quote :: replaceEscaped rest
    else c :: replaceEscaped (d :: rest)

/-- The cleaning that the specification describes: one leading quote removed
if present, then one trailing quote if present, then each backslash followed
by a quote replaced by a quote. -/
def cleanPayloadSpec (p : String) : String :=
  let text := p.data
  let text := if text.head? = some quote then text.drop 1 else text
  let text := if text.getLast? = some quote then text.dropLast else text
  String.mk (replaceEscaped text)

/-- After `Put("a", "1", ({0:0}, ""))` and `Put("a", "2", ({0:1}, "a"))`. -/
def twoVersions : kvstore.KVStore :=
  { data := [("a", [kvstore.version "1" 1 0 "" true, kvstore.version "2" 2 1 "a" true])],
    locks := ["a"], gcInUse := 0 }

end main

namespace kvstore

open vectorclock

/-- Two keys with two sibling Versions each. -/
def twoBuckets : KVStore :=
  { data := [("a", [version "1" 1 0 "" true, version "2" 2 0 "" true]),
             ("b", [version "3" 3 0 "" true, version "4" 4 0 "" true])],
    locks := ["a", "b"], gcInUse := 0 }

end kvstore

namespace kvstore

open vectorclock

/-- Where one invocation of `garbageCollection` stands: before its
compare-and-swap on `gcInUse`, with the order in which it will range over the
keys; inside the loop over the keys, with the keys still to compact; or
returned. -/
inductive Phase where
  | ready (order : List String)
  | compacting (remaining : List String)
  | returned
deriving DecidableEq, Repr

/-- An invocation is in the compaction phase from its successful
compare-and-swap up to its `atomic.StoreUint32(&s.gcInUse, 0)`. -/
def Phase.isCompacting : Phase → Bool
  | Phase.compacting _ => true
  | _ => false

/-- A store together with the invocations of `garbageCollection` on it. -/
structure Config where
  store : KVStore
  calls : List Phase
deriving DecidableEq, Repr

/-- The next atomic step of invocation `i`: the compare-and-swap of `gcInUse`
from 0 to 1, after which the invocation compacts or, when the swap fails,
returns; the compaction of the next key, under the lock of that key; or the
store of 0 to `gcInUse`.  There is no step for an invocation that has
returned, and none when the compaction panics. -/
def gcStep (c : Config) (i : Nat) : Option Config :=
  match c.calls.get? i with
  | none => none
  | some (Phase.ready order) =>
    if c.store.gcInUse = 0 then
      some { store := { c.store with gcInUse := 1 },
             calls := c.calls.set i (Phase.compacting order) }
    else some { store := c.store, calls := c.calls.set i Phase.returned }
  | some (Phase.compacting (key :: rest)) =>
    match compactKey ((mapGet c.store.data key).getD []).length c.store key with
    | none => none
    | some s => some { store := s, calls := c.calls.set i (Phase.compacting rest) }
  | some (Phase.compacting []) =>
    some { store := { c.store with gcInUse := 0 }, calls := c.calls.set i Phase.returned }
  | some Phase.returned => none

/-- An interleaving: the invocations of `schedule` take their next step, one
after the other. -/
def gcRun (c : Config) : List Nat → Option Config
  | [] => some c
  | i :: schedule =>
    match gcStep c i with
    | none => none
    | some c => gcRun c schedule

end kvstore

namespace merkletree

/-- Node is a node of the Merkle Tree.  `Build` makes two kinds of nodes: a
leaf (`Leaf: true`, the hash of its data, no children) and a parent
(`Leaf: false`, its two children, no data); `δ` is the type of the data and
`η` the type of a hash. -/
inductive Node (δ η : Type) where
  | leaf (Hash : η) (Data : δ) (level : Nat)
  | parent (Hash : η) (Left Right : Node δ η) (level : Nat)
deriving DecidableEq, Repr

def Node.Leaf {δ η : Type} : Node δ η → Bool
  | Node.leaf _ _ _ => true
  | Node.parent _ _ _ _ => false

def Node.Hash {δ η : Type} : Node δ η → η
  | Node.leaf h _ _ => h
  | Node.parent h _ _ _ => h

def Node.level {δ η : Type} : Node δ η → Nat
  | Node.leaf _ _ l => l
  | Node.parent _ _ _ l => l

/-- The leaf that `Build` makes of the data item `v`:
`Node{Leaf: true, Hash: v.hash(), Data: v, level: 0}`. -/
def leafNode {δ η : Type} (hash : δ → η) (v : δ) : Node δ η :=
  Node.leaf (hash v) v 0

/-- The parent that one iteration of the loop of `Build` makes of `first` and
`second`; `sum a b` is the SHA-256 hash of the bytes of `a` followed by the
bytes of `b`. -/
def parentNode {δ η : Type} (sum : η → η → η) (first second : Node δ η) : Node δ η :=
  Node.parent (sum first.Hash second.Hash) first second (first.level + 1)

/-- One iteration of the loop `for len(nodeList) > 1` of `Build`. -/
def buildStep {δ η : Type} (sum : η → η → η) : List (Node δ η) → List (Node δ η)
  | first :: second :: rest =>
    if first.level ≠ second.level then (second :: rest) ++ [parentNode sum first first]
    else rest ++ [parentNode sum first second]
  | nodeList => nodeList

/-- The loop `for len(nodeList) > 1` of `Build`, for at most `fuel`
iterations; `none` when the fuel runs out. -/
def buildLoop {δ η : Type} (sum : η → η → η) : Nat → List (Node δ η) → Option (List (Node δ η))
  | 0, nodeList => if nodeList.length > 1 then none else some nodeList
  | fuel + 1, nodeList =>
    if nodeList.length > 1 then buildLoop sum fuel (buildStep sum nodeList) else some nodeList

/-- Build creates the tree based on the data passed and returns the root of
the Merkle Tree: `some none` is the result `nil` for no data, and `hash` is
the method `hash()` of the data. -/
def Build {δ η : Type} (hash : δ → η) (sum : η → η → η) (fuel : Nat) (data : List δ) :
    Option (Option (Node δ η)) :=
  if data.length = 0 then some none
  else
    let nodeList := data.map (leafNode hash)
    match buildLoop sum fuel nodeList with
    | none => none
    | some nodeList => some nodeList.head?

/-- The parent of the lone fifth leaf and its copy, of level 1. -/
def loneParent {δ η : Type} (hash : δ → η) (sum : η → η → η) (d4 : δ) : Node δ η :=
  parentNode sum (leafNode hash d4) (leafNode hash d4)

/-- The node of level 2 above the first four leaves. -/
def quadParent {δ η : Type} (hash : δ → η) (sum : η → η → η) (d0 d1 d2 d3 : δ) : Node δ η :=
  parentNode sum (parentNode sum (leafNode hash d0) (leafNode hash d1))
    (parentNode sum (leafNode hash d2) (leafNode hash d3))

end merkletree

/-! ## Go maps -/

theorem mapGet_mapSet_self {κ α : Type} [DecidableEq κ] (m : List (κ × α)) (k : κ) (v : α) :
    mapGet (mapSet m k v) k = some v := by
  induction m with
  | nil => simp [mapSet, mapGet]
  | cons e rest ih =>
    obtain ⟨k', v'⟩ := e
    by_cases h : k' = k
    · simp [mapSet, mapGet, h]
    · simp [mapSet, mapGet, h, ih]

theorem mapGet_mapSet_other {κ α : Type} [DecidableEq κ] (m : List (κ × α)) (k k' : κ) (v : α)
    (hne : k' ≠ k) : mapGet (mapSet m k v) k' = mapGet m k' := by
  induction m with
  | nil =>
    have h : ¬ k = k' := fun e => hne e.symm
    simp [mapSet, mapGet, h]
  | cons e rest ih =>
    obtain ⟨k0, v0⟩ := e
    by_cases h : k0 = k
    · have h' : ¬ k0 = k' := fun e => hne (e.symm.trans h)
      have h'' : ¬ k = k' := fun e => hne e.symm
      simp [mapSet, mapGet, h, h', h'']
    · by_cases h2 : k0 = k'
      · subst h2
        simp [mapSet, mapGet, h]
      · simp [mapSet, mapGet, h, h2, ih]

namespace vectorclock

/-! ## Vector clocks -/

theorem Compare_le (a b : VectorClock) : Compare a b ≤ 3 := by
  unfold Compare
  simp only [Uncomparable, Larger, Smaller, Equal]
  split_ifs <;> omega

theorem Copy_eq (v : VectorClock) : Copy v = v := by
  have h : ∀ (v acc : VectorClock),
      List.foldl (fun clock node =>
        clock ++ [({ Identifier := node.Identifier, Count := node.Count } : Tuple)]) acc v
        = acc ++ v := by
    intro v
    induction v with
    | nil => intro acc; simp
    | cons t rest ih => intro acc; simp [List.foldl_cons, ih]
  simpa [Copy] using h v []

theorem Increment_cons (t : Tuple) (rest : VectorClock) (ident count : Nat) :
    Increment (t :: rest) ident count =
      if t.Identifier = ident then
        ({ t with Count := (t.Count + count) % 2 ^ 32 } :: rest, true)
      else (t :: (Increment rest ident count).1, (Increment rest ident count).2) := by
  by_cases h : t.Identifier = ident
  · simp [Increment, searchIndex, h]
  · simp only [Increment, searchIndex, h, if_false]
    cases hs : searchIndex rest ident with
    | none => simp
    | some i =>
      simp only [List.get?_cons_succ]
      cases hg : rest.get? i with
      | none => simp
      | some u => simp [List.set]

theorem Increment_absent (v : VectorClock) (ident count : Nat)
    (h : ident ∉ v.map Tuple.Identifier) : Increment v ident count = (v, false) := by
  induction v with
  | nil => rfl
  | cons t rest ih =>
    simp only [List.map_cons, List.mem_cons, not_or] at h
    rw [Increment_cons, if_neg (fun e => h.1 e.symm), ih h.2]

theorem map_bump_of_not_mem (ident : Nat) (v : VectorClock)
    (h : ident ∉ v.map Tuple.Identifier) : v.map (bump ident) = v := by
  induction v with
  | nil => rfl
  | cons t rest ih =>
    simp only [List.map_cons, List.mem_cons, not_or] at h
    have hne : ¬ t.Identifier = ident := fun e => h.1 e.symm
    simp [bump, hne, ih h.2]

theorem Increment_present (v : VectorClock) (ident : Nat)
    (hnd : (v.map Tuple.Identifier).Nodup) (hmem : ident ∈ v.map Tuple.Identifier)
    (hb : ∀ t ∈ v, t.Identifier = ident → t.Count + 1 < 2 ^ 32) :
    Increment v ident 1 = (v.map (bump ident), true) := by
  induction v with
  | nil => simp at hmem
  | cons t rest ih =>
    simp only [List.map_cons, List.nodup_cons] at hnd
    rw [Increment_cons]
    by_cases h : t.Identifier = ident
    · have hlt := hb t (List.mem_cons_self _ _) h
      have hrest : ident ∉ rest.map Tuple.Identifier := h ▸ hnd.1
      have hmod : (t.Count + 1) % 2 ^ 32 = t.Count + 1 := Nat.mod_eq_of_lt hlt
      simp only [h, if_true, List.map_cons, bump, map_bump_of_not_mem ident rest hrest, hmod]
    · have hmem' : ident ∈ rest.map Tuple.Identifier := by
        simp only [List.map_cons, List.mem_cons] at hmem
        rcases hmem with e | e
        · exact absurd e.symm h
        · exact e
      have := ih hnd.2 hmem' (fun u hu => hb u (List.mem_cons_of_mem _ hu))
      simp [h, this, bump]

theorem mapSet_of_not_mem (m : List (Nat × Nat)) (k c : Nat) (h : k ∉ m.map Prod.fst) :
    mapSet m k c = m ++ [(k, c)] := by
  induction m with
  | nil => rfl
  | cons e rest ih =>
    obtain ⟨k', c'⟩ := e
    simp only [List.map_cons, List.mem_cons, not_or] at h
    have hne : ¬ k' = k := fun e => h.1 e.symm
    simp [mapSet, hne, ih h.2]

/-- With pairwise distinct identifiers the hash table of a clock holds the
entries of the clock, one for one. -/
theorem hashMapOf_nodup (v : VectorClock) (hnd : (v.map Tuple.Identifier).Nodup) :
    hashMapOf v = entries v := by
  have h : ∀ (v : VectorClock) (acc : List (Nat × Nat)),
      (acc.map Prod.fst ++ v.map Tuple.Identifier).Nodup →
      List.foldl (fun m t => mapSet m t.Identifier t.Count) acc v = acc ++ entries v := by
    intro v
    induction v with
    | nil => intro acc _; simp [entries]
    | cons t rest ih =>
      intro acc hn
      have hnot : t.Identifier ∉ acc.map Prod.fst := by
        intro hin
        have := List.nodup_append.1 hn
        exact this.2.2 hin (by simp)
      rw [List.foldl_cons, mapSet_of_not_mem _ _ _ hnot, ih]
      · simp [entries]
      · simpa [List.map_append, List.append_assoc] using hn
  simpa [hashMapOf] using h v [] (by simpa using hnd)

theorem mapGet_entries (v : VectorClock) (hnd : (v.map Tuple.Identifier).Nodup) (t : Tuple)
    (ht : t ∈ v) : mapGet (entries v) t.Identifier = some t.Count := by
  induction v with
  | nil => simp at ht
  | cons u rest ih =>
    simp only [List.map_cons, List.nodup_cons] at hnd
    simp only [List.mem_cons] at ht
    rcases ht with e | e
    · subst e; simp [entries, mapGet]
    · have hne : ¬ u.Identifier = t.Identifier := by
        intro heq
        exact hnd.1 (heq ▸ List.mem_map_of_mem _ e)
      have := ih hnd.2 e
      simp only [entries] at this
      simp [entries, mapGet, hne, this]

/-- The flags after the first loop of `Compare`. -/
theorem foldl_scanFirst (m2 : List (Nat × Nat)) :
    ∀ (m1 : List (Nat × Nat)) (flags : Bool × Bool),
      m1.foldl (scanFirst m2) flags =
        (flags.1 || m1.any (fun e => match mapGet m2 e.1 with
            | none => true
            | some val2 => decide (e.2 > val2)),
         flags.2 || m1.any (fun e => match mapGet m2 e.1 with
            | none => false
            | some val2 => decide (e.2 < val2))) := by
  intro m1
  induction m1 with
  | nil => intro flags; simp
  | cons e rest ih =>
    intro flags
    rw [List.foldl_cons, ih]
    unfold scanFirst
    cases hg : mapGet m2 e.1 with
    | none => simp [hg]
    | some val2 =>
      by_cases h1 : e.2 > val2
      · have h2 : ¬ e.2 < val2 := by omega
        simp [hg, h1, h2]
      · by_cases h2 : e.2 < val2
        · simp [hg, h1, h2]
        · simp [hg, h1, h2]

/-- The flags after the second loop of `Compare`. -/
theorem foldl_scanSecond (m1 : List (Nat × Nat)) :
    ∀ (m2 : List (Nat × Nat)) (flags : Bool × Bool),
      m2.foldl (scanSecond m1) flags =
        (flags.1 || m2.any (fun e => match mapGet m1 e.1 with
            | none => false
            | some val => decide (val > e.2)),
         flags.2 || m2.any (fun e => match mapGet m1 e.1 with
            | none => true
            | some val => decide (val < e.2))) := by
  intro m2
  induction m2 with
  | nil => intro flags; simp
  | cons e rest ih =>
    intro flags
    rw [List.foldl_cons, ih]
    unfold scanSecond
    cases hg : mapGet m1 e.1 with
    | none => simp [hg]
    | some val =>
      by_cases h1 : val > e.2
      · have h2 : ¬ val < e.2 := by omega
        simp [hg, h1, h2]
      · by_cases h2 : val < e.2
        · simp [hg, h1, h2]
        · simp [hg, h1, h2]

theorem bump_Identifier (ident : Nat) (t : Tuple) : (bump ident t).Identifier = t.Identifier := by
  unfold bump; split_ifs <;> rfl

theorem bump_Count_ge (ident : Nat) (t : Tuple) : t.Count ≤ (bump ident t).Count := by
  unfold bump; split_ifs <;> simp

theorem map_bump_ids (ident : Nat) (v : VectorClock) :
    (v.map (bump ident)).map Tuple.Identifier = v.map Tuple.Identifier := by
  simp [List.map_map, Function.comp_def, bump_Identifier]

/-- Raising one declared count by one gives a clock that compares Larger. -/
theorem Compare_bump (v : VectorClock) (ident : Nat)
    (hnd : (v.map Tuple.Identifier).Nodup) (hmem : ident ∈ v.map Tuple.Identifier) :
    Compare (v.map (bump ident)) v = Larger := by
  have hnd' : ((v.map (bump ident)).map Tuple.Identifier).Nodup := by
    rw [map_bump_ids]; exact hnd
  have hfirst : (entries (v.map (bump ident))).any (fun e =>
      match mapGet (entries v) e.1 with
      | none => true
      | some val2 => decide (e.2 > val2)) = true := by
    obtain ⟨t, ht, hid⟩ := List.mem_map.1 hmem
    rw [List.any_eq_true]
    refine ⟨((bump ident t).Identifier, (bump ident t).Count), ?_, ?_⟩
    · exact List.mem_map.2 ⟨bump ident t, List.mem_map_of_mem _ ht, rfl⟩
    · simp only [bump_Identifier, mapGet_entries v hnd t ht]
      simp [bump, hid]
  have hsecond1 : (entries (v.map (bump ident))).any (fun e =>
      match mapGet (entries v) e.1 with
      | none => false
      | some val2 => decide (e.2 < val2)) = false := by
    rw [List.any_eq_false]
    intro e he
    obtain ⟨u, hu, rfl⟩ := List.mem_map.1 he
    obtain ⟨t, ht, rfl⟩ := List.mem_map.1 hu
    simp only [bump_Identifier, mapGet_entries v hnd t ht]
    have := bump_Count_ge ident t
    simp only [decide_eq_true_eq]
    omega
  have hsecond2 : (entries v).any (fun e =>
      match mapGet (entries (v.map (bump ident))) e.1 with
      | none => true
      | some val => decide (val < e.2)) = false := by
    rw [List.any_eq_false]
    intro e he
    obtain ⟨t, ht, rfl⟩ := List.mem_map.1 he
    have hg := mapGet_entries (v.map (bump ident)) hnd' (bump ident t)
      (List.mem_map_of_mem _ ht)
    rw [bump_Identifier] at hg
    simp only [hg]
    have := bump_Count_ge ident t
    simp only [decide_eq_true_eq]
    omega
  unfold Compare
  simp only [hashMapOf_nodup _ hnd, hashMapOf_nodup _ hnd', foldl_scanFirst, foldl_scanSecond,
    hfirst, hsecond1, hsecond2]
  simp [Larger, Uncomparable]

end vectorclock

namespace kvstore

open vectorclock

/-! ## The classify helper and the availability check -/

theorem at_push {α : Type} (a : Slots α) (rel r : Nat) (x : α) (hrel : rel ≤ 3) (hr : r ≤ 3) :
    (a.push rel x).at r = if rel = r then a.at r ++ [x] else a.at r := by
  interval_cases rel <;> interval_cases r <;>
    simp [Slots.at, Slots.push, Equal, Larger, Smaller, Uncomparable]

theorem nil_at {α : Type} (r : Nat) : (Slots.nil : Slots α).at r = [] := by
  simp [Slots.nil, Slots.at]

/-- When the availability check returns on every Version of the list, the
slots of `traverseValues` are the classes of the accepted Versions. -/
theorem traverseLoop_values (avail : Value → Option Bool) (p : Value → Bool)
    (clock : VectorClock) :
    ∀ (values : List Value) (index : Nat) (acc : Slots Value × Slots Nat),
      (∀ v ∈ values, avail v = some (p v)) →
      ∃ res, traverseLoop avail clock true values index acc = some res ∧
        ∀ r, r ≤ 3 → res.1.at r = acc.1.at r ++ classOf clock r (values.filter p) := by
  intro values
  induction values with
  | nil => intro index acc _; exact ⟨acc, rfl, by simp [classOf]⟩
  | cons v rest ih =>
    intro index acc h
    have hv := h v (List.mem_cons_self _ _)
    have hrest : ∀ w ∈ rest, avail w = some (p w) := fun w hw => h w (List.mem_cons_of_mem _ hw)
    cases hp : p v with
    | false =>
      obtain ⟨res, hres, hat⟩ := ih (index + 1) acc hrest
      refine ⟨res, ?_, ?_⟩
      · simp [traverseLoop, hv, hp, hres]
      · intro r hr; simp [hat r hr, hp]
    | true =>
      obtain ⟨res, hres, hat⟩ := ih (index + 1)
        (acc.1.push (Compare v.Clock clock) v, acc.2.push (Compare v.Clock clock) index) hrest
      refine ⟨res, ?_, ?_⟩
      · simp [traverseLoop, hv, hp, hres]
      · intro r hr
        rw [hat r hr]
        simp only [at_push _ _ _ _ (Compare_le _ _) hr]
        by_cases hc : Compare v.Clock clock = r <;> simp [hc, hp, List.filter_cons, classOf]

/-- Every Version that `traverseValues` puts in a slot was accepted by the
availability check and stands in the relation of the slot. -/
theorem traverseLoop_mem (avail : Value → Option Bool) (clock : VectorClock) (r : Nat)
    (hr : r ≤ 3) (x : Value) :
    ∀ (values : List Value) (index : Nat) (acc res : Slots Value × Slots Nat),
      traverseLoop avail clock true values index acc = some res → x ∈ res.1.at r →
      x ∈ acc.1.at r ∨ (x ∈ values ∧ avail x = some true ∧ Compare x.Clock clock = r) := by
  intro values
  induction values with
  | nil =>
    intro index acc res h hx
    simp [traverseLoop] at h
    subst h
    exact Or.inl hx
  | cons v rest ih =>
    intro index acc res h hx
    cases hv : avail v with
    | none => simp [traverseLoop, hv] at h
    | some b =>
      cases b with
      | false =>
        simp [traverseLoop, hv] at h
        rcases ih _ _ _ h hx with h1 | ⟨h1, h2, h3⟩
        · exact Or.inl h1
        · exact Or.inr ⟨List.mem_cons_of_mem _ h1, h2, h3⟩
      | true =>
        simp [traverseLoop, hv] at h
        rcases ih _ _ _ h hx with h1 | ⟨h1, h2, h3⟩
        · simp only [at_push _ _ _ _ (Compare_le _ _) hr] at h1
          by_cases hc : Compare v.Clock clock = r
          · simp [hc] at h1
            rcases h1 with h1 | h1
            · exact Or.inl h1
            · subst h1
              exact Or.inr ⟨List.mem_cons_self _ _, hv, hc⟩
          · simp [hc] at h1
            exact Or.inl h1
        · exact Or.inr ⟨List.mem_cons_of_mem _ h1, h2, h3⟩

/-- More fuel for the availability check does not change a slot computation
that returned. -/
theorem traverseLoop_mono (avail avail' : Value → Option Bool) (clock : VectorClock)
    (only : Bool) (h : ∀ v b, avail v = some b → avail' v = some b) :
    ∀ (values : List Value) (index : Nat) (acc res : Slots Value × Slots Nat),
      traverseLoop avail clock only values index acc = some res →
      traverseLoop avail' clock only values index acc = some res := by
  intro values
  induction values with
  | nil => intro index acc res hres; simpa [traverseLoop] using hres
  | cons v rest ih =>
    intro index acc res hres
    cases only with
    | false =>
      simp only [traverseLoop, Bool.not_false, if_true] at hres ⊢
      exact ih _ _ _ hres
    | true =>
      cases hv : avail v with
      | none => simp [traverseLoop, hv] at hres
      | some b =>
        have hv' := h v b hv
        cases b with
        | false =>
          simp only [traverseLoop, hv, hv', Bool.not_true, Bool.false_eq_true, if_false]
            at hres ⊢
          exact ih _ _ _ hres
        | true =>
          simp only [traverseLoop, hv, hv', Bool.not_true, Bool.false_eq_true, if_false]
            at hres ⊢
          exact ih _ _ _ hres

/-- An availability check that returned returns the same with more fuel. -/
theorem isAvailable_mono (s : KVStore) :
    ∀ (fuel : Nat) (v : Value) (b : Bool),
      isAvailable fuel s v = some b → isAvailable (fuel + 1) s v = some b := by
  intro fuel
  induction fuel with
  | zero => intro v b h; simp [isAvailable] at h
  | succ n ih =>
    intro v b h
    rw [isAvailable] at h ⊢
    by_cases hflag : v.Available = true
    · simpa [hflag] using h
    by_cases hzero : ZeroClock v.Depends.Clock = true
    · simpa [hflag, hzero] using h
    simp only [hflag, hzero, Bool.false_eq_true, if_false] at h ⊢
    cases hget : mapGet s.data v.Depends.Key with
    | none => simpa [hget] using h
    | some values =>
      simp only [hget] at h ⊢
      cases htr : traverseValues (isAvailable n s) values v.Depends.Clock true with
      | none => simp [htr] at h
      | some res =>
        have htr' : traverseValues (isAvailable (n + 1) s) values v.Depends.Clock true
            = some res := traverseLoop_mono _ _ _ _ ih _ _ _ _ htr
        simpa [htr, htr'] using h

theorem isAvailable_mono_le (s : KVStore) (fuel fuel' : Nat) (hle : fuel ≤ fuel') (v : Value)
    (b : Bool) (h : isAvailable fuel s v = some b) : isAvailable fuel' s v = some b := by
  induction hle with
  | refl => exact h
  | step _ ih => exact isAvailable_mono s _ v b ih

/-- What a successful availability check establishes. -/
theorem isAvailable_true (fuel : Nat) (s : KVStore) (v : Value)
    (h : isAvailable fuel s v = some true) :
    v.Available = true ∨ ZeroClock v.Depends.Clock = true ∨
      ∃ w ∈ bucket s v.Depends.Key,
        (∃ m, isAvailable m s w = some true) ∧ Compare w.Clock v.Depends.Clock = Equal := by
  cases fuel with
  | zero => simp [isAvailable] at h
  | succ n =>
    by_cases hflag : v.Available = true
    · exact Or.inl hflag
    by_cases hzero : ZeroClock v.Depends.Clock = true
    · exact Or.inr (Or.inl hzero)
    right; right
    simp only [isAvailable, hflag, hzero] at h
    cases hget : mapGet s.data v.Depends.Key with
    | none => simp [hget] at h
    | some values =>
      simp only [hget] at h
      cases htr : traverseValues (isAvailable n s) values v.Depends.Clock true with
      | none => simp [htr] at h
      | some res =>
        simp only [htr] at h
        cases hl : res.1.at Equal with
        | nil => simp [hl] at h
        | cons w t =>
          have hw : w ∈ res.1.at Equal := by simp [hl]
          rcases traverseLoop_mem _ _ Equal (by simp [Equal]) w _ _ _ _ htr hw with
            h1 | ⟨h1, h2, h3⟩
          · simp [nil_at] at h1
          · exact ⟨w, by simpa [bucket, hget] using h1, ⟨n, h2⟩, h3⟩

theorem headD_mem {α : Type} (l : List α) (d : α) (h : l.length > 0) : l.headD d ∈ l := by
  cases l with
  | nil => simp at h
  | cons a t => simp

/-- Where the availability check returns on every Version of the bucket and
every key with a bucket owns a lock, `Get` returns what `GetSpec` selects
among the available Versions. -/
theorem Get_eq_GetSpec (fuel : Nat) (s : KVStore) (key : String) (C : CausalContext)
    (hlocks : ∀ k, (mapGet s.data k).isSome → k ∈ s.locks)
    (hterm : ∀ v ∈ bucket s key, (isAvailable fuel s v).isSome) :
    Get fuel s key (Payload.encoded C) =
      some (GetSpec key C.Clock (availableOf fuel s (bucket s key))) := by
  by_cases hk : key ∈ s.locks
  · have hp : ∀ v ∈ bucket s key,
        isAvailable fuel s v = some (isAvailable fuel s v == some true) := by
      intro v hv
      have := hterm v hv
      cases h : isAvailable fuel s v with
      | none => simp [h] at this
      | some b => cases b <;> simp
    obtain ⟨res, hres, hat⟩ := traverseLoop_values (isAvailable fuel s) _ C.Clock
      (bucket s key) 0 (Slots.nil, Slots.nil) hp
    have e0 := hat Equal (by simp [Equal])
    have e1 := hat Larger (by simp [Larger])
    have e2 := hat Smaller (by simp [Smaller])
    have e3 := hat Uncomparable (by simp [Uncomparable])
    simp only [nil_at, List.nil_append] at e0 e1 e2 e3
    simp only [bucket] at hres e0 e1 e2 e3
    simp only [Get, hk, not_true_eq_false, if_false, traverseValues, hres, e0, e1, e2, e3,
      GetSpec, availableOf, bucket]
    cases h0 : classOf C.Clock Equal
        (List.filter (fun v => isAvailable fuel s v == some true)
          ((mapGet s.data key).getD [])) with
    | cons a t => simp
    | nil =>
      cases h1 : classOf C.Clock Larger
        (List.filter (fun v => isAvailable fuel s v == some true)
          ((mapGet s.data key).getD [])) with
      | cons a t => simp
      | nil =>
        cases h2 : classOf C.Clock Smaller
          (List.filter (fun v => isAvailable fuel s v == some true)
            ((mapGet s.data key).getD [])) with
        | cons a t => simp
        | nil =>
          cases h3 : classOf C.Clock Uncomparable
            (List.filter (fun v => isAvailable fuel s v == some true)
              ((mapGet s.data key).getD [])) with
          | cons a t => simp
          | nil => simp
  · have hnone : mapGet s.data key = none := by
      cases h : mapGet s.data key with
      | none => rfl
      | some b => exact absurd (hlocks key (by simp [h])) hk
    simp [Get, hk, GetSpec, availableOf, bucket, hnone, classOf]

/-- The Version on "a" of the store `selfDependent` never passes or fails the
availability check: the check calls itself on the same Version. -/
theorem selfDependent_check (fuel : Nat) :
    isAvailable fuel selfDependent (version "1" 1 1 "a" false) = none := by
  induction fuel with
  | zero => rfl
  | succ n ih =>
    simp only [selfDependent, version] at ih
    simp [isAvailable, ZeroClock, selfDependent, version, mapGet, traverseValues, traverseLoop, ih]

end kvstore

namespace kvstore

open vectorclock

/-! ## Get -/

/-- C1, evaluated on the code.  The store `selfDependent` is what one `Put`
on the new store leaves, and on it `Get("a", {0:0})` returns nothing at any
recursion depth: the availability check of the only Version under "a" calls
itself on that Version without end, so no Version is selected and no
NotFound is reported. -/
theorem Get_selfDependent_never_returns :
    Put 1 New "a" (request "1" 1) (payloadOf 1 "a") 0
        = some (selfDependent, version "1" 1 1 "a" false, payloadOf 2 "a", Added) ∧
      ∀ fuel, Get fuel selfDependent "a" (payloadOf 0 "") = none := by
  refine ⟨rfl, ?_⟩
  intro fuel
  have h := selfDependent_check fuel
  simp only [selfDependent, version] at h
  simp [Get, selfDependent, version, payloadOf, mapGet, traverseValues, traverseLoop, h]

/-- C2.  `Get` never returns a Version with an unmet dependency: a Version
returned with code Found, Old or Diverged has its available flag set, or an
all-zero `depends.clock`, or the bucket of `depends.key` holds a Version that
passes the availability check and whose clock compares Equal to
`depends.clock`.  And when every Version under the key has its flag unset, a
non-zero `depends.clock` and a `depends.key` without an entry in the store,
`Get` with a decodable context returns NotFound. -/
theorem Get_never_returns_unmet (fuel : Nat) (s : KVStore) (key : String) (payload : Payload) :
    (∀ v out code, Get fuel s key payload = some (v, out, code) →
        code = Found ∨ code = Old ∨ code = Diverged →
        v.Available = true ∨ ZeroClock v.Depends.Clock = true ∨
          ∃ w ∈ bucket s v.Depends.Key,
            (∃ m, isAvailable m s w = some true) ∧
              Compare w.Clock v.Depends.Clock = Equal) ∧
    (∀ C, payload = Payload.encoded C →
        (∀ v ∈ bucket s key, v.Available = false ∧ ZeroClock v.Depends.Clock = false ∧
          mapGet s.data v.Depends.Key = none) →
        Get (fuel + 1) s key payload = some (Value.zero, Payload.empty, NotFound)) := by
  constructor
  · intro v out code hget hcode
    have hcodes : code ≠ NotFound ∧ code ≠ Err := by
      rcases hcode with h | h | h <;> subst h <;> simp [Found, Old, Diverged, NotFound, Err]
    suffices havail : isAvailable fuel s v = some true from isAvailable_true fuel s v havail
    unfold Get at hget
    by_cases hk : key ∈ s.locks
    · simp only [hk, not_true_eq_false, if_false] at hget
      cases payload with
      | empty =>
        simp only [Option.some.injEq, Prod.mk.injEq] at hget
        exact absurd hget.2.2.symm hcodes.2
      | malformed =>
        simp only [Option.some.injEq, Prod.mk.injEq] at hget
        exact absurd hget.2.2.symm hcodes.2
      | encoded C =>
        simp only at hget
        cases htr : traverseValues (isAvailable fuel s) ((mapGet s.data key).getD []) C.Clock
            true with
        | none => simp [htr] at hget
        | some res =>
          simp only [htr] at hget
          have hmem : ∀ r, r ≤ 3 → (res.1.at r).length > 0 →
              isAvailable fuel s ((res.1.at r).headD Value.zero) = some true := by
            intro r hr hlen
            rcases traverseLoop_mem _ _ r hr _ _ _ _ _ htr (headD_mem _ Value.zero hlen) with
              h1 | ⟨_, h2, _⟩
            · simp [nil_at] at h1
            · exact h2
          by_cases h0 : (res.1.at Equal).length > 0
          · simp only [h0, if_true, Option.some.injEq, Prod.mk.injEq] at hget
            rw [← hget.1]
            exact hmem Equal (by simp [Equal]) h0
          simp only [h0, if_false] at hget
          by_cases h1 : (res.1.at Larger).length > 0
          · simp only [h1, if_true, Option.some.injEq, Prod.mk.injEq] at hget
            rw [← hget.1]
            exact hmem Larger (by simp [Larger]) h1
          simp only [h1, if_false] at hget
          by_cases h2 : (res.1.at Smaller).length > 0
          · simp only [h2, if_true, Option.some.injEq, Prod.mk.injEq] at hget
            rw [← hget.1]
            exact hmem Smaller (by simp [Smaller]) h2
          simp only [h2, if_false] at hget
          by_cases h3 : (res.1.at Uncomparable).length > 0
          · simp only [h3, if_true, Option.some.injEq, Prod.mk.injEq] at hget
            rw [← hget.1]
            exact hmem Uncomparable (by simp [Uncomparable]) h3
          simp only [h3, if_false, Option.some.injEq, Prod.mk.injEq] at hget
          exact absurd hget.2.2.symm hcodes.1
    · simp only [hk, not_false_eq_true, if_true, Option.some.injEq, Prod.mk.injEq] at hget
      exact absurd hget.2.2.symm hcodes.1
  · intro C hC hall
    subst hC
    by_cases hk : key ∈ s.locks
    · have hp : ∀ v ∈ bucket s key, isAvailable (fuel + 1) s v = some ((fun _ => false) v) := by
        intro v hv
        obtain ⟨hf, hz, hg⟩ := hall v hv
        simp [isAvailable, hf, hz, hg]
      obtain ⟨res, hres, hat⟩ := traverseLoop_values (isAvailable (fuel + 1) s) _ C.Clock
        (bucket s key) 0 (Slots.nil, Slots.nil) hp
      have e0 := hat Equal (by simp [Equal])
      have e1 := hat Larger (by simp [Larger])
      have e2 := hat Smaller (by simp [Smaller])
      have e3 := hat Uncomparable (by simp [Uncomparable])
      simp only [nil_at, List.nil_append, List.filter_false, classOf, List.filter_nil]
        at e0 e1 e2 e3
      simp only [bucket] at hres
      simp [Get, hk, traverseValues, hres, e0, e1, e2, e3]
    · simp [Get, hk]

/-- Witness of C2 on the store `pending`, where the Version on "b" was stored
before its dependency on "a" arrived, and on the store `onlyB`, where the
dependency is still absent. -/
theorem Get_never_returns_unmet_witness :
    ((version "2" 1 1 "a" false).Available = true ∨
      ZeroClock (version "2" 1 1 "a" false).Depends.Clock = true ∨
      ∃ w ∈ bucket pending (version "2" 1 1 "a" false).Depends.Key,
        (∃ m, isAvailable m pending w = some true) ∧
          Compare w.Clock (version "2" 1 1 "a" false).Depends.Clock = Equal) ∧
    Get 1 onlyB "b" (payloadOf 0 "") = some (Value.zero, Payload.empty, NotFound) :=
  ⟨(Get_never_returns_unmet 2 pending "b" (payloadOf 0 "")).1 (version "2" 1 1 "a" false)
      (payloadOf 2 "b") Found rfl (Or.inl rfl),
   (Get_never_returns_unmet 0 onlyB "b" (payloadOf 0 "")).2 { Clock := [⟨0, 0⟩], Key := "" } rfl
      (by decide)⟩

end kvstore

namespace kvstore

open vectorclock

/-! ## Put -/

/-- The result of `Put` with a decodable payload, field by field. -/
theorem Put_encoded (fuel : Nat) (s : KVStore) (key : String) (value : Value)
    (C : CausalContext) (ident : Nat) (s' : KVStore) (stored : Value) (out : Payload)
    (code : Int)
    (hput : Put fuel s key value (Payload.encoded C) ident = some (s', stored, out, code)) :
    ∃ available, isAvailable fuel s (prepared value C ident) = some available ∧
      stored = { prepared value C ident with Available := available } ∧
      s' = { s with data := mapSet s.data key (bucket s key ++ [stored]),
                    locks := if key ∈ s.locks then s.locks else s.locks ++ [key] } ∧
      out = Payload.encoded { Clock := stored.Clock, Key := key } ∧
      code = (if (mapGet s.data key).isSome then Replaced else Added) := by
  simp only [Put] at hput
  change (match isAvailable fuel s (prepared value C ident) with
    | none => none
    | some available => _) = _ at hput
  cases hav : isAvailable fuel s (prepared value C ident) with
  | none => simp [hav] at hput
  | some available =>
    simp only [hav, Option.some.injEq, Prod.mk.injEq] at hput
    obtain ⟨h1, h2, h3, h4⟩ := hput
    subst h1 h2 h3 h4
    exact ⟨available, rfl, rfl, rfl, rfl, rfl⟩

theorem Put_code_ne_Err (fuel : Nat) (s : KVStore) (key : String) (value : Value)
    (payload : Payload) (ident : Nat) (s' : KVStore) (stored : Value) (out : Payload)
    (code : Int)
    (hput : Put fuel s key value payload ident = some (s', stored, out, code))
    (hcode : code ≠ Err) : ∃ C, payload = Payload.encoded C := by
  cases payload with
  | empty =>
    simp only [Put, Option.some.injEq, Prod.mk.injEq] at hput
    exact absurd hput.2.2.2.symm hcode
  | malformed =>
    simp only [Put, Option.some.injEq, Prod.mk.injEq] at hput
    exact absurd hput.2.2.2.symm hcode
  | encoded C => exact ⟨C, rfl⟩

end kvstore

namespace kvstore

open vectorclock

/-- C3, as stated, fails: a writer without an entry in the clock of the
context.  `Put` by writer 0 with the context `({1:0}, "")` stores the clock
`{1:0}` unchanged: no count of writer 0 appears, and the stored clock compares
Equal to the clock of the context, not Larger. -/
theorem Put_undeclared_writer :
    Put 1 New "a" (request "1" 1) (Payload.encoded { Clock := [⟨1, 0⟩], Key := "" }) 0
        = some (single undeclared, undeclared,
            Payload.encoded { Clock := [⟨1, 0⟩], Key := "a" }, Added) ∧
      undeclared.Clock = [⟨1, 0⟩] ∧ Compare undeclared.Clock [⟨1, 0⟩] = Equal ∧
      Compare undeclared.Clock [⟨1, 0⟩] ≠ Larger := by
  decide

/-- Two further inputs on which the incremented clock does not compare Larger:
a count of `2^32 - 1` wraps to zero, and of two tuples with the identifier of
the writer `Increment` raises the first while `Compare` reads the last. -/
theorem Increment_not_larger :
    Compare (Increment (Copy [⟨0, 4294967295⟩]) 0 1).1 [⟨0, 4294967295⟩] = Smaller ∧
      Compare (Increment (Copy [⟨0, 0⟩, ⟨0, 0⟩]) 0 1).1 [⟨0, 0⟩, ⟨0, 0⟩] = Equal := by
  decide

/-- C3, amended.  For every `Put` that returns with a decodable context `C`
whose clock has pairwise distinct identifiers: the stored Version has
`depends = C` and the echoed payload carries the stored clock; when the writer
has an entry in `C.clock` with a count below `2^32 - 1`, the stored clock is
`C.clock` with the count of the writer raised by one and compares Larger than
`C.clock`; when the writer has no entry, the stored clock is `C.clock`. -/
theorem Put_stores_incremented_clock (fuel : Nat) (s : KVStore) (key : String) (value : Value)
    (C : CausalContext) (ident : Nat) (s' : KVStore) (stored : Value) (out : Payload)
    (code : Int)
    (hput : Put fuel s key value (Payload.encoded C) ident = some (s', stored, out, code))
    (hnd : (C.Clock.map Tuple.Identifier).Nodup) :
    stored.Depends = C ∧ out = Payload.encoded { Clock := stored.Clock, Key := key } ∧
      (ident ∈ C.Clock.map Tuple.Identifier →
        (∀ t ∈ C.Clock, t.Identifier = ident → t.Count + 1 < 2 ^ 32) →
        stored.Clock = C.Clock.map (bump ident) ∧ Compare stored.Clock C.Clock = Larger) ∧
      (ident ∉ C.Clock.map Tuple.Identifier → stored.Clock = C.Clock) := by
  obtain ⟨available, _, hstored, _, hout, _⟩ := Put_encoded _ _ _ _ _ _ _ _ _ _ hput
  have hclock : stored.Clock = (Increment (Copy C.Clock) ident 1).1 := by
    rw [hstored]; rfl
  refine ⟨by rw [hstored]; rfl, hout, ?_, ?_⟩
  · intro hmem hbound
    have hinc := Increment_present C.Clock ident hnd hmem hbound
    rw [hclock, Copy_eq, hinc]
    exact ⟨rfl, Compare_bump C.Clock ident hnd hmem⟩
  · intro hnot
    rw [hclock, Copy_eq, Increment_absent C.Clock ident 1 hnot]

/-- Witness of C3: the first `Put` of the linear chain echoes the clock `{0:1}`. -/
theorem Put_stores_incremented_clock_witness :
    (version "1" 1 0 "" true).Depends = { Clock := [⟨0, 0⟩], Key := "" } ∧
      payloadOf 1 "a" = Payload.encoded { Clock := (version "1" 1 0 "" true).Clock, Key := "a" } ∧
      (version "1" 1 0 "" true).Clock = [⟨0, 1⟩] ∧
      Compare (version "1" 1 0 "" true).Clock [⟨0, 0⟩] = Larger :=
  have h := Put_stores_incremented_clock 1 New "a" (request "1" 1)
    { Clock := [⟨0, 0⟩], Key := "" } 0 onlyA (version "1" 1 0 "" true) (payloadOf 1 "a") Added
    rfl (by decide)
  ⟨h.1, h.2.1, (h.2.2.1 (by decide) (by decide)).1, (h.2.2.1 (by decide) (by decide)).2⟩

/-- The bucket of the key after a `Put`. -/
theorem Put_bucket (fuel : Nat) (s : KVStore) (key : String) (value : Value)
    (payload : Payload) (ident : Nat) (s' : KVStore) (stored : Value) (out : Payload)
    (code : Int)
    (hput : Put fuel s key value payload ident = some (s', stored, out, code))
    (hcode : code ≠ Err) : bucket s' key = bucket s key ++ [stored] := by
  obtain ⟨C, rfl⟩ := Put_code_ne_Err _ _ _ _ _ _ _ _ _ _ hput hcode
  obtain ⟨available, _, _, hs', _, _⟩ := Put_encoded _ _ _ _ _ _ _ _ _ _ hput
  subst hs'
  simp only [bucket, mapGet_mapSet_self, Option.getD_some]

/-- C4.  `Put` never removes siblings: after a `Put` that returns a code
other than Err, the bucket of the key is its previous contents, in the same
order, followed by exactly the Version that `Put` returns, and the entry of
every other key is unchanged. -/
theorem Put_appends (fuel : Nat) (s : KVStore) (key : String) (value : Value)
    (payload : Payload) (ident : Nat) (s' : KVStore) (stored : Value) (out : Payload)
    (code : Int)
    (hput : Put fuel s key value payload ident = some (s', stored, out, code))
    (hcode : code ≠ Err) :
    bucket s' key = bucket s key ++ [stored] ∧
      ∀ k, k ≠ key → mapGet s'.data k = mapGet s.data k := by
  obtain ⟨C, rfl⟩ := Put_code_ne_Err _ _ _ _ _ _ _ _ _ _ hput hcode
  obtain ⟨available, _, _, hs', _, _⟩ := Put_encoded _ _ _ _ _ _ _ _ _ _ hput
  subst hs'
  constructor
  · simp only [bucket, mapGet_mapSet_self, Option.getD_some]
  · intro k hk
    exact mapGet_mapSet_other _ _ _ _ hk

/-- Witness of C4: the second `Put` of scenario 4 on the store `onlyA`. -/
theorem Put_appends_witness :
    bucket chained "b" = bucket onlyA "b" ++ [version "2" 2 1 "a" true] ∧
      ∀ k, k ≠ "b" → mapGet chained.data k = mapGet onlyA.data k :=
  Put_appends 2 onlyA "b" (request "2" 2) (payloadOf 1 "a") 0 chained
    (version "2" 2 1 "a" true) (payloadOf 2 "b") Added rfl (by decide)

theorem reachable_onlyA : Reachable onlyA :=
  Reachable.put 1 New onlyA "a" (request "1" 1) (payloadOf 0 "") 0
    (version "1" 1 0 "" true, payloadOf 1 "a", Added) Reachable.new rfl

theorem reachable_emptied : Reachable emptied :=
  Reachable.delete onlyA emptied "a" (payloadOf 1 "a") true reachable_onlyA rfl

/-- C5, as stated, fails: on the reachable store `emptied` the bucket of "a"
holds no Version, emptied by `Delete`, and `Put` on "a" returns Replaced. -/
theorem Put_on_emptied_bucket_Replaced :
    Reachable emptied ∧ bucket emptied "a" = [] ∧
      Put 1 emptied "a" (request "3" 3) (payloadOf 0 "") 0
        = some (single (version "3" 3 0 "" true), version "3" 3 0 "" true, payloadOf 1 "a",
            Replaced) ∧
      Replaced ≠ Added :=
  ⟨reachable_emptied, rfl, rfl, by decide⟩

/-- C5, amended.  For every store and every `Put` on key `k` that returns a
code other than Err, the code is Added if and only if `data` has no entry for
`k`, and Replaced if and only if it has one (also one whose bucket is empty). -/
theorem Put_code (fuel : Nat) (s : KVStore) (key : String) (value : Value)
    (payload : Payload) (ident : Nat) (s' : KVStore) (stored : Value) (out : Payload)
    (code : Int)
    (hput : Put fuel s key value payload ident = some (s', stored, out, code))
    (hcode : code ≠ Err) :
    (code = Added ↔ mapGet s.data key = none) ∧
      (code = Replaced ↔ (mapGet s.data key).isSome = true) := by
  obtain ⟨C, rfl⟩ := Put_code_ne_Err _ _ _ _ _ _ _ _ _ _ hput hcode
  obtain ⟨available, _, _, _, _, hc⟩ := Put_encoded _ _ _ _ _ _ _ _ _ _ hput
  subst hc
  cases h : mapGet s.data key with
  | none => simp [Added, Replaced]
  | some b => simp [Added, Replaced]

/-- Witness of C5: Added on the new store, Replaced on the emptied bucket. -/
theorem Put_code_witness :
    ((Added = Added ↔ mapGet New.data "a" = none) ∧
      (Added = Replaced ↔ (mapGet New.data "a").isSome = true)) ∧
    ((Replaced = Added ↔ mapGet emptied.data "a" = none) ∧
      (Replaced = Replaced ↔ (mapGet emptied.data "a").isSome = true)) :=
  ⟨Put_code 1 New "a" (request "1" 1) (payloadOf 0 "") 0 onlyA (version "1" 1 0 "" true)
      (payloadOf 1 "a") Added rfl (by decide),
   Put_code 1 emptied "a" (request "3" 3) (payloadOf 0 "") 0
      (single (version "3" 3 0 "" true)) (version "3" 3 0 "" true) (payloadOf 1 "a") Replaced rfl (by decide)⟩

end kvstore

namespace kvstore

open vectorclock

/-! ## Delete and the internal delete -/

theorem reachable_newerFirst : Reachable newerFirst :=
  Reachable.put 1 (single (version "1" 1 1 "" false)) newerFirst "a" (request "2" 2)
    (payloadOf 0 "") 0 (version "2" 2 0 "" true, payloadOf 1 "a", Replaced)
    (Reachable.put 1 New (single (version "1" 1 1 "" false)) "a" (request "1" 1)
      (payloadOf 1 "") 0 (version "1" 1 1 "" false, payloadOf 2 "a", Added) Reachable.new rfl)
    rfl

/-- C6, evaluated on the code.  The store `newerFirst` is reachable by two
Puts; `Delete("a", {0:1})` on it returns true and leaves in the bucket of "a"
the Version with clock `{0:1}`, which compares Equal to the clock of the
context: the rewrite of the dependent Version moved it to the end of the
bucket, and the index recorded for the Equal Version removed the dependent. -/
theorem Delete_leaves_equal_version :
    Reachable newerFirst ∧
      Delete newerFirst "a" (payloadOf 1 "a") = some (single (version "2" 2 0 "" true), true) ∧
      bucket (single (version "2" 2 0 "" true)) "a" = [version "2" 2 0 "" true] ∧
      Compare (version "2" 2 0 "" true).Clock [⟨0, 1⟩] = Equal :=
  ⟨reachable_newerFirst, rfl, rfl, rfl⟩

theorem reachable_fourSiblings : Reachable fourSiblings :=
  Reachable.put 1
    { data := [("a", [version "1" 1 0 "" true, version "2" 2 0 "" true,
                      version "3" 3 5 "" false])], locks := ["a"], gcInUse := 0 }
    fourSiblings "a" (request "4" 4) (payloadOf 7 "") 0
    (version "4" 4 7 "" false, payloadOf 8 "a", Replaced)
    (Reachable.put 1
      { data := [("a", [version "1" 1 0 "" true, version "2" 2 0 "" true])],
        locks := ["a"], gcInUse := 0 }
      { data := [("a", [version "1" 1 0 "" true, version "2" 2 0 "" true,
                        version "3" 3 5 "" false])], locks := ["a"], gcInUse := 0 }
      "a" (request "3" 3) (payloadOf 5 "") 0
      (version "3" 3 5 "" false, payloadOf 6 "a", Replaced)
      (Reachable.put 1 onlyA
        { data := [("a", [version "1" 1 0 "" true, version "2" 2 0 "" true])],
          locks := ["a"], gcInUse := 0 }
        "a" (request "2" 2) (payloadOf 0 "") 0
        (version "2" 2 0 "" true, payloadOf 1 "a", Replaced) reachable_onlyA rfl)
      rfl)
    rfl

/-- C7, evaluated on the code.  The store `fourSiblings` is reachable by four
Puts; its third Version has clock `{0:6}`, Larger than `{0:1}`, and after
`Delete("a", {0:1})`, which returns true, no Version of the bucket of "a" has
its data, clock and timestamp: the index recorded for the second Equal Version
was used after the first removal had shifted the bucket. -/
theorem Delete_removes_larger_version :
    Reachable fourSiblings ∧
      version "3" 3 5 "" false ∈ bucket fourSiblings "a" ∧
      Compare (version "3" 3 5 "" false).Clock [⟨0, 1⟩] = Larger ∧
      Delete fourSiblings "a" (payloadOf 1 "a")
        = some ({ data := [("a", [version "2" 2 0 "" true, version "4" 4 7 "" false])],
                  locks := ["a"], gcInUse := 0 }, true) ∧
      ∀ w ∈ [version "2" 2 0 "" true, version "4" 4 7 "" false],
        ¬ (w.Data = (version "3" 3 5 "" false).Data ∧
            w.Clock = (version "3" 3 5 "" false).Clock ∧
            w.Timestamp = (version "3" 3 5 "" false).Timestamp) :=
  ⟨reachable_fourSiblings, by decide, rfl, rfl, by decide⟩

theorem reachable_chained : Reachable chained :=
  Reachable.put 2 onlyA chained "b" (request "2" 2) (payloadOf 1 "a") 0
    (version "2" 2 1 "a" true, payloadOf 2 "b", Added) reachable_onlyA rfl

theorem reachable_chainedDeleted : Reachable chainedDeleted :=
  Reachable.delete chained chainedDeleted "a" (payloadOf 1 "a") true reachable_chained rfl

/-- C8, evaluated on the code (scenario 4).  In the store `chained` the
Version on "b" depends on `({0:1}, "a")`, the clock and key of the Version on
"a".  After the internal `delete("a", v, 0)`, and so after
`Delete("a", {0:1})`, the Version on "b" still depends on `({0:1}, "a")`, not
on the zero-clock context that the removed Version depended on. -/
theorem delete_keeps_dependency_of_other_key :
    bucket chained "a" = [version "1" 1 0 "" true] ∧
      (version "2" 2 1 "a" true).Depends
        = { Clock := (version "1" 1 0 "" true).Clock, Key := "a" } ∧
      delete chained "a" (version "1" 1 0 "" true) 0 = some chainedDeleted ∧
      Delete chained "a" (payloadOf 1 "a") = some (chainedDeleted, true) ∧
      bucket chainedDeleted "b" = [version "2" 2 1 "a" true] ∧
      (version "2" 2 1 "a" true).Depends ≠ (version "1" 1 0 "" true).Depends :=
  ⟨rfl, rfl, rfl, rfl, rfl, by decide⟩

/-- C9, evaluated on the code.  In the reachable store `chainedDeleted` the
Version on "b" passes the availability check at every depth, through its
flag, while its `depends.clock` is not all-zero and the bucket of its
`depends.key` holds no Version at all. -/
theorem available_without_dependency :
    Reachable chainedDeleted ∧
      version "2" 2 1 "a" true ∈ bucket chainedDeleted "b" ∧
      (∀ fuel, isAvailable (fuel + 1) chainedDeleted (version "2" 2 1 "a" true) = some true) ∧
      ZeroClock (version "2" 2 1 "a" true).Depends.Clock = false ∧
      bucket chainedDeleted (version "2" 2 1 "a" true).Depends.Key = [] :=
  ⟨reachable_chainedDeleted, by decide, fun _ => rfl, rfl, rfl⟩

theorem reachable_pending : Reachable pending :=
  Reachable.put 1 onlyB pending "a" (request "1" 2) (payloadOf 0 "") 0
    (version "1" 2 0 "" true, payloadOf 1 "a", Added)
    (Reachable.put 1 New onlyB "b" (request "2" 1) (payloadOf 1 "a") 0
      (version "2" 1 1 "a" false, payloadOf 2 "b", Added) Reachable.new rfl)
    rfl

/-- C10, evaluated on the code.  In the reachable store `pending` the Version
on "b" passes the availability check; the internal `delete("a", v, 0)` of the
Version on "a" leaves it in the bucket of "b", and there it fails the check at
every depth. -/
theorem delete_changes_availability :
    Reachable pending ∧
      bucket pending "a" = [version "1" 2 0 "" true] ∧
      version "2" 1 1 "a" false ∈ bucket pending "b" ∧
      isAvailable 2 pending (version "2" 1 1 "a" false) = some true ∧
      delete pending "a" (version "1" 2 0 "" true) 0 = some pendingDeleted ∧
      version "2" 1 1 "a" false ∈ bucket pendingDeleted "b" ∧
      (∀ fuel, isAvailable (fuel + 1) pendingDeleted (version "2" 1 1 "a" false)
        = some false) :=
  ⟨reachable_pending, rfl, by decide, rfl, rfl, by decide, fun _ => rfl⟩

end kvstore

namespace vectorclock

theorem Compare_flags (v v2 : VectorClock) :
    Compare v v2 =
      if firstLarger (hashMapOf v) (hashMapOf v2) && secondLarger (hashMapOf v) (hashMapOf v2)
      then Uncomparable
      else if firstLarger (hashMapOf v) (hashMapOf v2) then Larger
      else if secondLarger (hashMapOf v) (hashMapOf v2) then Smaller
      else Equal := by
  unfold Compare
  simp only [foldl_scanFirst, foldl_scanSecond, firstLarger, secondLarger, Bool.false_or]

theorem mapGet_mem {κ α : Type} [DecidableEq κ] (m : List (κ × α)) (k : κ) (c : α)
    (h : mapGet m k = some c) : (k, c) ∈ m := by
  induction m with
  | nil => simp [mapGet] at h
  | cons e rest ih =>
    obtain ⟨k', c'⟩ := e
    by_cases hk : k' = k
    · simp [mapGet, hk] at h
      subst hk; subst h; simp
    · simp [mapGet, hk] at h
      exact List.mem_cons_of_mem _ (ih h)

theorem mapGet_of_mem {κ α : Type} [DecidableEq κ] (m : List (κ × α))
    (hnd : (m.map Prod.fst).Nodup) (k : κ) (c : α) (h : (k, c) ∈ m) : mapGet m k = some c := by
  induction m with
  | nil => simp at h
  | cons e rest ih =>
    obtain ⟨k', c'⟩ := e
    simp only [List.map_cons, List.nodup_cons] at hnd
    simp only [List.mem_cons, Prod.mk.injEq] at h
    rcases h with ⟨h1, h2⟩ | h
    · subst h1; subst h2; simp [mapGet]
    · have hne : ¬ k' = k := by
        intro e
        subst e
        exact hnd.1 (List.mem_map_of_mem Prod.fst h)
      simp [mapGet, hne, ih hnd.2 h]

theorem mapSet_keys {κ α : Type} [DecidableEq κ] (m : List (κ × α)) (k : κ) (c : α) :
    (mapSet m k c).map Prod.fst =
      if k ∈ m.map Prod.fst then m.map Prod.fst else m.map Prod.fst ++ [k] := by
  induction m with
  | nil => simp [mapSet]
  | cons e rest ih =>
    obtain ⟨k', c'⟩ := e
    by_cases hk : k' = k
    · subst hk; simp [mapSet]
    · have hk' : ¬ k = k' := fun e => hk e.symm
      simp only [mapSet, hk, if_false, List.map_cons, ih, List.mem_cons, hk', false_or]
      split_ifs <;> simp

theorem mapSet_nodup {κ α : Type} [DecidableEq κ] (m : List (κ × α)) (k : κ) (c : α)
    (hnd : (m.map Prod.fst).Nodup) : ((mapSet m k c).map Prod.fst).Nodup := by
  rw [mapSet_keys]
  split_ifs with h
  · exact hnd
  · exact List.nodup_append.2 ⟨hnd, by simp, by simpa using h⟩

theorem hashMapOf_keys_nodup (v : VectorClock) : ((hashMapOf v).map Prod.fst).Nodup := by
  have h : ∀ (v : VectorClock) (acc : List (Nat × Nat)), (acc.map Prod.fst).Nodup →
      ((List.foldl (fun m t => mapSet m t.Identifier t.Count) acc v).map Prod.fst).Nodup := by
    intro v
    induction v with
    | nil => intro acc h; simpa using h
    | cons t rest ih => intro acc h; exact ih _ (mapSet_nodup _ _ _ h)
  exact h v [] (by simp)

theorem firstLarger_iff (m1 m2 : List (Nat × Nat)) (h1 : (m1.map Prod.fst).Nodup)
    (h2 : (m2.map Prod.fst).Nodup) :
    firstLarger m1 m2 = true ↔ ∃ i, levelOf m2 i < levelOf m1 i := by
  unfold firstLarger
  rw [Bool.or_eq_true, List.any_eq_true, List.any_eq_true]
  constructor
  · rintro (⟨⟨k, c⟩, he, h⟩ | ⟨⟨k, c⟩, he, h⟩)
    · have hg := mapGet_of_mem m1 h1 k c he
      refine ⟨k, ?_⟩
      simp only [levelOf, hg]
      cases hm : mapGet m2 k with
      | none => simp
      | some v2 =>
        simp only [hm, decide_eq_true_eq] at h
        simp only []
        omega
    · have hg := mapGet_of_mem m2 h2 k c he
      refine ⟨k, ?_⟩
      simp only [levelOf, hg]
      cases hm : mapGet m1 k with
      | none => simp [hm] at h
      | some v1 =>
        simp only [hm, decide_eq_true_eq] at h
        simp only []
        omega
  · rintro ⟨i, hi⟩
    left
    cases hm1 : mapGet m1 i with
    | none => simp [levelOf, hm1] at hi
    | some c =>
      refine ⟨(i, c), mapGet_mem m1 i c hm1, ?_⟩
      cases hm2 : mapGet m2 i with
      | none => simp
      | some v2 =>
        simp only [levelOf, hm1, hm2] at hi
        simp only [decide_eq_true_eq]
        omega

theorem secondLarger_iff (m1 m2 : List (Nat × Nat)) (h1 : (m1.map Prod.fst).Nodup)
    (h2 : (m2.map Prod.fst).Nodup) :
    secondLarger m1 m2 = true ↔ ∃ i, levelOf m1 i < levelOf m2 i := by
  unfold secondLarger
  rw [Bool.or_eq_true, List.any_eq_true, List.any_eq_true]
  constructor
  · rintro (⟨⟨k, c⟩, he, h⟩ | ⟨⟨k, c⟩, he, h⟩)
    · have hg := mapGet_of_mem m1 h1 k c he
      refine ⟨k, ?_⟩
      simp only [levelOf, hg]
      cases hm : mapGet m2 k with
      | none => simp [hm] at h
      | some v2 =>
        simp only [hm, decide_eq_true_eq] at h
        simp only []
        omega
    · have hg := mapGet_of_mem m2 h2 k c he
      refine ⟨k, ?_⟩
      simp only [levelOf, hg]
      cases hm : mapGet m1 k with
      | none => simp
      | some v1 =>
        simp only [hm, decide_eq_true_eq] at h
        simp only []
        omega
  · rintro ⟨i, hi⟩
    right
    cases hm2 : mapGet m2 i with
    | none => simp [levelOf, hm2] at hi
    | some c =>
      refine ⟨(i, c), mapGet_mem m2 i c hm2, ?_⟩
      cases hm1 : mapGet m1 i with
      | none => simp
      | some v1 =>
        simp only [levelOf, hm1, hm2] at hi
        simp only [decide_eq_true_eq]
        omega

/-- The result of `Compare` in terms of the ranks in the two hash tables. -/
theorem Compare_cases (v v2 : VectorClock) :
    (Compare v v2 = Equal ↔
      (¬ ∃ i, levelOf (hashMapOf v2) i < levelOf (hashMapOf v) i) ∧
      (¬ ∃ i, levelOf (hashMapOf v) i < levelOf (hashMapOf v2) i)) ∧
    (Compare v v2 = Larger ↔
      (∃ i, levelOf (hashMapOf v2) i < levelOf (hashMapOf v) i) ∧
      (¬ ∃ i, levelOf (hashMapOf v) i < levelOf (hashMapOf v2) i)) ∧
    (Compare v v2 = Smaller ↔
      (¬ ∃ i, levelOf (hashMapOf v2) i < levelOf (hashMapOf v) i) ∧
      (∃ i, levelOf (hashMapOf v) i < levelOf (hashMapOf v2) i)) ∧
    (Compare v v2 = Uncomparable ↔
      (∃ i, levelOf (hashMapOf v2) i < levelOf (hashMapOf v) i) ∧
      (∃ i, levelOf (hashMapOf v) i < levelOf (hashMapOf v2) i)) := by
  have hf := firstLarger_iff (hashMapOf v) (hashMapOf v2) (hashMapOf_keys_nodup v)
    (hashMapOf_keys_nodup v2)
  have hs := secondLarger_iff (hashMapOf v) (hashMapOf v2) (hashMapOf_keys_nodup v)
    (hashMapOf_keys_nodup v2)
  rw [Compare_flags]
  rw [← hf, ← hs]
  cases firstLarger (hashMapOf v) (hashMapOf v2) <;>
    cases secondLarger (hashMapOf v) (hashMapOf v2) <;>
    simp [Equal, Larger, Smaller, Uncomparable]

/-- C17, as stated, fails: the clock `{0:0}` against the empty clock.  With
absent identifiers counted as zero the two clocks agree on every identifier,
yet `Compare` returns Larger, and Smaller the other way round. -/
theorem Compare_absent_not_zero :
    (∀ i, zeroCount [⟨0, 0⟩] i = zeroCount [] i) ∧
      Compare [⟨0, 0⟩] [] = Larger ∧ Compare [] [⟨0, 0⟩] = Smaller ∧ Larger ≠ Equal := by
  refine ⟨?_, by decide, by decide, by decide⟩
  intro i
  by_cases h : i = 0
  · subst h; rfl
  · have h' : ¬ 0 = i := fun e => h e.symm
    simp [zeroCount, entries, mapGet, h']

/-- On clocks with pairwise distinct identifiers `Compare` returns Equal
exactly when the ranks agree on every identifier. -/
theorem Compare_Equal_iff (A B : VectorClock)
    (hA : (A.map Tuple.Identifier).Nodup) (hB : (B.map Tuple.Identifier).Nodup) :
    Compare A B = Equal ↔ ∀ i, level A i = level B i := by
  have h0 := (Compare_cases A B).1
  rw [hashMapOf_nodup A hA, hashMapOf_nodup B hB] at h0
  rw [h0]
  simp only [level]
  constructor
  · rintro ⟨hf, hs⟩ i
    exact Nat.le_antisymm (Nat.not_lt.1 (fun h => hf ⟨i, h⟩)) (Nat.not_lt.1 (fun h => hs ⟨i, h⟩))
  · intro h
    exact ⟨fun ⟨i, hi⟩ => by rw [h i] at hi; exact Nat.lt_irrefl _ hi,
      fun ⟨i, hi⟩ => by rw [h i] at hi; exact Nat.lt_irrefl _ hi⟩

/-- On clocks with pairwise distinct identifiers `Compare` returns Larger
exactly when the first clock ranks at least as high everywhere and higher
somewhere. -/
theorem Compare_Larger_iff (A B : VectorClock)
    (hA : (A.map Tuple.Identifier).Nodup) (hB : (B.map Tuple.Identifier).Nodup) :
    Compare A B = Larger ↔ (∀ i, level B i ≤ level A i) ∧ ∃ i, level B i < level A i := by
  have h1 := (Compare_cases A B).2.1
  rw [hashMapOf_nodup A hA, hashMapOf_nodup B hB] at h1
  rw [h1]
  simp only [level]
  constructor
  · rintro ⟨hf, hs⟩
    exact ⟨fun i => Nat.not_lt.1 (fun h => hs ⟨i, h⟩), hf⟩
  · rintro ⟨hall, hex⟩
    exact ⟨hex, fun ⟨i, hi⟩ => Nat.not_lt.2 (hall i) hi⟩

/-- C17, amended.  For all vector clocks A and B with pairwise distinct
identifiers, with an identifier absent from a clock ranked strictly below
every present count (`level`: zero when absent, count plus one when present),
`Compare(A, B)` returns Equal iff the ranks agree on every identifier, Larger
iff A ranks at least as high as B everywhere and higher somewhere, Smaller iff
the symmetric condition holds, and Uncomparable iff A ranks higher somewhere
and lower somewhere. -/
theorem Compare_characterization (A B : VectorClock)
    (hA : (A.map Tuple.Identifier).Nodup) (hB : (B.map Tuple.Identifier).Nodup) :
    (Compare A B = Equal ↔ ∀ i, level A i = level B i) ∧
    (Compare A B = Larger ↔ (∀ i, level B i ≤ level A i) ∧ ∃ i, level B i < level A i) ∧
    (Compare A B = Smaller ↔ (∀ i, level A i ≤ level B i) ∧ ∃ i, level A i < level B i) ∧
    (Compare A B = Uncomparable ↔ ∃ i j, level B i < level A i ∧ level A j < level B j) := by
  obtain ⟨h0, h1, h2, h3⟩ := Compare_cases A B
  rw [hashMapOf_nodup A hA, hashMapOf_nodup B hB] at h0 h1 h2 h3
  simp only [level]
  refine ⟨?_, ?_, ?_, ?_⟩
  · rw [h0]
    constructor
    · rintro ⟨hf, hs⟩ i
      exact Nat.le_antisymm (Nat.not_lt.1 (fun h => hf ⟨i, h⟩)) (Nat.not_lt.1 (fun h => hs ⟨i, h⟩))
    · intro h
      exact ⟨fun ⟨i, hi⟩ => by rw [h i] at hi; exact Nat.lt_irrefl _ hi,
        fun ⟨i, hi⟩ => by rw [h i] at hi; exact Nat.lt_irrefl _ hi⟩
  · rw [h1]
    constructor
    · rintro ⟨hf, hs⟩
      exact ⟨fun i => Nat.not_lt.1 (fun h => hs ⟨i, h⟩), hf⟩
    · rintro ⟨hall, hex⟩
      exact ⟨hex, fun ⟨i, hi⟩ => Nat.not_lt.2 (hall i) hi⟩
  · rw [h2]
    constructor
    · rintro ⟨hf, hs⟩
      exact ⟨fun i => Nat.not_lt.1 (fun h => hf ⟨i, h⟩), hs⟩
    · rintro ⟨hall, hex⟩
      exact ⟨fun ⟨i, hi⟩ => Nat.not_lt.2 (hall i) hi, hex⟩
  · rw [h3]
    constructor
    · rintro ⟨⟨i, hi⟩, ⟨j, hj⟩⟩
      exact ⟨i, j, hi, hj⟩
    · rintro ⟨i, j, hi, hj⟩
      exact ⟨⟨i, hi⟩, ⟨j, hj⟩⟩

/-- Witness of C17: the clocks `{0:2, 1:0}` and `{0:1}`. -/
theorem Compare_characterization_witness :
    (Compare [⟨0, 2⟩, ⟨1, 0⟩] [⟨0, 1⟩] = Larger ↔
      (∀ i, level [⟨0, 1⟩] i ≤ level [⟨0, 2⟩, ⟨1, 0⟩] i) ∧
        ∃ i, level [⟨0, 1⟩] i < level [⟨0, 2⟩, ⟨1, 0⟩] i) :=
  (Compare_characterization [⟨0, 2⟩, ⟨1, 0⟩] [⟨0, 1⟩] (by decide) (by decide)).2.1

/-- C18.  For all vector clocks A and B, `Compare(A, B)` is Larger iff
`Compare(B, A)` is Smaller, Equal iff `Compare(B, A)` is Equal, and
Uncomparable iff `Compare(B, A)` is Uncomparable. -/
theorem Compare_swap (A B : VectorClock) :
    (Compare A B = Larger ↔ Compare B A = Smaller) ∧
    (Compare A B = Equal ↔ Compare B A = Equal) ∧
    (Compare A B = Uncomparable ↔ Compare B A = Uncomparable) := by
  obtain ⟨a0, a1, _, a3⟩ := Compare_cases A B
  obtain ⟨b0, _, b2, b3⟩ := Compare_cases B A
  refine ⟨?_, ?_, ?_⟩
  · rw [a1, b2]; exact and_comm
  · rw [a0, b0]; exact and_comm
  · rw [a3, b3]; exact and_comm

/-- A clock compares Equal to itself. -/
theorem Compare_self (A : VectorClock) : Compare A A = Equal := by
  rw [(Compare_cases A A).1]
  exact ⟨fun ⟨i, hi⟩ => Nat.lt_irrefl _ hi, fun ⟨i, hi⟩ => Nat.lt_irrefl _ hi⟩

theorem map_raise_of_not_mem (ident n : Nat) (v : VectorClock)
    (h : ident ∉ v.map Tuple.Identifier) : v.map (raise ident n) = v := by
  induction v with
  | nil => rfl
  | cons t rest ih =>
    simp only [List.map_cons, List.mem_cons, not_or] at h
    have hne : ¬ t.Identifier = ident := fun e => h.1 e.symm
    simp [raise, hne, ih h.2]

theorem Increment_raise (v : VectorClock) (ident n : Nat)
    (hnd : (v.map Tuple.Identifier).Nodup) (hmem : ident ∈ v.map Tuple.Identifier)
    (hb : ∀ t ∈ v, t.Identifier = ident → t.Count + n < 2 ^ 32) :
    Increment v ident n = (v.map (raise ident n), true) := by
  induction v with
  | nil => simp at hmem
  | cons t rest ih =>
    simp only [List.map_cons, List.nodup_cons] at hnd
    rw [Increment_cons]
    by_cases h : t.Identifier = ident
    · have hlt := hb t (List.mem_cons_self _ _) h
      have hrest : ident ∉ rest.map Tuple.Identifier := h ▸ hnd.1
      have hmod : (t.Count + n) % 2 ^ 32 = t.Count + n := Nat.mod_eq_of_lt hlt
      simp only [h, if_true, List.map_cons, raise, map_raise_of_not_mem ident n rest hrest, hmod]
    · have hmem' : ident ∈ rest.map Tuple.Identifier := by
        simp only [List.map_cons, List.mem_cons] at hmem
        rcases hmem with e | e
        · exact absurd e.symm h
        · exact e
      have := ih hnd.2 hmem' (fun u hu => hb u (List.mem_cons_of_mem _ hu))
      simp [h, this, raise]

theorem level_raise (v : VectorClock) (ident n i : Nat) :
    level (v.map (raise ident n)) i =
      if i = ident ∧ i ∈ v.map Tuple.Identifier then level v i + n else level v i := by
  induction v with
  | nil => simp [level, levelOf, entries, mapGet]
  | cons t rest ih =>
    simp only [level, levelOf, entries, List.map_cons, mapGet] at ih ⊢
    by_cases ht : t.Identifier = i
    · by_cases hi : i = ident
      · subst ht; subst hi
        simp [raise]
        omega
      · have hi' : ¬ t.Identifier = ident := fun e => hi (ht ▸ e)
        simp [raise, hi', ht, hi]
    · have hr : (raise ident n t).Identifier = t.Identifier := by
        unfold raise; split_ifs <;> rfl
      have ht' : ¬ i = t.Identifier := fun e => ht e.symm
      simp only [hr, ht, if_false, List.mem_cons, ht', false_or]
      exact ih

/-- C19, as stated, fails: an identifier without a tuple.  `Increment(0, 1)`
on a copy of the empty clock reports false and leaves the clock empty, which
compares Equal to the original. -/
theorem Increment_absent_Equal :
    Increment (Copy []) 0 1 = ([], false) ∧ Compare (Increment (Copy []) 0 1).1 [] = Equal ∧
      Equal ≠ Larger := by
  decide

/-- C19, amended.  For every vector clock A with pairwise distinct
identifiers: for an identifier that has a tuple in A and every count n > 0
that does not carry the count of that tuple to `2^32` or beyond, `Increment`
on a copy of A succeeds, raises that count by n and gives a clock that
compares Larger than A; for an identifier without a tuple in A, `Increment`
reports false and leaves the copy equal to A. -/
theorem Increment_Larger (A : VectorClock) (ident n : Nat)
    (hnd : (A.map Tuple.Identifier).Nodup) :
    (ident ∈ A.map Tuple.Identifier → 0 < n →
      (∀ t ∈ A, t.Identifier = ident → t.Count + n < 2 ^ 32) →
      Increment (Copy A) ident n = (A.map (raise ident n), true) ∧
        Compare (Increment (Copy A) ident n).1 A = Larger) ∧
    (ident ∉ A.map Tuple.Identifier → Increment (Copy A) ident n = (A, false)) := by
  constructor
  · intro hmem hn hb
    have hinc : Increment (Copy A) ident n = (A.map (raise ident n), true) := by
      rw [Copy_eq]; exact Increment_raise A ident n hnd hmem hb
    refine ⟨hinc, ?_⟩
    rw [hinc]
    have hnd' : ((A.map (raise ident n)).map Tuple.Identifier).Nodup := by
      have : (A.map (raise ident n)).map Tuple.Identifier = A.map Tuple.Identifier := by
        rw [List.map_map]
        apply List.map_congr_left
        intro t _
        simp only [Function.comp, raise]
        split_ifs <;> rfl
      rw [this]; exact hnd
    rw [Compare_Larger_iff _ _ hnd' hnd]
    constructor
    · intro i
      rw [level_raise]
      split_ifs <;> omega
    · refine ⟨ident, ?_⟩
      rw [level_raise]
      simp only [hmem, and_self, if_true]
      omega
  · intro hnot
    rw [Copy_eq]
    exact Increment_absent A ident n hnot

/-- Witness of C19: `Increment(0, 3)` and `Increment(7, 3)` on a copy of
`{0:1, 1:0}`. -/
theorem Increment_Larger_witness :
    (Increment (Copy [⟨0, 1⟩, ⟨1, 0⟩]) 0 3 = ([⟨0, 1⟩, ⟨1, 0⟩].map (raise 0 3), true) ∧
      Compare (Increment (Copy [⟨0, 1⟩, ⟨1, 0⟩]) 0 3).1 [⟨0, 1⟩, ⟨1, 0⟩] = Larger) ∧
    Increment (Copy [⟨0, 1⟩, ⟨1, 0⟩]) 7 3 = ([⟨0, 1⟩, ⟨1, 0⟩], false) :=
  ⟨(Increment_Larger [⟨0, 1⟩, ⟨1, 0⟩] 0 3 (by decide)).1 (by decide) (by decide) (by decide),
   (Increment_Larger [⟨0, 1⟩, ⟨1, 0⟩] 7 3 (by decide)).2 (by decide)⟩

end vectorclock

namespace kvstore

open vectorclock

/-- C12, evaluated on the code.  In the reachable store `newerFirst` the
bucket of "a" holds exactly two Versions, the first with clock `{0:2}` and the
second with clock `{0:1}`, so the first compares Larger than the second; a
garbage collection pass leaves the second one, the causally older: the rewrite
of the first (it depends on the clock of the second) moved it to index 1,
where `delete(key, second, 1)` then removed it. -/
theorem garbageCollection_keeps_older :
    Reachable newerFirst ∧
      bucket newerFirst "a" = [version "1" 1 1 "" false, version "2" 2 0 "" true] ∧
      Compare (version "1" 1 1 "" false).Clock (version "2" 2 0 "" true).Clock = Larger ∧
      garbageCollection newerFirst ["a"] = some (single (version "2" 2 0 "" true)) ∧
      (version "2" 2 0 "" true).Clock ≠ (version "1" 1 1 "" false).Clock :=
  ⟨reachable_newerFirst, rfl, rfl, rfl, by decide⟩

/-- C15, as stated, fails for an absent key: on the new store `Get` with an
empty payload, or one that does not decode, returns NotFound. -/
theorem Get_absent_key_NotFound :
    Get 1 New "a" Payload.empty = some (Value.zero, Payload.empty, NotFound) ∧
      Get 1 New "a" Payload.malformed = some (Value.zero, Payload.empty, NotFound) ∧
      NotFound ≠ Err := by
  decide

/-- C15, amended.  For every store and every key that owns a lock (a key that
was Put before), `Get` with an empty payload or a payload that does not decode
returns code Err; for a key without a lock it returns NotFound, whatever the
payload. -/
theorem Get_malformed_payload (fuel : Nat) (s : KVStore) (key : String) :
    (key ∈ s.locks →
      Get fuel s key Payload.empty = some (Value.zero, Payload.empty, Err) ∧
      Get fuel s key Payload.malformed = some (Value.zero, Payload.empty, Err)) ∧
    (key ∉ s.locks →
      ∀ payload, Get fuel s key payload = some (Value.zero, Payload.empty, NotFound)) := by
  constructor
  · intro hk
    simp [Get, hk]
  · intro hk payload
    simp [Get, hk]

/-- Witness of C15: the key "a" of the store `onlyA`, and the key "b" there. -/
theorem Get_malformed_payload_witness :
    (Get 1 onlyA "a" Payload.empty = some (Value.zero, Payload.empty, Err) ∧
      Get 1 onlyA "a" Payload.malformed = some (Value.zero, Payload.empty, Err)) ∧
    ∀ payload, Get 1 onlyA "b" payload = some (Value.zero, Payload.empty, NotFound) :=
  ⟨(Get_malformed_payload 1 onlyA "a").1 (by decide),
   (Get_malformed_payload 1 onlyA "b").2 (by decide)⟩

/-- C16.  Rejecting a malformed payload does not alter the store: `Put` with an
empty payload or one that does not decode returns Err, `Delete` with such a
payload returns false, and the store returned is the store given, with the
same `data` and `locks`. -/
theorem malformed_payload_keeps_store (fuel : Nat) (s : KVStore) (key : String) (value : Value)
    (ident : Nat) :
    Put fuel s key value Payload.empty ident = some (s, Value.zero, Payload.empty, Err) ∧
      Put fuel s key value Payload.malformed ident = some (s, Value.zero, Payload.empty, Err) ∧
      Delete s key Payload.empty = some (s, false) ∧
      Delete s key Payload.malformed = some (s, false) :=
  ⟨rfl, rfl, rfl, rfl⟩

/-- `Get` on a key that owns a lock, where the availability check returns on
every Version of the bucket. -/
theorem Get_eq_GetSpec_of_lock (fuel : Nat) (s : KVStore) (key : String) (C : CausalContext)
    (hk : key ∈ s.locks)
    (hterm : ∀ v ∈ bucket s key, (isAvailable fuel s v).isSome) :
    Get fuel s key (Payload.encoded C) =
      some (GetSpec key C.Clock (availableOf fuel s (bucket s key))) := by
  have hp : ∀ v ∈ bucket s key,
      isAvailable fuel s v = some (isAvailable fuel s v == some true) := by
    intro v hv
    have := hterm v hv
    cases h : isAvailable fuel s v with
    | none => simp [h] at this
    | some b => cases b <;> simp
  obtain ⟨res, hres, hat⟩ := traverseLoop_values (isAvailable fuel s) _ C.Clock
    (bucket s key) 0 (Slots.nil, Slots.nil) hp
  have e0 := hat Equal (by simp [Equal])
  have e1 := hat Larger (by simp [Larger])
  have e2 := hat Smaller (by simp [Smaller])
  have e3 := hat Uncomparable (by simp [Uncomparable])
  simp only [nil_at, List.nil_append] at e0 e1 e2 e3
  simp only [bucket] at hres e0 e1 e2 e3
  simp only [Get, hk, not_true_eq_false, if_false, traverseValues, hres, e0, e1, e2, e3,
    GetSpec, availableOf, bucket]
  cases h0 : classOf C.Clock Equal
      (List.filter (fun v => isAvailable fuel s v == some true)
        ((mapGet s.data key).getD [])) with
  | cons a t => simp
  | nil =>
    cases h1 : classOf C.Clock Larger
      (List.filter (fun v => isAvailable fuel s v == some true)
        ((mapGet s.data key).getD [])) with
    | cons a t => simp
    | nil =>
      cases h2 : classOf C.Clock Smaller
        (List.filter (fun v => isAvailable fuel s v == some true)
          ((mapGet s.data key).getD [])) with
      | cons a t => simp
      | nil =>
        cases h3 : classOf C.Clock Uncomparable
          (List.filter (fun v => isAvailable fuel s v == some true)
            ((mapGet s.data key).getD [])) with
        | cons a t => simp
        | nil => simp

/-- C13, as stated, fails: a Put whose dependency is not met.
`Put("b", "2", ({0:1}, "a"))` on the new store succeeds with code Added, and
`Get("b")` with the payload it echoes returns NotFound at every depth of the
availability check, not the Version just stored. -/
theorem Put_then_Get_NotFound :
    Put 1 New "b" (request "2" 1) (payloadOf 1 "a") 0
        = some (onlyB, version "2" 1 1 "a" false, payloadOf 2 "b", Added) ∧
      ∀ fuel, Get (fuel + 1) onlyB "b" (payloadOf 2 "b")
        = some (Value.zero, Payload.empty, NotFound) :=
  ⟨rfl, fun _ => rfl⟩

/-- C13, amended.  After a successful `Put` whose stored Version is available,
where the availability check returns on the Versions that the bucket held
before and none of those that are available has a clock comparing Equal to
the stored clock, `Get` on the same key with the payload echoed by that `Put`
returns code Found and the Version just stored, with the same echoed payload. -/
theorem Put_Get_round_trip (fuel fuel' : Nat) (s : KVStore) (key : String) (value : Value)
    (payload : Payload) (ident : Nat) (s' : KVStore) (stored : Value) (out : Payload)
    (code : Int)
    (hput : Put fuel s key value payload ident = some (s', stored, out, code))
    (hcode : code ≠ Err)
    (havail : stored.Available = true)
    (hterm : ∀ v ∈ bucket s key, (isAvailable (fuel' + 1) s' v).isSome)
    (hfirst : ∀ v ∈ bucket s key, isAvailable (fuel' + 1) s' v = some true →
      Compare v.Clock stored.Clock ≠ Equal) :
    Get (fuel' + 1) s' key out = some (stored, out, Found) ∧ stored.Data = value.Data := by
  obtain ⟨C, rfl⟩ := Put_code_ne_Err _ _ _ _ _ _ _ _ _ _ hput hcode
  obtain ⟨available, _, hstored, hs', hout, _⟩ := Put_encoded _ _ _ _ _ _ _ _ _ _ hput
  have hbucket := Put_bucket _ _ _ _ _ _ _ _ _ _ hput hcode
  have hk : key ∈ s'.locks := by
    rw [hs']
    by_cases h : key ∈ s.locks <;> simp [h]
  have hst : isAvailable (fuel' + 1) s' stored = some true := by
    simp [isAvailable, havail]
  have hterm' : ∀ v ∈ bucket s' key, (isAvailable (fuel' + 1) s' v).isSome := by
    intro v hv
    rw [hbucket, List.mem_append] at hv
    rcases hv with hv | hv
    · exact hterm v hv
    · simp only [List.mem_singleton] at hv
      subst hv; simp [hst]
  have hnone : classOf stored.Clock Equal (availableOf (fuel' + 1) s' (bucket s key)) = [] := by
    simp only [classOf, availableOf, List.filter_filter, List.filter_eq_nil_iff]
    intro v hv
    simp only [Bool.and_eq_true, beq_iff_eq, decide_eq_true_eq, not_and]
    intro hc ha
    exact hfirst v hv ha hc
  refine ⟨?_, by rw [hstored]; rfl⟩
  rw [hout, Get_eq_GetSpec_of_lock _ _ _ _ hk hterm']
  have hcls : classOf stored.Clock Equal (availableOf (fuel' + 1) s' (bucket s' key))
      = [stored] := by
    rw [hbucket]
    simp only [availableOf, classOf, List.filter_append] at hnone ⊢
    rw [hnone]
    simp [hst, Compare_self]
  simp only [GetSpec, hcls]

/-- Witness of C13: the second `Put` of the linear chain and the `Get` that
follows, with the Version of the first `Put` already in the bucket. -/
theorem Put_Get_round_trip_witness :
    Get 1 twoPuts "a" (payloadOf 2 "a") = some (version "2" 2 1 "a" true, payloadOf 2 "a", Found) ∧
      (version "2" 2 1 "a" true).Data = (request "2" 2).Data :=
  Put_Get_round_trip 2 0 onlyA "a" (request "2" 2) (payloadOf 1 "a") 0 twoPuts
    (version "2" 2 1 "a" true) (payloadOf 2 "a") Replaced rfl (by decide) rfl (by decide)
    (by decide)

end kvstore

namespace kvstore

open vectorclock

theorem Compare_single (a b : Nat) :
    Compare [⟨0, a⟩] [⟨0, b⟩] = Equal ↔ a = b := by
  rw [Compare_Equal_iff [⟨0, a⟩] [⟨0, b⟩] (by simp) (by simp)]
  constructor
  · intro h
    have := h 0
    simpa [level, levelOf, entries, mapGet] using this
  · rintro rfl i
    rfl

theorem filter_range_eq (n j : Nat) (hj : j < n) :
    (List.range n).filter (fun i => decide (i = j)) = [j] := by
  induction n with
  | zero => omega
  | succ n ih =>
    rw [List.range_succ, List.filter_append]
    by_cases h : j = n
    · subst h
      have : (List.range j).filter (fun i => decide (i = j)) = [] := by
        rw [List.filter_eq_nil_iff]
        intro i hi
        have := List.mem_range.1 hi
        simp only [decide_eq_true_eq]
        omega
      simp [this]
    · have hn : ¬ n = j := fun e => h e.symm
      rw [ih (by omega)]
      simp [hn]

theorem isAvailable_of_flag (fuel : Nat) (s : KVStore) (v : Value) (h : v.Available = true) :
    isAvailable (fuel + 1) s v = some true := by
  simp [isAvailable, h]

theorem chainStore_bucket (data : Nat → String) (time : Nat → Int) (n : Nat) :
    bucket (chainStore data time n) "a" = (List.range n).map (chainVersion data time) := by
  cases n with
  | zero => rfl
  | succ n => simp [chainStore, bucket, mapGet]

theorem chainStore_Get (fuel : Nat) (data : Nat → String) (time : Nat → Int) (n j : Nat)
    (hj : j < n) :
    Get (fuel + 1) (chainStore data time n) "a" (payloadOf (j + 1) "a") =
      some (chainVersion data time j, payloadOf (j + 1) "a", Found) := by
  have hk : "a" ∈ (chainStore data time n).locks := by
    cases n with
    | zero => omega
    | succ n => simp [chainStore]
  have hflag : ∀ v ∈ bucket (chainStore data time n) "a", v.Available = true := by
    intro v hv
    rw [chainStore_bucket] at hv
    obtain ⟨i, _, rfl⟩ := List.mem_map.1 hv
    rfl
  have hterm : ∀ v ∈ bucket (chainStore data time n) "a",
      (isAvailable (fuel + 1) (chainStore data time n) v).isSome := by
    intro v hv
    rw [isAvailable_of_flag _ _ _ (hflag v hv)]; rfl
  rw [payloadOf, Get_eq_GetSpec_of_lock _ _ _ _ hk hterm]
  have havail : availableOf (fuel + 1) (chainStore data time n)
      (bucket (chainStore data time n) "a") = bucket (chainStore data time n) "a" := by
    unfold availableOf
    rw [List.filter_eq_self]
    intro v hv
    rw [isAvailable_of_flag _ _ _ (hflag v hv)]; rfl
  have hcls : classOf [⟨0, j + 1⟩] Equal (bucket (chainStore data time n) "a")
      = [chainVersion data time j] := by
    rw [chainStore_bucket, classOf, List.filter_map]
    have : ((fun v : Value => decide (Compare v.Clock [⟨0, j + 1⟩] = Equal)) ∘
        chainVersion data time) = fun i => decide (i = j) := by
      funext i
      simp only [Function.comp, chainVersion, version]
      have := Compare_single (i + 1) (j + 1)
      by_cases hij : i = j
      · subst hij
        simp [Compare_self]
      · have hne : ¬ Compare [⟨0, i + 1⟩] [⟨0, j + 1⟩] = Equal := fun e => hij (by
          have := this.1 e; omega)
        simp [hij, hne]
    rw [this, filter_range_eq n j hj]
    rfl
  rw [havail]
  simp only [GetSpec, hcls]
  rfl

theorem chainStore_class (data : Nat → String) (time : Nat → Int) (n j : Nat) (hj : j < n) :
    classOf [⟨0, j + 1⟩] Equal ((List.range n).map (chainVersion data time))
      = [chainVersion data time j] := by
  rw [classOf, List.filter_map]
  have : ((fun v : Value => decide (Compare v.Clock [⟨0, j + 1⟩] = Equal)) ∘
      chainVersion data time) = fun i => decide (i = j) := by
    funext i
    simp only [Function.comp, chainVersion, version]
    have := Compare_single (i + 1) (j + 1)
    by_cases hij : i = j
    · subst hij
      simp [Compare_self]
    · have hne : ¬ Compare [⟨0, i + 1⟩] [⟨0, j + 1⟩] = Equal := fun e => hij (by
        have := this.1 e; omega)
      simp [hij, hne]
  rw [this, filter_range_eq n j hj]
  rfl

/-- What `Put` returns once the availability check of the prepared value has
returned. -/
theorem Put_of_available (fuel : Nat) (s : KVStore) (key : String) (value : Value)
    (C : CausalContext) (ident : Nat) (available : Bool)
    (h : isAvailable fuel s (prepared value C ident) = some available) :
    Put fuel s key value (Payload.encoded C) ident =
      some ({ s with data := mapSet s.data key
                        (bucket s key ++ [{ prepared value C ident with Available := available }]),
                     locks := if key ∈ s.locks then s.locks else s.locks ++ [key] },
            { prepared value C ident with Available := available },
            Payload.encoded { Clock := (prepared value C ident).Clock, Key := key },
            if (mapGet s.data key).isSome then Replaced else Added) := by
  simp only [Put]
  change (match isAvailable fuel s (prepared value C ident) with
    | none => none
    | some available => _) = _
  rw [h]
  rfl

theorem chain_step (fuel : Nat) (data : Nat → String) (time : Nat → Int) (m : Nat)
    (hm : m + 2 < 2 ^ 32) :
    Put (fuel + 2) (chainStore data time (m + 1)) "a" (request (data (m + 1)) (time (m + 1)))
        (payloadOf (m + 1) "a") 0
      = some (chainStore data time (m + 2), chainVersion data time (m + 1),
          payloadOf (m + 2) "a", Replaced) := by
  have hprep : prepared (request (data (m + 1)) (time (m + 1)))
      { Clock := [⟨0, m + 1⟩], Key := "a" } 0
      = version (data (m + 1)) (time (m + 1)) (m + 1) "a" false := by
    have hlt : m + 1 + 1 < 4294967296 := by omega
    simp only [prepared, Copy_eq, Increment_cons, if_true, request, Value.zero, version]
    simp [Nat.mod_eq_of_lt hlt]
  have hav : isAvailable (fuel + 2) (chainStore data time (m + 1))
      (version (data (m + 1)) (time (m + 1)) (m + 1) "a" false) = some true := by
    have hp : ∀ v ∈ (List.range (m + 1)).map (chainVersion data time),
        isAvailable (fuel + 1) (chainStore data time (m + 1)) v = some ((fun _ => true) v) := by
      intro v hv
      obtain ⟨i, _, rfl⟩ := List.mem_map.1 hv
      exact isAvailable_of_flag _ _ _ rfl
    obtain ⟨res, hres, hat⟩ := traverseLoop_values _ _ [⟨0, m + 1⟩] _ 0
      (Slots.nil, Slots.nil) hp
    have e0 := hat Equal (by simp [Equal])
    rw [nil_at, List.nil_append, List.filter_true, chainStore_class data time (m + 1) m (by omega)]
      at e0
    have hz : ZeroClock [(⟨0, m + 1⟩ : Tuple)] = false := by simp [ZeroClock]
    have hget : mapGet (chainStore data time (m + 1)).data "a"
        = some ((List.range (m + 1)).map (chainVersion data time)) := rfl
    rw [isAvailable]
    simp only [version, hz, hget, traverseValues, hres, e0]
    simp
  rw [payloadOf, Put_of_available _ _ _ _ _ _ true (by rw [hprep]; exact hav), hprep]
  simp only [chainStore_bucket, chainStore, mapSet, mapGet]
  simp [List.range_succ, chainVersion, version, payloadOf, Replaced, bucket, mapGet]

/-- The linear chain on the code produces the store `chainStore` and echoes
the clock `{0:n}`. -/
theorem linearChain_eq (fuel : Nat) (data : Nat → String) (time : Nat → Int) (n : Nat)
    (hn : n + 1 < 2 ^ 32) :
    linearChain (fuel + 2) data time (n + 1)
      = some (chainStore data time (n + 1), payloadOf (n + 1) "a") := by
  induction n with
  | zero => rfl
  | succ m ih =>
    simp only [linearChain] at ih ⊢
    simp only [ih (by omega), chain_step fuel data time m hn]

/-- C14, as stated, fails (scenario 1, n = 2).  After `Put("a", "1", {0:0})`
and `Put("a", "2", echoed)`, `Get("a", {0:1})` returns the data "1" of the first
Put with code Found, not the data "2" of the last Put: the first Version
compares Equal to the context and Equal is selected before Larger. -/
theorem linear_chain_Get_first :
    linearChain 2 twoData twoTime 2 = some (twoPuts, payloadOf 2 "a") ∧
      Get 1 twoPuts "a" (payloadOf 1 "a")
        = some (version "1" 1 0 "" true, payloadOf 1 "a", Found) ∧
      (version "1" 1 0 "" true).Data = twoData 0 ∧ twoData 0 ≠ twoData 1 :=
  ⟨rfl, rfl, rfl, by decide⟩

/-- C14, amended.  On the new store, for every chain of n + 1 Puts on one key
by writer 0, the first with the zero context `{0:0}` and each later one with
the payload echoed by the previous Put, with fewer than `2^32` Puts in all:
the Put number j echoes the clock `{0:j+1}`, and `Get` with that echoed context
on the store left by the whole chain returns, with code Found, the Version of
that same Put number j (the one whose clock is Equal), so its data. -/
theorem linear_chain_Get (fuel : Nat) (data : Nat → String) (time : Nat → Int) (n j : Nat)
    (hn : n + 1 < 2 ^ 32) (hj : j ≤ n) :
    linearChain (fuel + 2) data time (j + 1)
        = some (chainStore data time (j + 1), payloadOf (j + 1) "a") ∧
      linearChain (fuel + 2) data time (n + 1)
        = some (chainStore data time (n + 1), payloadOf (n + 1) "a") ∧
      Get (fuel + 1) (chainStore data time (n + 1)) "a" (payloadOf (j + 1) "a")
        = some (chainVersion data time j, payloadOf (j + 1) "a", Found) ∧
      (chainVersion data time j).Data = data j :=
  ⟨linearChain_eq fuel data time j (by omega), linearChain_eq fuel data time n hn,
    chainStore_Get fuel data time (n + 1) j (by omega), rfl⟩

/-- Witness of C14: scenario 1, the context echoed by the first of two Puts. -/
theorem linear_chain_Get_witness :
    linearChain 2 twoData twoTime 1 = some (chainStore twoData twoTime 1, payloadOf 1 "a") ∧
      linearChain 2 twoData twoTime 2 = some (chainStore twoData twoTime 2, payloadOf 2 "a") ∧
      Get 1 (chainStore twoData twoTime 2) "a" (payloadOf 1 "a")
        = some (chainVersion twoData twoTime 0, payloadOf 1 "a", Found) ∧
      (chainVersion twoData twoTime 0).Data = twoData 0 :=
  linear_chain_Get 0 twoData twoTime 1 0 (by decide) (by decide)

end kvstore

namespace kvstore

open vectorclock

theorem mapGet_isSome_iff {κ α : Type} [DecidableEq κ] (m : List (κ × α)) (k : κ) :
    (mapGet m k).isSome = true ↔ k ∈ m.map Prod.fst := by
  induction m with
  | nil => simp [mapGet]
  | cons e rest ih =>
    obtain ⟨k', c'⟩ := e
    by_cases hk : k' = k
    · simp [mapGet, hk]
    · have hk' : ¬ k = k' := fun e => hk e.symm
      simp [mapGet, hk, hk', ih]

theorem mapGet_eq_none_iff {κ α : Type} [DecidableEq κ] (m : List (κ × α)) (k : κ) :
    mapGet m k = none ↔ k ∉ m.map Prod.fst := by
  rw [← mapGet_isSome_iff]
  cases mapGet m k <;> simp

theorem mem_keys_of_bucket_pos (s : KVStore) (key : String) (i : Nat)
    (h : i < (bucket s key).length) : key ∈ s.data.map Prod.fst := by
  rw [← mapGet_isSome_iff]
  unfold bucket at h
  cases hg : mapGet s.data key with
  | none => simp [hg] at h
  | some b => rfl

theorem findInBucket_spec (context : CausalContext) (key : String) (L : Nat) :
    ∀ (values : List Value) (index : Nat) (acc : List String × List Nat),
      (key = context.Key → index + values.length ≤ L) →
      (∀ k ∈ acc.1, k = context.Key) → (∀ i ∈ acc.2, i < L) →
      (∀ k ∈ (findInBucket context key values index acc).1, k = context.Key) ∧
      (∀ i ∈ (findInBucket context key values index acc).2, i < L) := by
  intro values
  induction values with
  | nil => intro index acc _ h1 h2; exact ⟨h1, h2⟩
  | cons v rest ih =>
    intro index acc hL h1 h2
    simp only [findInBucket]
    split_ifs with hc
    · apply ih
      · intro hk
        have := hL hk
        simp only [List.length_cons] at this
        omega
      · intro k hk
        simp only [List.mem_append, List.mem_singleton] at hk
        rcases hk with hk | hk
        · exact h1 k hk
        · rw [hk]; exact hc.2
      · intro i hi
        simp only [List.mem_append, List.mem_singleton] at hi
        rcases hi with hi | hi
        · exact h2 i hi
        · have := hL hc.2
          simp only [List.length_cons] at this
          omega
    · apply ih
      · intro hk
        have := hL hk
        simp only [List.length_cons] at this
        omega
      · exact h1
      · exact h2

theorem findLoop_spec (locks : List String) (context : CausalContext) (L : Nat) :
    ∀ (entries : List (String × List Value)) (acc : List String × List Nat),
      (∀ e ∈ entries, e.1 ∈ locks ∧ (e.1 = context.Key → e.2.length ≤ L)) →
      (∀ k ∈ acc.1, k = context.Key) → (∀ i ∈ acc.2, i < L) →
      ∃ res, findLoop locks context entries acc = some res ∧
        (∀ k ∈ res.1, k = context.Key) ∧ (∀ i ∈ res.2, i < L) := by
  intro entries
  induction entries with
  | nil => intro acc _ h1 h2; exact ⟨acc, rfl, h1, h2⟩
  | cons e rest ih =>
    intro acc he h1 h2
    obtain ⟨key, values⟩ := e
    have hkey := he (key, values) (List.mem_cons_self _ _)
    have hno : ¬ (key ≠ context.Key ∧ key ∉ locks) := fun h => h.2 hkey.1
    simp only [findLoop, hno, if_false]
    obtain ⟨g1, g2⟩ := findInBucket_spec context key L values 0 acc
      (fun hk => by have := hkey.2 hk; simp only at this; omega) h1 h2
    exact ih _ (fun e' he' => he e' (List.mem_cons_of_mem _ he')) g1 g2

/-- On consistent tables `findDependencies` returns, and reports only the key
of the context with indices inside its bucket. -/
theorem findDependencies_spec (s : KVStore) (hs : Tables s) (context : CausalContext) :
    ∃ res, findDependencies s context = some res ∧
      (∀ k ∈ res.1, k = context.Key) ∧ (∀ i ∈ res.2, i < (bucket s context.Key).length) := by
  apply findLoop_spec s.locks context _ s.data ([], [])
  · intro e he
    obtain ⟨k, vals⟩ := e
    refine ⟨hs.2 k (List.mem_map_of_mem Prod.fst he), ?_⟩
    intro hk
    have := mapGet_of_mem s.data hs.1 k vals he
    simp only at hk
    subst hk
    simp [bucket, this]
  · simp
  · simp

theorem SameExcept.refl (s : KVStore) (key : String) : SameExcept s s key :=
  ⟨rfl, rfl, rfl, fun _ _ => rfl⟩

theorem SameExcept.trans {s s' s'' : KVStore} {key : String} (h : SameExcept s s' key)
    (h' : SameExcept s' s'' key) : SameExcept s s'' key :=
  ⟨h'.1.trans h.1, h'.2.1.trans h.2.1, h'.2.2.1.trans h.2.2.1,
    fun k hk => (h'.2.2.2 k hk).trans (h.2.2.2 k hk)⟩

theorem SameExcept.tables {s s' : KVStore} {key : String} (h : SameExcept s s' key)
    (hs : Tables s) : Tables s' := by
  unfold Tables
  rw [h.2.2.1, h.1]
  exact hs

theorem SameExcept.bucket_eq {s s' : KVStore} {key : String} (h : SameExcept s s' key)
    (k : String) (hk : k ≠ key) : bucket s' k = bucket s k := by
  simp only [bucket, h.2.2.2 k hk]

/-- Assigning the bucket of a key that has an entry changes that bucket only. -/
theorem SameExcept.of_mapSet (s : KVStore) (key : String) (values : List Value)
    (hk : key ∈ s.data.map Prod.fst) :
    SameExcept s { s with data := mapSet s.data key values } key := by
  refine ⟨rfl, rfl, ?_, ?_⟩
  · simp only [mapSet_keys, hk, if_true]
  · intro k hne
    exact mapGet_mapSet_other _ _ _ _ hne

theorem bucket_mapSet (s : KVStore) (key : String) (values : List Value) :
    bucket { s with data := mapSet s.data key values } key = values := by
  simp [bucket, mapGet_mapSet_self]

/-- The rewriting loop of `delete` returns, touches the bucket of `key` only
and keeps its length. -/
theorem rewriteLoop_spec (key : String) (value : Value) :
    ∀ (keys : List String) (indices : List Nat) (s : KVStore),
      (∀ k ∈ keys, k = key) → (∀ i ∈ indices, i < (bucket s key).length) →
      ∃ s', rewriteLoop key value keys indices s = some s' ∧ SameExcept s s' key ∧
        (bucket s' key).length = (bucket s key).length := by
  intro keys
  induction keys with
  | nil => intro indices s _ _; exact ⟨s, by simp [rewriteLoop], SameExcept.refl s key, rfl⟩
  | cons k keys ih =>
    intro indices s hk hi
    cases indices with
    | nil => exact ⟨s, by simp [rewriteLoop], SameExcept.refl s key, rfl⟩
    | cons i indices =>
      have hkk : k = key := hk k (List.mem_cons_self _ _)
      subst hkk
      have hlt : i < (bucket s k).length := hi i (List.mem_cons_self _ _)
      have hmem := mem_keys_of_bucket_pos s k i hlt
      obtain ⟨found, hfound⟩ : ∃ found, (bucket s k).get? i = some found :=
        ⟨(bucket s k).get ⟨i, hlt⟩, List.get?_eq_get hlt⟩
      have hlen : ((bucket s k).eraseIdx i ++ [{ found with Depends := value.Depends }]).length
          = (bucket s k).length := by
        rw [List.length_append, List.length_eraseIdx]
        simp only [hlt, if_true, List.length_singleton]
        omega
      obtain ⟨s', h1, h2, h3⟩ := ih indices
        { s with
          data := mapSet s.data k
            ((bucket s k).eraseIdx i ++ [{ found with Depends := value.Depends }]) }
        (fun k' hk' => hk k' (List.mem_cons_of_mem _ hk'))
        (fun j hj => by
          rw [bucket_mapSet, hlen]
          exact hi j (List.mem_cons_of_mem _ hj))
      refine ⟨s', ?_, (SameExcept.of_mapSet s k _ hmem).trans h2, ?_⟩
      · simp only [bucket] at hfound
        simp only [rewriteLoop, ne_eq, not_true_eq_false, false_and, if_false, hfound]
        exact h1
      · rw [h3, bucket_mapSet, hlen]

/-- On consistent tables the internal `delete` with an index inside the
bucket returns, touches the bucket of `key` only and shortens it by one. -/
theorem delete_spec (s : KVStore) (hs : Tables s) (key : String) (value : Value) (index : Nat)
    (hi : index < (bucket s key).length) :
    ∃ s', delete s key value index = some s' ∧ SameExcept s s' key ∧
      (bucket s' key).length + 1 = (bucket s key).length := by
  obtain ⟨deps, hdeps, hk, hidx⟩ := findDependencies_spec s hs { Clock := value.Clock, Key := key }
  obtain ⟨s1, h1, h2, h3⟩ := rewriteLoop_spec key value deps.1 deps.2 s hk hidx
  have hi1 : index < (bucket s1 key).length := by rw [h3]; exact hi
  have hmem := mem_keys_of_bucket_pos s1 key index hi1
  refine ⟨{ s1 with data := mapSet s1.data key ((bucket s1 key).eraseIdx index) }, ?_,
    h2.trans (SameExcept.of_mapSet s1 key _ hmem), ?_⟩
  · simp only [bucket] at hi1
    simp only [delete, hdeps, h1, hi1, if_true, bucket]
  · rw [bucket_mapSet, List.length_eraseIdx, ← h3]
    simp only [hi1, if_true]
    omega

/-- On consistent tables the internal `delete` panics exactly when the index
is outside the bucket. -/
theorem delete_none (s : KVStore) (hs : Tables s) (key : String) (value : Value) (index : Nat)
    (hi : ¬ index < (bucket s key).length) : delete s key value index = none := by
  obtain ⟨deps, hdeps, hk, hidx⟩ := findDependencies_spec s hs { Clock := value.Clock, Key := key }
  obtain ⟨s1, h1, h2, h3⟩ := rewriteLoop_spec key value deps.1 deps.2 s hk hidx
  have hi1 : ¬ index < ((mapGet s1.data key).getD []).length := by
    have : (bucket s1 key).length = (bucket s key).length := h3
    simp only [bucket] at this hi
    rw [this]; exact hi
  simp only [delete, hdeps, h1, hi1, if_false]

theorem delete_of_some (s : KVStore) (hs : Tables s) (key : String) (value : Value)
    (index : Nat) (s' : KVStore) (h : delete s key value index = some s') :
    SameExcept s s' key ∧ (bucket s' key).length + 1 = (bucket s key).length := by
  by_cases hi : index < (bucket s key).length
  · obtain ⟨s'', h1, h2, h3⟩ := delete_spec s hs key value index hi
    rw [h1] at h
    cases h
    exact ⟨h2, h3⟩
  · rw [delete_none s hs key value index hi] at h
    cases h

/-- The compaction loop on one key returns when the fuel is the length of the
bucket, touches that bucket only and leaves at most one Version in it. -/
theorem compactKey_spec (key : String) :
    ∀ (fuel : Nat) (s : KVStore), Tables s → (bucket s key).length ≤ fuel + 1 →
      ∃ s', compactKey fuel s key = some s' ∧ SameExcept s s' key ∧
        (bucket s' key).length ≤ 1 := by
  intro fuel
  induction fuel with
  | zero =>
    intro s _ hlen
    refine ⟨s, ?_, SameExcept.refl s key, by omega⟩
    have : ¬ ((mapGet s.data key).getD []).length > 1 := by
      simp only [bucket] at hlen; omega
    simp only [compactKey, this, if_false]
  | succ n ih =>
    intro s hs hlen
    cases hb : (mapGet s.data key).getD [] with
    | nil =>
      refine ⟨s, by simp only [compactKey, hb], SameExcept.refl s key, ?_⟩
      simp [bucket, hb]
    | cons first rest =>
      cases rest with
      | nil =>
        refine ⟨s, by simp only [compactKey, hb], SameExcept.refl s key, ?_⟩
        simp [bucket, hb]
      | cons second rest =>
        have hlen2 : (bucket s key).length = rest.length + 2 := by simp [bucket, hb]
        have step : ∀ (value : Value) (index : Nat), index < 2 →
            ∃ s1, delete s key value index = some s1 ∧ SameExcept s s1 key ∧
              (bucket s1 key).length ≤ n + 1 := by
          intro value index hidx
          obtain ⟨s1, h1, h2, h3⟩ := delete_spec s hs key value index (by omega)
          exact ⟨s1, h1, h2, by omega⟩
        have next : ∃ s1,
            (if Compare first.Clock second.Clock = Smaller then delete s key first 0
              else if Compare first.Clock second.Clock = Larger then delete s key second 1
              else if first.Timestamp > second.Timestamp then delete s key second 1
              else delete s key first 0) = some s1 ∧ SameExcept s s1 key ∧
              (bucket s1 key).length ≤ n + 1 := by
          split_ifs
          · exact step first 0 (by omega)
          · exact step second 1 (by omega)
          · exact step second 1 (by omega)
          · exact step first 0 (by omega)
        obtain ⟨s1, h1, h2, h3⟩ := next
        obtain ⟨s', g1, g2, g3⟩ := ih s1 (h2.tables hs) h3
        refine ⟨s', ?_, h2.trans g2, g3⟩
        simp only [compactKey, hb, h1]
        exact g1

/-- The compaction of all keys of `order` returns and leaves at most one
Version under each of them; the other keys keep their buckets. -/
theorem compactAll_spec :
    ∀ (order : List String) (s : KVStore), Tables s →
      ∃ s', compactAll order s = some s' ∧ Tables s' ∧ s'.locks = s.locks ∧
        (∀ k, k ∈ order → (bucket s' k).length ≤ 1) ∧
        (∀ k, (bucket s k).length ≤ 1 → (bucket s' k).length ≤ 1) ∧
        (∀ k, k ∉ order → bucket s' k = bucket s k) := by
  intro order
  induction order with
  | nil =>
    intro s hs
    exact ⟨s, rfl, hs, rfl, by simp, fun _ h => h, fun _ _ => rfl⟩
  | cons key rest ih =>
    intro s hs
    obtain ⟨s1, h1, h2, h3⟩ := compactKey_spec key (bucket s key).length s hs (by omega)
    obtain ⟨s', g1, g2, g3, g4, g5, g6⟩ := ih s1 (h2.tables hs)
    have keep : ∀ k, (bucket s k).length ≤ 1 → (bucket s1 k).length ≤ 1 := by
      intro k hk
      by_cases hkk : k = key
      · subst hkk; exact h3
      · rw [h2.bucket_eq k hkk]; exact hk
    refine ⟨s', ?_, g2, g3.trans h2.1, ?_, fun k hk => g5 k (keep k hk), ?_⟩
    · simp only [bucket] at h1
      simp only [compactAll, h1]
      exact g1
    · intro k hk
      simp only [List.mem_cons] at hk
      rcases hk with hk | hk
      · subst hk; exact g5 k h3
      · exact g4 k hk
    · intro k hk
      simp only [List.mem_cons, not_or] at hk
      rw [g6 k hk.2, h2.bucket_eq k hk.1]

theorem Tables.of_gcInUse (s : KVStore) (n : Nat) (hs : Tables s) :
    Tables { s with gcInUse := n } := hs

/-- A garbage collection pass on a well-formed store returns a well-formed
store in which every key visited has at most one Version. -/
theorem garbageCollection_spec (s : KVStore) (hs : WellFormed s) (order : List String) :
    ∃ s', garbageCollection s order = some s' ∧ WellFormed s' ∧
      (∀ k, k ∈ order → (bucket s' k).length ≤ 1) ∧
      (∀ k, k ∉ order → bucket s' k = bucket s k) := by
  obtain ⟨s1, h1, h2, _, h4, _, h6⟩ := compactAll_spec order { s with gcInUse := 1 }
    (Tables.of_gcInUse s 1 hs.1)
  refine ⟨{ s1 with gcInUse := 0 }, ?_, ⟨h2, rfl⟩, h4, h6⟩
  have h0 : ¬ s.gcInUse ≠ 0 := by simp [hs.2]
  simp only [garbageCollection, h0, if_false, h1]

theorem deleteEach_of_some (key : String) :
    ∀ (values : List Value) (indices : List Nat) (s s' : KVStore), Tables s →
      deleteEach key values indices s = some s' → SameExcept s s' key := by
  intro values
  induction values with
  | nil =>
    intro indices s s' _ h
    simp only [deleteEach, Option.some.injEq] at h
    subst h; exact SameExcept.refl s key
  | cons v rest ih =>
    intro indices s s' hs h
    cases indices with
    | nil =>
      simp only [deleteEach, Option.some.injEq] at h
      subst h; exact SameExcept.refl s key
    | cons i indices =>
      simp only [deleteEach] at h
      cases hd : delete s key v i with
      | none => simp [hd] at h
      | some s1 =>
        simp only [hd] at h
        have h1 := (delete_of_some s hs key v i s1 hd).1
        exact h1.trans (ih indices s1 s' (h1.tables hs) h)

theorem Delete_of_some (s s' : KVStore) (key : String) (payload : Payload) (removed : Bool)
    (hs : Tables s) (h : Delete s key payload = some (s', removed)) : SameExcept s s' key := by
  cases payload with
  | empty =>
    simp only [Delete, Option.some.injEq, Prod.mk.injEq] at h
    rw [← h.1]; exact SameExcept.refl s key
  | malformed =>
    simp only [Delete, Option.some.injEq, Prod.mk.injEq] at h
    rw [← h.1]; exact SameExcept.refl s key
  | encoded C =>
    simp only [Delete] at h
    by_cases hk : key ∈ s.locks
    · simp only [hk, not_true_eq_false, if_false] at h
      cases htr : traverseValues (fun _ => some true) ((mapGet s.data key).getD []) C.Clock
          false with
      | none => simp [htr] at h
      | some all =>
        simp only [htr] at h
        cases h1 : deleteEach key (all.1.at Equal) (all.2.at Equal) s with
        | none => simp [h1] at h
        | some s1 =>
          simp only [h1] at h
          have e1 := deleteEach_of_some key _ _ s s1 hs h1
          cases h2 : deleteEach key (all.1.at Smaller) (all.2.at Smaller) s1 with
          | none => simp [h2] at h
          | some s2 =>
            simp only [h2, Option.some.injEq, Prod.mk.injEq] at h
            have e2 := deleteEach_of_some key _ _ s1 s2 (e1.tables hs) h2
            rw [← h.1]
            exact e1.trans e2
    · simp only [hk, not_false_eq_true, if_true, Option.some.injEq, Prod.mk.injEq] at h
      rw [← h.1]; exact SameExcept.refl s key

theorem Put_tables (fuel : Nat) (s s' : KVStore) (key : String) (value : Value)
    (payload : Payload) (ident : Nat) (out : Value × Payload × Int) (hs : Tables s)
    (h : Put fuel s key value payload ident = some (s', out)) :
    Tables s' ∧ s'.gcInUse = s.gcInUse := by
  obtain ⟨stored, echoed, code⟩ := out
  cases payload with
  | empty =>
    simp only [Put, Option.some.injEq, Prod.mk.injEq] at h
    rw [← h.1]; exact ⟨hs, rfl⟩
  | malformed =>
    simp only [Put, Option.some.injEq, Prod.mk.injEq] at h
    rw [← h.1]; exact ⟨hs, rfl⟩
  | encoded C =>
    obtain ⟨_, _, _, hs', _, _⟩ := Put_encoded _ _ _ _ _ _ _ _ _ _ h
    subst hs'
    refine ⟨⟨mapSet_nodup _ _ _ hs.1, ?_⟩, rfl⟩
    intro k hk
    simp only [mapSet_keys] at hk
    by_cases hkey : key ∈ s.locks
    · simp only [hkey, if_true]
      split_ifs at hk with hin
      · exact hs.2 k hk
      · simp only [List.mem_append, List.mem_singleton] at hk
        rcases hk with hk | hk
        · exact hs.2 k hk
        · rw [hk]; exact hkey
    · simp only [hkey, if_false, List.mem_append, List.mem_singleton]
      split_ifs at hk with hin
      · exact Or.inl (hs.2 k hk)
      · simp only [List.mem_append, List.mem_singleton] at hk
        rcases hk with hk | hk
        · exact Or.inl (hs.2 k hk)
        · exact Or.inr hk

/-- Every store reachable by `Put`, `Delete` and garbage collection is
well-formed. -/
theorem Reachable.wellFormed {s : KVStore} (h : Reachable s) : WellFormed s := by
  induction h with
  | new => exact ⟨⟨by simp [New], by simp [New]⟩, rfl⟩
  | put fuel s s' key value payload ident out _ hput ih =>
    obtain ⟨h1, h2⟩ := Put_tables fuel s s' key value payload ident out ih.1 hput
    exact ⟨h1, h2.trans ih.2⟩
  | delete s s' key payload removed _ hdel ih =>
    have h1 := Delete_of_some s s' key payload removed ih.1 hdel
    exact ⟨h1.tables ih.1, h1.2.1.trans ih.2⟩
  | gc s s' order _ _ hgc ih =>
    obtain ⟨s'', h1, h2, _⟩ := garbageCollection_spec s ih order
    rw [h1] at hgc
    cases hgc
    exact h2

/-- C11.  On every store reachable from the new store by Puts, Deletes and
garbage collection, a garbage collection pass, in whatever order the keys of
`locks` are visited, returns (the loop of each key ends within as many
iterations as the bucket has Versions, without a panic) and leaves every
key with at most one Version. -/
theorem garbageCollection_at_most_one (s : KVStore) (hs : Reachable s) (order : List String)
    (horder : order.Perm s.locks) :
    ∃ s', garbageCollection s order = some s' ∧ ∀ k, (bucket s' k).length ≤ 1 := by
  have hwf := hs.wellFormed
  obtain ⟨s', h1, _, h3, h4⟩ := garbageCollection_spec s hwf order
  refine ⟨s', h1, ?_⟩
  intro k
  by_cases hk : k ∈ order
  · exact h3 k hk
  · rw [h4 k hk]
    have hlock : k ∉ s.locks := fun h => hk (horder.mem_iff.2 h)
    have hkeys : k ∉ s.data.map Prod.fst := fun h => hlock (hwf.1.2 k h)
    have := (mapGet_eq_none_iff s.data k).2 hkeys
    simp [bucket, this]

/-- Witness of C11: the pass on the store `fourSiblings` leaves one Version. -/
theorem garbageCollection_at_most_one_witness :
    ∃ s', garbageCollection fourSiblings ["a"] = some s' ∧ ∀ k, (bucket s' k).length ≤ 1 :=
  garbageCollection_at_most_one fourSiblings reachable_fourSiblings ["a"] (List.Perm.refl _)

end kvstore

namespace node

theorem GetCopy_eq (v : View) : v.GetCopy = v.Nodes := by
  have h : ∀ (l acc : List IP), List.foldl (fun copyView n => copyView ++ [n]) acc l = acc ++ l := by
    intro l
    induction l with
    | nil => intro acc; simp
    | cons a rest ih => intro acc; simp [List.foldl_cons, ih]
  simpa [View.GetCopy] using h v.Nodes []

theorem Compare_eq_zero_iff (a b : IP) : a.Compare b = 0 ↔ a = b := by
  obtain ⟨a1, a2⟩ := a
  obtain ⟨b1, b2⟩ := b
  unfold IP.Compare
  simp only [IP.mk.injEq]
  split_ifs <;> simp_all

theorem existsLoop_iff (ip : IP) (l : List IP) : existsLoop ip l = true ↔ ip ∈ l := by
  induction l with
  | nil => simp [existsLoop]
  | cons a rest ih =>
    simp only [existsLoop, List.mem_cons]
    by_cases h : a.Compare ip = 0
    · have := (Compare_eq_zero_iff a ip).1 h
      subst this
      simp [h]
    · have hne : ¬ ip = a := fun e => h ((Compare_eq_zero_iff a ip).2 e.symm)
      simp [h, hne, ih]

theorem Add_fresh (v : View) (ip : IP) (h : ip ∉ v.Nodes) :
    (v.Add ip).1 = { v with Nodes := v.Nodes ++ [ip] } := by
  have : v.Exists ip = false := by
    rw [View.Exists, GetCopy_eq]
    cases he : existsLoop ip v.Nodes with
    | false => rfl
    | true => exact absurd ((existsLoop_iff ip v.Nodes).1 he) h
  simp [View.Add, this]

theorem addAll_nodup (l : List IP) :
    ∀ (v : View), (v.Nodes ++ l).Nodup →
      l.foldl (fun v ip => (v.Add ip).1) v = { v with Nodes := v.Nodes ++ l } := by
  induction l with
  | nil => intro v _; simp
  | cons a rest ih =>
    intro v h
    have ha : a ∉ v.Nodes := by
      intro hin
      have := (List.nodup_append.1 h).2.2
      exact this hin (List.mem_cons_self _ _)
    rw [List.foldl_cons, Add_fresh v a ha, ih]
    · simp
    · simpa using h

theorem splitComma_ne_nil (l : List Char) : splitComma l ≠ [] := by
  cases l with
  | nil => simp [splitComma]
  | cons c rest =>
    simp only [splitComma]
    split_ifs
    · simp
    · cases splitComma rest <;> simp

theorem splitComma_plain (a : List Char) (h : ',' ∉ a) : splitComma a = [a] := by
  induction a with
  | nil => rfl
  | cons c rest ih =>
    simp only [List.mem_cons, not_or] at h
    have hc : ¬ c = ',' := fun e => h.1 e.symm
    simp [splitComma, hc, ih h.2]

theorem splitComma_append (a b : List Char) (h : ',' ∉ a) :
    splitComma (a ++ ',' :: b) = a :: splitComma b := by
  induction a with
  | nil => simp [splitComma]
  | cons c rest ih =>
    simp only [List.mem_cons, not_or] at h
    have hc : ¬ c = ',' := fun e => h.1 e.symm
    simp [splitComma, hc, ih h.2]

theorem sepJoin_succ (j : Nat) (l : List IP) :
    sepJoin (j + 1) l = (l.map (fun ip => ',' :: ip.String.data)).flatten := by
  induction l generalizing j with
  | nil => rfl
  | cons ip rest ih => simp [sepJoin, ih]

theorem splitComma_tail (l : List IP) (h : ∀ ip ∈ l, ',' ∉ ip.String.data) (a : List Char)
    (ha : ',' ∉ a) :
    splitComma (a ++ (l.map (fun ip => ',' :: ip.String.data)).flatten)
      = a :: l.map (fun ip => ip.String.data) := by
  induction l generalizing a with
  | nil => simp [splitComma_plain a ha]
  | cons ip rest ih =>
    simp only [List.map_cons, List.flatten_cons, List.cons_append]
    rw [splitComma_append a _ ha, ih (fun x hx => h x (List.mem_cons_of_mem _ hx)) _
      (h ip (List.mem_cons_self _ _))]

theorem splitComma_sepJoin (ip : IP) (rest : List IP)
    (h : ∀ x ∈ ip :: rest, ',' ∉ x.String.data) :
    splitComma (sepJoin 0 (ip :: rest)) = (ip :: rest).map (fun x => x.String.data) := by
  simp only [sepJoin, ne_eq, not_true_eq_false, if_false, List.nil_append, sepJoin_succ,
    List.map_cons]
  exact splitComma_tail rest (fun x hx => h x (List.mem_cons_of_mem _ hx)) _
    (h ip (List.mem_cons_self _ _))

/-- The view that `NewView` builds from the text of a non-empty list of
pairwise distinct endpoints whose texts hold no comma and are read back by
the parser. -/
theorem NewView_of_sepJoin (parse : String → IP) (self : String) (viewString : String)
    (ip : IP) (rest : List IP) (hdata : viewString.data = sepJoin 0 (ip :: rest))
    (hnd : (ip :: rest).Nodup)
    (h : ∀ x ∈ ip :: rest, parse x.String = x ∧ ',' ∉ x.String.data) :
    (NewView parse viewString self).Nodes = ip :: rest := by
  have hsplit := splitComma_sepJoin ip rest (fun x hx => (h x hx).2)
  have hmap : ((splitComma viewString.data).map String.mk).map parse = ip :: rest := by
    rw [hdata, hsplit, List.map_map, List.map_map]
    have : List.map ((parse ∘ String.mk) ∘ fun x : IP => x.String.data) (ip :: rest)
        = List.map id (ip :: rest) := List.map_congr_left (fun x hx => (h x hx).1)
    rw [this, List.map_id]
  have hfold : ∀ (l : List String) (v : View),
      l.foldl (fun v ipPort => (v.Add (parse ipPort)).1) v
        = (l.map parse).foldl (fun v ip => (v.Add ip).1) v := by
    intro l
    induction l with
    | nil => intro v; rfl
    | cons a t ih => intro v; simp [List.foldl_cons, ih]
  simp only [NewView, hfold, hmap]
  rw [addAll_nodup _ _ (by simpa using hnd)]
  simp

theorem get?_append_length {α : Type} (pre post : List α) (x : α) :
    (pre ++ x :: post).get? pre.length = some x := by
  induction pre with
  | nil => rfl
  | cons a t ih => simpa using ih

theorem set_append_length {α : Type} (pre post : List α) (x z : α) :
    (pre ++ x :: post).set pre.length z = pre ++ z :: post := by
  induction pre with
  | nil => rfl
  | cons a t ih => simp [ih]

theorem eraseIdx_append_length {α : Type} (pre post : List α) (x : α) :
    (pre ++ x :: post).eraseIdx pre.length = pre ++ post := by
  induction pre with
  | nil => rfl
  | cons a t ih => simpa using ih

/-- The repair step on a size of zero drops it. -/
theorem repairStep_zero (pre post : List Nat) :
    repairStep (pre ++ 0 :: post) pre.length = some (pre ++ post) := by
  simp only [repairStep, get?_append_length, Nat.zero_ne_one, and_false, if_false, if_true,
    eraseIdx_append_length]

/-- The repair step on a size of two or more keeps the list. -/
theorem repairStep_large (pre post : List Nat) (x : Nat) (hx : 2 ≤ x) :
    repairStep (pre ++ x :: post) pre.length = some (pre ++ x :: post) := by
  have h1 : ¬ x = 1 := by omega
  have h0 : ¬ x = 0 := by omega
  simp only [repairStep, get?_append_length, h1, h0, and_false, if_false]

/-- The repair step on a size of one that is not at index 0 moves the member
to the shard before and drops the size. -/
theorem repairStep_one (pre post : List Nat) (w : Nat) :
    repairStep (pre ++ w :: 1 :: post) (pre.length + 1) = some (pre ++ (w + 1) :: post) := by
  have e0 : (pre ++ w :: 1 :: post).get? (pre.length + 1) = some 1 := by
    have := get?_append_length (pre ++ [w]) post 1
    simpa using this
  have e1 : (pre ++ w :: 1 :: post).get? pre.length = some w := get?_append_length pre _ w
  have e2 : (pre ++ w :: 1 :: post).set pre.length (w + 1) = pre ++ (w + 1) :: 1 :: post :=
    set_append_length pre _ w (w + 1)
  have e3 : (pre ++ (w + 1) :: 1 :: post).set (pre.length + 1) 0
      = pre ++ (w + 1) :: 0 :: post := by
    simp
  have e4 : (pre ++ (w + 1) :: 0 :: post).get? (pre.length + 1) = some 0 := by
    have := get?_append_length (pre ++ [w + 1]) post 0
    simpa using this
  have e5 : (pre ++ (w + 1) :: 0 :: post).eraseIdx (pre.length + 1)
      = pre ++ (w + 1) :: post := by
    have := eraseIdx_append_length (pre ++ [w + 1]) post 0
    simpa using this
  unfold repairStep
  rw [e0]
  simp only [Nat.add_one_ne_zero, false_and, if_false, if_true, Nat.add_sub_cancel, e1, e2, e3,
    e4, e5]

/-- The repair step on a size of one at index 0 moves the member to the next
shard, if there is one. -/
theorem repairStep_first_one (y : Nat) (post : List Nat) :
    repairStep (1 :: y :: post) 0 = some ((y + 1) :: post) := by
  simp [repairStep]

theorem repairStep_only_one : repairStep [1] 0 = some [1] := by
  simp [repairStep]

/-- The repair loop returns, keeps the sum of the sizes and leaves sizes of at
least one. -/
theorem repairLoop_spec :
    ∀ (n : Nat) (pre post : List Nat), pre.length = n → (∀ y ∈ post, 1 ≤ y) →
      ∃ l, repairLoop n (pre ++ post) = some l ∧ l.sum = (pre ++ post).sum ∧
        ∀ y ∈ l, 1 ≤ y := by
  intro n
  induction n with
  | zero =>
    intro pre post hlen hpost
    have : pre = [] := List.length_eq_zero.1 hlen
    subst this
    exact ⟨post, rfl, rfl, hpost⟩
  | succ n ih =>
    intro pre post hlen hpost
    rcases List.eq_nil_or_concat pre with h | ⟨pre', x, h⟩
    · subst h; simp at hlen
    · subst h
      have hlen' : pre'.length = n := by simpa using hlen
      have hidx : n = pre'.length := hlen'.symm
      rw [List.concat_eq_append, List.append_assoc, List.singleton_append]
      simp only [repairLoop]
      rcases Nat.lt_or_ge x 2 with hx | hx
      · rcases Nat.lt_or_ge x 1 with hx0 | hx1
        · have hx' : x = 0 := by omega
          subst hx'
          rw [hidx, repairStep_zero]
          obtain ⟨l, h1, h2, h3⟩ := ih pre' post hlen' hpost
          rw [← hidx]
          exact ⟨l, h1, by rw [h2]; simp, h3⟩
        · have hx' : x = 1 := by omega
          subst hx'
          rcases List.eq_nil_or_concat pre' with hp | ⟨p, w, hp⟩
          · subst hp
            simp only [List.length_nil] at hidx
            subst hidx
            cases post with
            | nil =>
              exact ⟨[1], by simp [repairStep_only_one, repairLoop], rfl, by simp⟩
            | cons y post' =>
              refine ⟨(y + 1) :: post', by simp [repairStep_first_one, repairLoop], ?_, ?_⟩
              · simp; omega
              · intro z hz
                simp only [List.mem_cons] at hz
                rcases hz with hz | hz
                · omega
                · exact hpost z (List.mem_cons_of_mem _ hz)
          · subst hp
            rw [List.concat_eq_append, List.length_append, List.length_singleton] at hidx hlen'
            rw [List.concat_eq_append, List.append_assoc, List.singleton_append]
            have hstep := repairStep_one p post w
            rw [← hidx] at hstep
            rw [hstep]
            obtain ⟨l, h1, h2, h3⟩ := ih (p ++ [w + 1]) post (by simpa using hlen') hpost
            refine ⟨l, by simpa using h1, ?_, h3⟩
            rw [h2]; simp; omega
      · have hstep := repairStep_large pre' post x hx
        rw [← hidx] at hstep
        rw [hstep]
        obtain ⟨l, h1, h2, h3⟩ := ih pre' (x :: post) hlen' (by
          intro z hz
          simp only [List.mem_cons] at hz
          rcases hz with hz | hz
          · omega
          · exact hpost z hz)
        exact ⟨l, h1, h2, h3⟩

theorem fillLoop_spec (each : Nat) :
    ∀ (n extra : Nat) (acc : List Nat),
      (fillLoop each n extra acc).length = acc.length + n ∧
      (fillLoop each n extra acc).sum = acc.sum + n * each + min extra n := by
  intro n
  induction n with
  | zero => intro extra acc; simp [fillLoop]
  | succ n ih =>
    intro extra acc
    simp only [fillLoop]
    split_ifs with h
    · obtain ⟨h1, h2⟩ := ih (extra - 1) (acc ++ [each + 1])
      rw [h1, h2]
      simp only [List.length_append, List.length_singleton, List.sum_append, List.sum_singleton]
      constructor
      · omega
      · rw [Nat.succ_mul]
        have : min (extra - 1) n + 1 = min extra (n + 1) := by omega
        omega
    · obtain ⟨h1, h2⟩ := ih extra (acc ++ [each])
      rw [h1, h2]
      simp only [List.length_append, List.length_singleton, List.sum_append, List.sum_singleton]
      have h0 : extra = 0 := by omega
      subst h0
      constructor
      · omega
      · rw [Nat.succ_mul]; simp; omega

theorem drop_eq_cons_of_lt {α : Type} (v : List α) (index : Nat) (h : index < v.length) :
    ∃ x, v.get? index = some x ∧ v.drop index = x :: v.drop (index + 1) := by
  induction v generalizing index with
  | nil => simp at h
  | cons a t ih =>
    cases index with
    | zero => exact ⟨a, rfl, rfl⟩
    | succ i =>
      obtain ⟨x, h1, h2⟩ := ih i (by simpa using h)
      exact ⟨x, by simpa using h1, by simpa using h2⟩

/-- The inner loop returns the text of the next `val` members of the copy and
the position after them. -/
theorem memberLoop_spec (v : List IP) :
    ∀ (val j index : Nat) (viewString : String), index + val ≤ v.length →
      ∃ text, memberLoop v val j index viewString = some (text, index + val) ∧
        text.data = viewString.data ++ sepJoin j ((v.drop index).take val) := by
  intro val
  induction val with
  | zero => intro j index viewString _; exact ⟨viewString, rfl, by simp [sepJoin]⟩
  | succ n ih =>
    intro j index viewString h
    obtain ⟨ip, h1, h2⟩ := drop_eq_cons_of_lt v index (by omega)
    obtain ⟨text, g1, g2⟩ := ih (j + 1) (index + 1)
      ((if j ≠ 0 then viewString ++ "," else viewString) ++ ip.String) (by omega)
    refine ⟨text, ?_, ?_⟩
    · simp only [memberLoop, h1]
      rw [g1]
      congr 2
      omega
    · rw [g2, h2, List.take_succ_cons, sepJoin]
      by_cases hj : j = 0
      · simp [hj, String.data_append]
      · simp [hj, String.data_append]

/-- The last loop returns one shard for each size, whose members are the next
members of the copy, in order, when the sizes are at least one and add up to
the members that are left. -/
theorem shardLoop_spec (parse : String → IP) (self : IP) (v : List IP) (hnd : v.Nodup)
    (hv : ∀ x ∈ v, parse x.String = x ∧ ',' ∉ x.String.data) :
    ∀ (addList : List Nat) (i index : Nat), (∀ y ∈ addList, 1 ≤ y) →
      index + addList.sum = v.length →
      ∃ shards, shardLoop parse self v addList i index = some shards ∧
        (shards.map (fun sh => sh.View.Nodes)).flatten = v.drop index ∧
        shards.map (fun sh => sh.View.Nodes.length) = addList ∧
        shards.map (fun sh => sh.ID) = (List.range' i addList.length).map (fun k => k % 2 ^ 32) := by
  intro addList
  induction addList with
  | nil =>
    intro i index _ hsum
    refine ⟨[], rfl, ?_, rfl, rfl⟩
    simp only [List.sum_nil, Nat.add_zero] at hsum
    simp [hsum]
  | cons val rest ih =>
    intro i index hpos hsum
    simp only [List.sum_cons] at hsum
    have hval : 1 ≤ val := hpos val (List.mem_cons_self _ _)
    obtain ⟨text, h1, h2⟩ := memberLoop_spec v val 0 index "" (by omega)
    obtain ⟨shards, g1, g2, g3, g4⟩ := ih (i + 1) (index + val)
      (fun y hy => hpos y (List.mem_cons_of_mem _ hy)) (by omega)
    have hchunk : ∃ ip tl, (v.drop index).take val = ip :: tl := by
      cases hc : (v.drop index).take val with
      | nil =>
        have := congrArg List.length hc
        simp only [List.length_take, List.length_drop, List.length_nil] at this
        omega
      | cons ip tl => exact ⟨ip, tl, rfl⟩
    obtain ⟨ip, tl, hc⟩ := hchunk
    have hsub : (ip :: tl).Sublist v := by
      rw [← hc]
      exact (List.take_sublist _ _).trans (List.drop_sublist _ _)
    have hnodes : (NewView parse text self.String).Nodes = (v.drop index).take val := by
      rw [hc]
      apply NewView_of_sepJoin parse self.String text ip tl
      · rw [h2, hc]; rfl
      · exact hnd.sublist hsub
      · intro x hx
        exact hv x (hsub.subset hx)
    refine ⟨{ View := NewView parse text self.String, ID := i % 2 ^ 32 } :: shards, ?_, ?_, ?_, ?_⟩
    · simp only [shardLoop, h1, g1]
    · simp only [List.map_cons, List.flatten_cons, hnodes, g2]
      rw [← List.drop_drop, List.take_append_drop]
    · simp only [List.map_cons, hnodes, g3, List.length_take, List.length_drop]
      congr 1
      omega
    · simp only [List.map_cons, g4, List.length_cons, List.range'_succ]

/-- The pipeline of `NewShards` for a count that is not negative. -/
theorem NewShards_ofNat (parse : String → IP) (view : View) (N : Nat) :
    NewShards parse view (N : Int) =
      match repairLoop (if N = 0 then 1 else N)
          (fillLoop (view.Nodes.length / (if N = 0 then 1 else N)) (if N = 0 then 1 else N)
            (view.Nodes.length % (if N = 0 then 1 else N)) []) with
      | none => none
      | some addList =>
        match shardLoop parse view.Self view.Nodes addList 0 0 with
        | none => none
        | some shards => some { Shards := shards } := by
  unfold NewShards
  rw [GetCopy_eq]
  by_cases h : N = 0
  · subst h
    simp
  · have h1 : ¬ ((N : Int) = 0) := by exact_mod_cast h
    have h2 : ¬ ((N : Int) < 0) := by omega
    simp only [h, h1, h2, if_false, Int.toNat_ofNat]

/-- C20, as stated, fails: an endpoint whose text holds a comma.  The view
`commaView` has the single endpoint that `NewIP("a,b:80")` yields; the one
shard of `NewShards(view, 1)` has the two members `a:` and `b:80`, neither of
them in the view, and the endpoint of the view is in no shard. -/
theorem NewShards_comma_endpoint :
    plainIP "a,b:80" = ⟨"a,b", "80"⟩ ∧
      NewShards plainIP commaView 1
        = some { Shards := [{ View := { Nodes := [⟨"a", ""⟩, ⟨"b", "80"⟩], Self := ⟨"a,b", "80"⟩ },
                              ID := 0 }] } ∧
      (⟨"a,b", "80"⟩ : IP) ∈ commaView.Nodes ∧
      (⟨"a,b", "80"⟩ : IP) ∉ [(⟨"a", ""⟩ : IP), ⟨"b", "80"⟩] := by
  decide

/-- C20, amended.  For every view with pairwise distinct endpoints, each of
which has a text without a comma that `NewIP` reads back as the same
endpoint, and every N >= 0, `NewShards(view, N)` returns shards whose members,
listed shard after shard, are the members of the view in the order of the
view; so no endpoint is a member of two shards and the union of the members
of the shards is exactly the member set of the view. -/
theorem NewShards_partition (parse : String → IP) (view : View) (N : Nat)
    (hnd : view.Nodes.Nodup)
    (hv : ∀ x ∈ view.Nodes, parse x.String = x ∧ ',' ∉ x.String.data) :
    ∃ shards, NewShards parse view (N : Int) = some shards ∧
      (shards.Shards.map (fun sh => sh.View.Nodes)).flatten = view.Nodes ∧
      List.Pairwise (fun a b => ∀ x, x ∈ a.View.Nodes → x ∉ b.View.Nodes) shards.Shards ∧
      ∀ x, x ∈ view.Nodes ↔ ∃ sh ∈ shards.Shards, x ∈ sh.View.Nodes := by
  have hn : 1 ≤ (if N = 0 then 1 else N) := by split_ifs <;> omega
  obtain ⟨hlen, hsum⟩ := fillLoop_spec (view.Nodes.length / (if N = 0 then 1 else N))
    (if N = 0 then 1 else N) (view.Nodes.length % (if N = 0 then 1 else N)) []
  have hmin : min (view.Nodes.length % (if N = 0 then 1 else N)) (if N = 0 then 1 else N)
      = view.Nodes.length % (if N = 0 then 1 else N) :=
    Nat.min_eq_left (Nat.le_of_lt (Nat.mod_lt _ hn))
  rw [hmin, List.sum_nil, Nat.zero_add, Nat.div_add_mod] at hsum
  obtain ⟨addList, h1, h2, h3⟩ := repairLoop_spec (if N = 0 then 1 else N) _ []
    (by simpa using hlen) (by simp)
  rw [List.append_nil] at h1 h2
  obtain ⟨shards, g1, g2, _, _⟩ := shardLoop_spec parse view.Self view.Nodes hnd hv addList 0 0
    h3 (by rw [h2, hsum]; simp)
  rw [List.drop_zero] at g2
  refine ⟨{ Shards := shards }, ?_, g2, ?_, ?_⟩
  · rw [NewShards_ofNat]
    simp only [h1, g1]
  · have hnodup : ((shards.map (fun sh => sh.View.Nodes)).flatten).Nodup := by rw [g2]; exact hnd
    have := (List.nodup_flatten.1 hnodup).2
    rw [List.pairwise_map] at this
    exact this.imp (fun {a b} hab x hx hx' => hab hx hx')
  · intro x
    rw [← g2, List.mem_flatten]
    constructor
    · rintro ⟨l, hl, hx⟩
      obtain ⟨sh, hsh, rfl⟩ := List.mem_map.1 hl
      exact ⟨sh, hsh, hx⟩
    · rintro ⟨sh, hsh, hx⟩
      exact ⟨sh.View.Nodes, List.mem_map_of_mem _ hsh, hx⟩

/-- Witness of C20: scenario 5, five endpoints and N = 3. -/
theorem NewShards_partition_witness :
    ∃ shards, NewShards plainIP fiveView 3 = some shards ∧
      (shards.Shards.map (fun sh => sh.View.Nodes)).flatten = fiveView.Nodes ∧
      List.Pairwise (fun a b => ∀ x, x ∈ a.View.Nodes → x ∉ b.View.Nodes) shards.Shards ∧
      ∀ x, x ∈ fiveView.Nodes ↔ ∃ sh ∈ shards.Shards, x ∈ sh.View.Nodes :=
  NewShards_partition plainIP fiveView 3 (by decide) (by decide)

end node

namespace kvstore

open vectorclock

theorem reachable_selfEqual : Reachable (single selfEqualVersion) :=
  Reachable.put 1 New (single selfEqualVersion) "a" (request "1" 1)
    (Payload.encoded { Clock := [⟨1, 5⟩], Key := "a" }) 0
    (selfEqualVersion, Payload.encoded { Clock := [⟨1, 5⟩], Key := "a" }, Added)
    Reachable.new rfl

/-- C29, evaluated on the code.  The store with the single Version
`selfEqualVersion` is reachable by one `Put`; the Version depends on its own
key with a clock Equal to its own clock, and its availability check returns
no boolean at any recursion depth: `isAvailable` calls `traverseValues` on
the bucket of "a", which calls `isAvailable` on the same Version again. -/
theorem isAvailable_self_dependency_never_returns :
    Reachable (single selfEqualVersion) ∧
      selfEqualVersion ∈ bucket (single selfEqualVersion) "a" ∧
      selfEqualVersion.Depends.Key = "a" ∧
      Compare selfEqualVersion.Depends.Clock selfEqualVersion.Clock = Equal ∧
      ∀ fuel, isAvailable fuel (single selfEqualVersion) selfEqualVersion = none := by
  refine ⟨reachable_selfEqual, by decide, rfl, by decide, ?_⟩
  intro fuel
  induction fuel with
  | zero => rfl
  | succ n ih =>
    simp only [single, selfEqualVersion] at ih
    simp [isAvailable, ZeroClock, single, selfEqualVersion, mapGet, traverseValues,
      traverseLoop, ih]

theorem reachable_twoEqual : Reachable twoEqual :=
  Reachable.put 1 onlyA twoEqual "a" (request "2" 2) (payloadOf 0 "") 0
    (version "2" 2 0 "" true, payloadOf 1 "a", Replaced) reachable_onlyA rfl

/-- C30, evaluated on the code.  The store `twoEqual` is reachable by two
Puts; `Delete("a", {0:1})` records the indices 0 and 1 of its two Equal
Versions, removes index 0, and then calls the internal `delete` with index 1
on a bucket that holds one Version: the slice expression is out of range, and
`Delete` panics instead of returning. -/
theorem Delete_index_out_of_range :
    Reachable twoEqual ∧
      delete twoEqual "a" (version "1" 1 0 "" true) 0 = some (single (version "2" 2 0 "" true)) ∧
      (bucket (single (version "2" 2 0 "" true)) "a").length = 1 ∧
      delete (single (version "2" 2 0 "" true)) "a" (version "2" 2 0 "" true) 1 = none ∧
      Delete twoEqual "a" (payloadOf 1 "a") = none :=
  ⟨reachable_twoEqual, rfl, rfl, rfl, rfl⟩

end kvstore

namespace node

/-- The repair loop leaves sizes of at least two when the sizes do not add up
to one. -/
theorem repairLoop_two :
    ∀ (n : Nat) (pre post : List Nat), pre.length = n → (∀ y ∈ post, 2 ≤ y) →
      (pre ++ post).sum ≠ 1 →
      ∃ l, repairLoop n (pre ++ post) = some l ∧ l.sum = (pre ++ post).sum ∧
        ∀ y ∈ l, 2 ≤ y := by
  intro n
  induction n with
  | zero =>
    intro pre post hlen hpost _
    have : pre = [] := List.length_eq_zero.1 hlen
    subst this
    exact ⟨post, rfl, rfl, hpost⟩
  | succ n ih =>
    intro pre post hlen hpost hsum
    rcases List.eq_nil_or_concat pre with h | ⟨pre', x, h⟩
    · subst h; simp at hlen
    · subst h
      have hlen' : pre'.length = n := by simpa using hlen
      have hidx : n = pre'.length := hlen'.symm
      rw [List.concat_eq_append, List.append_assoc, List.singleton_append] at hsum ⊢
      simp only [repairLoop]
      rcases Nat.lt_or_ge x 2 with hx | hx
      · rcases Nat.lt_or_ge x 1 with hx0 | hx1
        · have hx' : x = 0 := by omega
          subst hx'
          rw [hidx, repairStep_zero]
          have hsum' : (pre' ++ post).sum ≠ 1 := by
            intro hc; apply hsum; rw [← hc]; simp
          obtain ⟨l, h1, h2, h3⟩ := ih pre' post hlen' hpost hsum'
          rw [← hidx]
          exact ⟨l, h1, by rw [h2]; simp, h3⟩
        · have hx' : x = 1 := by omega
          subst hx'
          rcases List.eq_nil_or_concat pre' with hp | ⟨p, w, hp⟩
          · subst hp
            simp only [List.length_nil] at hidx
            subst hidx
            cases post with
            | nil => exact absurd (by simp) hsum
            | cons y post' =>
              have hy : 2 ≤ y := hpost y (List.mem_cons_self _ _)
              refine ⟨(y + 1) :: post', by simp [repairStep_first_one, repairLoop], ?_, ?_⟩
              · simp; omega
              · intro z hz
                simp only [List.mem_cons] at hz
                rcases hz with hz | hz
                · omega
                · exact hpost z (List.mem_cons_of_mem _ hz)
          · subst hp
            rw [List.concat_eq_append, List.length_append, List.length_singleton] at hidx hlen'
            rw [List.concat_eq_append, List.append_assoc, List.singleton_append] at hsum ⊢
            have hstep := repairStep_one p post w
            rw [← hidx] at hstep
            rw [hstep]
            have hsum' : ((p ++ [w + 1]) ++ post).sum ≠ 1 := by
              simp only [List.sum_append, List.sum_cons, List.sum_nil] at hsum ⊢
              omega
            obtain ⟨l, h1, h2, h3⟩ := ih (p ++ [w + 1]) post (by simpa using hlen') hpost hsum'
            refine ⟨l, by simpa using h1, ?_, h3⟩
            rw [h2]; simp; omega
      · have hstep := repairStep_large pre' post x hx
        rw [← hidx] at hstep
        rw [hstep]
        obtain ⟨l, h1, h2, h3⟩ := ih pre' (x :: post) hlen' (by
          intro z hz
          simp only [List.mem_cons] at hz
          rcases hz with hz | hz
          · omega
          · exact hpost z hz) hsum
        exact ⟨l, h1, h2, h3⟩

/-- The repair loop keeps a list of sizes that are all at least two. -/
theorem repairLoop_id :
    ∀ (n : Nat) (pre post : List Nat), pre.length = n → (∀ y ∈ pre, 2 ≤ y) →
      repairLoop n (pre ++ post) = some (pre ++ post) := by
  intro n
  induction n with
  | zero =>
    intro pre post hlen _
    have : pre = [] := List.length_eq_zero.1 hlen
    subst this
    rfl
  | succ n ih =>
    intro pre post hlen hpre
    rcases List.eq_nil_or_concat pre with h | ⟨pre', x, h⟩
    · subst h; simp at hlen
    · subst h
      have hlen' : pre'.length = n := by simpa using hlen
      have hx : 2 ≤ x := hpre x (by simp)
      rw [List.concat_eq_append, List.append_assoc, List.singleton_append]
      simp only [repairLoop]
      have hstep := repairStep_large pre' post x hx
      rw [hlen'] at hstep
      rw [hstep]
      exact ih pre' (x :: post) hlen' (fun y hy => hpre y (by simp [hy]))

/-- The sizes that the first loop of `NewShards` appends. -/
theorem fillLoop_eq (each : Nat) :
    ∀ (n extra : Nat) (acc : List Nat),
      fillLoop each n extra acc
        = acc ++ (List.replicate (min extra n) (each + 1)
            ++ List.replicate (n - min extra n) each) := by
  intro n
  induction n with
  | zero => intro extra acc; simp [fillLoop]
  | succ n ih =>
    intro extra acc
    simp only [fillLoop]
    split_ifs with h
    · rw [ih]
      have e1 : min extra (n + 1) = min (extra - 1) n + 1 := by omega
      have e2 : n + 1 - (min (extra - 1) n + 1) = n - min (extra - 1) n := by omega
      rw [e1, e2, List.replicate_succ]
      simp
    · have h0 : extra = 0 := by omega
      subst h0
      rw [ih]
      simp [List.replicate_succ]

theorem length_le_sum (l : List Nat) (h : ∀ y ∈ l, 1 ≤ y) : l.length ≤ l.sum := by
  induction l with
  | nil => simp
  | cons a t ih =>
    have ha := h a (List.mem_cons_self _ _)
    have := ih (fun y hy => h y (List.mem_cons_of_mem _ hy))
    simp only [List.length_cons, List.sum_cons]
    omega

/-- The sizes that the first loop of `NewShards` builds add up to the number
of members. -/
theorem fillLoop_sum (n M : Nat) (hM : 1 ≤ M) :
    (fillLoop (n / M) M (n % M) []).length = M ∧ (fillLoop (n / M) M (n % M) []).sum = n := by
  obtain ⟨hlen, hsum⟩ := fillLoop_spec (n / M) M (n % M) []
  have hmin : min (n % M) M = n % M := Nat.min_eq_left (Nat.le_of_lt (Nat.mod_lt _ hM))
  rw [hmin, List.sum_nil, Nat.zero_add, Nat.div_add_mod] at hsum
  exact ⟨by simpa using hlen, hsum⟩

/-- From the repaired sizes to the shards: when the repair loop returns sizes
of at least one that add up to the members of the view, `NewShards` returns
one shard for each size, with the next members of the view, in order. -/
theorem NewShards_of_repair (parse : String → IP) (view : View) (N : Nat)
    (hnd : view.Nodes.Nodup)
    (hv : ∀ x ∈ view.Nodes, parse x.String = x ∧ ',' ∉ x.String.data) (addList : List Nat)
    (hrep : repairLoop (if N = 0 then 1 else N)
      (fillLoop (view.Nodes.length / (if N = 0 then 1 else N)) (if N = 0 then 1 else N)
        (view.Nodes.length % (if N = 0 then 1 else N)) []) = some addList)
    (hpos : ∀ y ∈ addList, 1 ≤ y) (hsum : addList.sum = view.Nodes.length) :
    ∃ shards, NewShards parse view (N : Int) = some { Shards := shards } ∧
      (shards.map (fun sh => sh.View.Nodes)).flatten = view.Nodes ∧
      shards.map (fun sh => sh.View.Nodes.length) = addList ∧
      shards.map (fun sh => sh.ID) = (List.range addList.length).map (fun k => k % 2 ^ 32) := by
  obtain ⟨shards, g1, g2, g3, g4⟩ := shardLoop_spec parse view.Self view.Nodes hnd hv addList 0 0
    hpos (by rw [hsum]; simp)
  rw [List.drop_zero] at g2
  refine ⟨shards, ?_, g2, g3, ?_⟩
  · rw [NewShards_ofNat]
    simp only [hrep, g1]
  · rw [g4, List.range_eq_range']

end node

namespace node

/-- C21, as stated, fails: an endpoint whose text holds a comma.  The view
`pairView` has two distinct endpoints, `a:1` and the endpoint with host
`a:1,a` and port `1` (what `NewIP` makes of the text `a:1,a:1`, which it cuts
at the last colon).  `NewShards(view, 1)` prints the members as `a:1,a:1,a:1`,
`NewView` reads three times the endpoint `a:1`, and the only shard has one
member. -/
theorem NewShards_single_member :
    pairView.Nodes.Nodup ∧ 2 ≤ pairView.Nodes.length ∧
      NewShards plainIP pairView 1
        = some { Shards := [{ View := { Nodes := [⟨"a", "1"⟩], Self := ⟨"a", "1"⟩ },
                              ID := 0 }] } := by
  decide

/-- C21, amended.  For every view with at least 2 pairwise distinct endpoints,
each of which has a text without a comma that `NewIP` reads back as the same
endpoint, and every N >= 0, `NewShards(view, N)` returns, and every shard it
returns has at least 2 members; 5 such endpoints with N = 3 give exactly 2
shards, of sizes 2 and 3. -/
theorem NewShards_at_least_two (parse : String → IP) (view : View) (N : Nat)
    (hnd : view.Nodes.Nodup)
    (hv : ∀ x ∈ view.Nodes, parse x.String = x ∧ ',' ∉ x.String.data)
    (h2 : 2 ≤ view.Nodes.length) :
    ∃ shards, NewShards parse view (N : Int) = some shards ∧
      (∀ sh ∈ shards.Shards, 2 ≤ sh.View.Nodes.length) ∧
      (view.Nodes.length = 5 → N = 3 →
        shards.Shards.map (fun sh => sh.View.Nodes.length) = [2, 3]) := by
  have hM : 1 ≤ (if N = 0 then 1 else N) := by split_ifs <;> omega
  obtain ⟨hlen, hsum⟩ := fillLoop_sum view.Nodes.length (if N = 0 then 1 else N) hM
  obtain ⟨addList, h1, h3, h4⟩ := repairLoop_two (if N = 0 then 1 else N) _ [] hlen (by simp)
    (by rw [List.append_nil, hsum]; omega)
  rw [List.append_nil] at h1 h3
  obtain ⟨shards, g1, _, g3, _⟩ := NewShards_of_repair parse view N hnd hv addList h1
    (fun y hy => Nat.le_of_succ_le (h4 y hy)) (by rw [h3, hsum])
  refine ⟨{ Shards := shards }, g1, ?_, ?_⟩
  · intro sh hsh
    apply h4
    rw [← g3]
    exact List.mem_map_of_mem (fun sh => sh.View.Nodes.length) hsh
  · intro h5 hN
    subst hN
    rw [h5] at h1
    have hrun : repairLoop (if 3 = 0 then 1 else 3)
        (fillLoop (5 / (if 3 = 0 then 1 else 3)) (if 3 = 0 then 1 else 3)
          (5 % (if 3 = 0 then 1 else 3)) []) = some [2, 3] := by decide
    rw [hrun] at h1
    rw [g3]
    exact (Option.some.inj h1).symm

/-- Witness of C21: scenario 5, five endpoints and N = 3. -/
theorem NewShards_at_least_two_witness :
    ∃ shards, NewShards plainIP fiveView 3 = some shards ∧
      (∀ sh ∈ shards.Shards, 2 ≤ sh.View.Nodes.length) ∧
      (fiveView.Nodes.length = 5 → 3 = 3 →
        shards.Shards.map (fun sh => sh.View.Nodes.length) = [2, 3]) :=
  NewShards_at_least_two plainIP fiveView 3 (by decide) (by decide) (by decide)

/-- C22, as stated, fails: an endpoint whose text holds a comma.  The view
`wideView` has n = 2 distinct endpoints and N = 1, so n / N = 2; the only
shard of `NewShards(view, 1)` has three members, not two. -/
theorem NewShards_three_members_of_two :
    wideView.Nodes.Nodup ∧ wideView.Nodes.length / 1 = 2 ∧
      NewShards plainIP wideView 1
        = some { Shards := [{ View := { Nodes := [⟨"a", ""⟩, ⟨"b", "80"⟩, ⟨"c", "80"⟩],
                                        Self := ⟨"c", "80"⟩ },
                              ID := 0 }] } := by
  decide

/-- C22, amended.  For every view of n pairwise distinct endpoints, each of
which has a text without a comma that `NewIP` reads back as the same endpoint,
and every N >= 1 with n / N >= 2, `NewShards(view, N)` returns exactly N
shards, the shard at position k has the ID k mod 2^32 (so the IDs are
0, 1, ..., N-1 when N <= 2^32), the first n mod N shards have n / N + 1
members and the remaining ones n / N members; and `NewShards(view, 0)` equals
`NewShards(view, 1)`. -/
theorem NewShards_sizes (parse : String → IP) (view : View) (N : Nat)
    (hnd : view.Nodes.Nodup)
    (hv : ∀ x ∈ view.Nodes, parse x.String = x ∧ ',' ∉ x.String.data)
    (hN : 1 ≤ N) (h2 : 2 ≤ view.Nodes.length / N) :
    ∃ shards, NewShards parse view (N : Int) = some shards ∧
      shards.Shards.length = N ∧
      shards.Shards.map (fun sh => sh.ID) = (List.range N).map (fun k => k % 2 ^ 32) ∧
      (N ≤ 2 ^ 32 → shards.Shards.map (fun sh => sh.ID) = List.range N) ∧
      shards.Shards.map (fun sh => sh.View.Nodes.length)
        = List.replicate (view.Nodes.length % N) (view.Nodes.length / N + 1)
          ++ List.replicate (N - view.Nodes.length % N) (view.Nodes.length / N) ∧
      NewShards parse view 0 = NewShards parse view 1 := by
  have hN0 : ¬ N = 0 := by omega
  have hM : (if N = 0 then 1 else N) = N := by simp [hN0]
  obtain ⟨_, hsum⟩ := fillLoop_sum view.Nodes.length N hN
  have hmin : min (view.Nodes.length % N) N = view.Nodes.length % N :=
    Nat.min_eq_left (Nat.le_of_lt (Nat.mod_lt _ hN))
  have hfill := fillLoop_eq (view.Nodes.length / N) N (view.Nodes.length % N) []
  rw [hmin, List.nil_append] at hfill
  have hlen : (List.replicate (view.Nodes.length % N) (view.Nodes.length / N + 1)
      ++ List.replicate (N - view.Nodes.length % N) (view.Nodes.length / N)).length = N := by
    have := Nat.mod_lt view.Nodes.length hN
    simp only [List.length_append, List.length_replicate]
    omega
  have hall : ∀ y ∈ List.replicate (view.Nodes.length % N) (view.Nodes.length / N + 1)
      ++ List.replicate (N - view.Nodes.length % N) (view.Nodes.length / N), 2 ≤ y := by
    intro y hy
    rcases List.mem_append.1 hy with h | h
    · rw [List.eq_of_mem_replicate h]; omega
    · rw [List.eq_of_mem_replicate h]; exact h2
  have hrep := repairLoop_id N _ [] hlen hall
  rw [List.append_nil, ← hfill] at hrep
  rw [← hM] at hrep
  rw [hsum] at *
  obtain ⟨shards, g1, _, g3, g4⟩ := NewShards_of_repair parse view N hnd hv _ hrep
    (by rw [hM, hfill]; exact fun y hy => Nat.le_of_succ_le (hall y hy))
    (by rw [hM]; exact (fillLoop_sum view.Nodes.length N hN).2)
  rw [hM, hfill] at g3 g4
  rw [hlen] at g4
  refine ⟨{ Shards := shards }, g1, ?_, g4, ?_, g3, ?_⟩
  · have := congrArg List.length g3
    rw [List.length_map, hlen] at this
    exact this
  · intro hle
    rw [g4]
    have hmap : ∀ k ∈ List.range N, (fun k => k % 2 ^ 32) k = id k := by
      intro k hk
      have hk' : k < N := List.mem_range.1 hk
      exact Nat.mod_eq_of_lt (Nat.lt_of_lt_of_le hk' hle)
    rw [List.map_congr_left hmap, List.map_id]
  · rfl

/-- Witness of C22: five endpoints and N = 2. -/
theorem NewShards_sizes_witness :
    ∃ shards, NewShards plainIP fiveView 2 = some shards ∧
      shards.Shards.length = 2 ∧
      shards.Shards.map (fun sh => sh.ID) = (List.range 2).map (fun k => k % 2 ^ 32) ∧
      (2 ≤ 2 ^ 32 → shards.Shards.map (fun sh => sh.ID) = List.range 2) ∧
      shards.Shards.map (fun sh => sh.View.Nodes.length)
        = List.replicate (fiveView.Nodes.length % 2) (fiveView.Nodes.length / 2 + 1)
          ++ List.replicate (2 - fiveView.Nodes.length % 2) (fiveView.Nodes.length / 2) ∧
      NewShards plainIP fiveView 0 = NewShards plainIP fiveView 1 :=
  NewShards_sizes plainIP fiveView 2 (by decide) (by decide) (by decide) (by decide)

/-- C23, as stated, fails: `NewShards` reads the copy of the view in the order
in which the view stores it and does not sort.  The view `unsortedView`
stores `b:1` before `a:1`; the members of the only shard of
`NewShards(view, 1)` are `b:1`, `a:1`, in this order, and `Compare` puts
`b:1` after `a:1`. -/
theorem NewShards_unsorted_view :
    NewShards plainIP unsortedView 1
        = some { Shards := [{ View := { Nodes := [⟨"b", "1"⟩, ⟨"a", "1"⟩],
                                        Self := ⟨"a", "1"⟩ },
                              ID := 0 }] } ∧
      (⟨"b", "1"⟩ : IP).Compare ⟨"a", "1"⟩ = 1 ∧
      (⟨"a", "1"⟩ : IP).Compare ⟨"b", "1"⟩ = -1 := by
  decide

/-- C23, amended.  For every view of at most 2^32 pairwise distinct endpoints,
each of which has a text without a comma that `NewIP` reads back as the same
endpoint, and every N >= 0, `NewShards(view, N)` returns shards with the IDs
0, 1, ... in sequence, and listing their members in shard-ID order (inside a
shard in member order) yields the endpoints of the view in the order in which
the view stores them; the listing is ascending in the order of `Compare`
exactly when the view stores its endpoints in ascending order. -/
theorem NewShards_keeps_view_order (parse : String → IP) (view : View) (N : Nat)
    (hnd : view.Nodes.Nodup)
    (hv : ∀ x ∈ view.Nodes, parse x.String = x ∧ ',' ∉ x.String.data)
    (hsize : view.Nodes.length ≤ 2 ^ 32) :
    ∃ shards, NewShards parse view (N : Int) = some shards ∧
      shards.Shards.map (fun sh => sh.ID) = List.range shards.Shards.length ∧
      (shards.Shards.map (fun sh => sh.View.Nodes)).flatten = view.Nodes ∧
      (List.Pairwise (fun a b => a.Compare b = -1)
          (shards.Shards.map (fun sh => sh.View.Nodes)).flatten ↔
        List.Pairwise (fun a b => a.Compare b = -1) view.Nodes) := by
  have hM : 1 ≤ (if N = 0 then 1 else N) := by split_ifs <;> omega
  obtain ⟨hlen, hsum⟩ := fillLoop_sum view.Nodes.length (if N = 0 then 1 else N) hM
  obtain ⟨addList, h1, h3, h4⟩ := repairLoop_spec (if N = 0 then 1 else N) _ [] hlen (by simp)
  rw [List.append_nil] at h1 h3
  obtain ⟨shards, g1, g2, g3, g4⟩ := NewShards_of_repair parse view N hnd hv addList h1 h4
    (by rw [h3, hsum])
  have hcount : shards.length = addList.length := by
    have := congrArg List.length g3
    rw [List.length_map] at this
    exact this
  have hbound : addList.length ≤ 2 ^ 32 := by
    have := length_le_sum addList h4
    rw [h3, hsum] at this
    exact Nat.le_trans this hsize
  refine ⟨{ Shards := shards }, g1, ?_, g2, by rw [g2]⟩
  rw [g4, hcount]
  have hmap : ∀ k ∈ List.range addList.length, (fun k => k % 2 ^ 32) k = id k := by
    intro k hk
    have hk' : k < addList.length := List.mem_range.1 hk
    exact Nat.mod_eq_of_lt (Nat.lt_of_lt_of_le hk' hbound)
  rw [List.map_congr_left hmap, List.map_id]

/-- Witness of C23: scenario 5, five endpoints and N = 3. -/
theorem NewShards_keeps_view_order_witness :
    ∃ shards, NewShards plainIP fiveView 3 = some shards ∧
      shards.Shards.map (fun sh => sh.ID) = List.range shards.Shards.length ∧
      (shards.Shards.map (fun sh => sh.View.Nodes)).flatten = fiveView.Nodes ∧
      (List.Pairwise (fun a b => a.Compare b = -1)
          (shards.Shards.map (fun sh => sh.View.Nodes)).flatten ↔
        List.Pairwise (fun a b => a.Compare b = -1) fiveView.Nodes) :=
  NewShards_keeps_view_order plainIP fiveView 3 (by decide) (by decide) (by decide)

end node

namespace node

theorem Exists_iff (v : View) (ip : IP) : v.Exists ip = true ↔ ip ∈ v.Nodes := by
  unfold View.Exists
  rw [GetCopy_eq, existsLoop_iff]

/-- The loop of `Remove` passes over members that differ from `ip`. -/
theorem removeLoop_skip (ip : IP) (len r : Nat) :
    ∀ (b a c : List IP), ip ∉ b →
      removeLoop ip (b.length + r) a.length (a ++ (b ++ c)) len
        = removeLoop ip r (a.length + b.length) (a ++ (b ++ c)) len := by
  intro b
  induction b with
  | nil => intro a c _; simp
  | cons x b' ih =>
    intro a c hb
    have hx : ¬ x = ip := fun h => hb (by simp [h])
    have hb' : ip ∉ b' := fun h => hb (List.mem_cons_of_mem _ h)
    have hstep : removeStep ip (a ++ (x :: b' ++ c)) len a.length
        = some (a ++ (x :: b' ++ c), len) := by
      unfold removeStep
      rw [List.cons_append, get?_append_length]
      simp only [hx, if_false]
    have hlen : (x :: b').length + r = (b'.length + r) + 1 := by
      simp only [List.length_cons]; omega
    rw [hlen, removeLoop, hstep]
    have hshift : a ++ (x :: b' ++ c) = (a ++ [x]) ++ (b' ++ c) := by simp
    have := ih (a ++ [x]) c hb'
    simp only [List.length_append, List.length_singleton] at this
    simp only [hshift, List.length_cons]
    rw [this]
    congr 1
    omega

/-- The loop of `Remove` on a duplicate-free list that holds `ip`: the array
it leaves and the length of `v.Nodes`. -/
theorem removeLoop_nodup (ip : IP) (pre post : List IP) (hpre : ip ∉ pre) (hpost : ip ∉ post)
    (n : Nat) (hn : n = pre.length + (post.length + 1)) :
    ∃ arr, removeLoop ip n 0 (pre ++ ip :: post) n = some (arr, pre.length + post.length) ∧
      arr.take (pre.length + post.length) = pre ++ post := by
  have h1 := removeLoop_skip ip n (post.length + 1) pre [] (ip :: post) hpre
  simp only [List.nil_append, List.length_nil, Nat.zero_add] at h1
  have hstep : removeStep ip (pre ++ ip :: post) n pre.length
      = some (pre ++ (post ++ (ip :: post).drop post.length), pre.length + post.length) := by
    unfold removeStep
    rw [get?_append_length]
    have hle : pre.length + 1 ≤ n := by omega
    simp only [if_true, hle]
    have e1 : (pre ++ ip :: post).take pre.length = pre := by simp
    have e2 : (pre ++ ip :: post).drop (pre.length + 1) = post := by
      rw [← List.drop_drop]; simp
    have e3 : n - (pre.length + 1) = post.length := by omega
    have e4 : n - 1 = pre.length + post.length := by omega
    have e5 : (pre ++ ip :: post).drop (pre.length + post.length)
        = (ip :: post).drop post.length := List.drop_append _
    rw [e1, e2, e3, e4, e5, List.take_length]
  have hrun : removeLoop ip n 0 (pre ++ ip :: post) n
      = removeLoop ip post.length (pre.length + 1)
          (pre ++ (post ++ (ip :: post).drop post.length)) (pre.length + post.length) := by
    rw [← hn] at h1
    rw [h1, removeLoop, hstep]
  rw [hrun]
  cases post with
  | nil =>
    refine ⟨pre ++ [ip], by simp [removeLoop], by simp⟩
  | cons y post' =>
    have hy : ¬ ip = y := fun h => hpost (by simp [h])
    have hsub : ∀ x ∈ (y :: post').drop post'.length, x ∈ y :: post' :=
      fun x hx => List.mem_of_mem_drop hx
    have hb : ip ∉ post' ++ (y :: post').drop post'.length := by
      intro h
      rcases List.mem_append.1 h with h | h
      · exact hpost (List.mem_cons_of_mem _ h)
      · exact hpost (hsub ip h)
    have hlen : (post' ++ (y :: post').drop post'.length).length = post'.length + 1 := by
      simp
    have h3 := removeLoop_skip ip (pre.length + (y :: post').length) 0
      (post' ++ (y :: post').drop post'.length) (pre ++ [y]) [] hb
    simp only [List.append_nil, Nat.add_zero, hlen, List.length_append, List.length_singleton,
      removeLoop] at h3
    have harr : pre ++ (y :: post' ++ (ip :: y :: post').drop (y :: post').length)
        = pre ++ [y] ++ (post' ++ (y :: post').drop post'.length) := by
      simp
    rw [harr]
    refine ⟨_, h3, ?_⟩
    have : pre ++ [y] ++ (post' ++ (y :: post').drop post'.length)
        = (pre ++ y :: post') ++ (y :: post').drop post'.length := by simp
    rw [this]
    apply List.take_left'
    simp

/-- On a duplicate-free view, `Remove` of a member returns and leaves the
other members, in their order. -/
theorem Remove_member (v : View) (ip : IP) (hnd : v.Nodes.Nodup) (hmem : ip ∈ v.Nodes) :
    v.Remove ip = some ({ v with Nodes := v.Nodes.filter (fun x => decide (x ≠ ip)) }, true) := by
  obtain ⟨pre, post, hsplit⟩ := List.append_of_mem hmem
  have hnd' := hnd
  rw [hsplit, List.nodup_append] at hnd'
  obtain ⟨_, hcons, hdisj⟩ := hnd'
  have hpost : ip ∉ post := (List.nodup_cons.1 hcons).1
  have hpre : ip ∉ pre := fun h => hdisj h (List.mem_cons_self _ _) 
  obtain ⟨arr, hrun, htake⟩ := removeLoop_nodup ip pre post hpre hpost v.Nodes.length
    (by rw [hsplit]; simp)
  have hex : v.Exists ip = true := (Exists_iff v ip).2 hmem
  have hfilter : v.Nodes.filter (fun x => decide (x ≠ ip)) = pre ++ post := by
    rw [hsplit, List.filter_append, List.filter_cons]
    have e1 : pre.filter (fun x => decide (x ≠ ip)) = pre :=
      List.filter_eq_self.2 (fun x hx => decide_eq_true (fun h : x = ip => hpre (h ▸ hx)))
    have e2 : post.filter (fun x => decide (x ≠ ip)) = post :=
      List.filter_eq_self.2 (fun x hx => decide_eq_true (fun h : x = ip => hpost (h ▸ hx)))
    rw [e1, e2]
    simp
  unfold View.Remove
  rw [hex]
  simp only [Bool.not_true, Bool.false_eq_true, if_false]
  have hrun' : removeLoop ip v.Nodes.length 0 v.Nodes v.Nodes.length
      = some (arr, pre.length + post.length) := by
    have := hrun
    rw [← hsplit] at this
    exact this
  rw [hrun', hfilter]
  simp only [htake]

theorem Exists_false_iff (v : View) (ip : IP) : v.Exists ip = false ↔ ip ∉ v.Nodes := by
  rw [← Exists_iff]
  cases v.Exists ip <;> simp

theorem Add_eq (v : View) (ip : IP) :
    v.Add ip = if ip ∈ v.Nodes then (v, false) else ({ v with Nodes := v.Nodes ++ [ip] }, true) := by
  unfold View.Add
  by_cases h : ip ∈ v.Nodes
  · rw [(Exists_iff v ip).2 h]; simp [h]
  · rw [(Exists_false_iff v ip).2 h]; simp [h]

theorem Remove_absent (v : View) (ip : IP) (h : ip ∉ v.Nodes) : v.Remove ip = some (v, false) := by
  unfold View.Remove
  rw [(Exists_false_iff v ip).2 h]
  rfl

/-- C28.  On a duplicate-free view, membership is equality on host and port;
`Add(ip)` returns true and appends `ip` when `ip` is not a member, and returns
false leaving the member list unchanged when it is; `Remove(ip)` returns true
and leaves the other members, in their original order, when `ip` is a member,
and returns false leaving the list unchanged when it is not.  Both leave a
duplicate-free view, and a second `Add(ip)` or `Remove(ip)` returns false and
changes nothing. -/
theorem Add_Remove_set_operations (v : View) (ip : IP) (hnd : v.Nodes.Nodup) :
    (ip ∈ v.Nodes ↔ ∃ m ∈ v.Nodes, m.IP = ip.IP ∧ m.Port = ip.Port) ∧
      (ip ∉ v.Nodes → v.Add ip = ({ v with Nodes := v.Nodes ++ [ip] }, true)) ∧
      (ip ∈ v.Nodes → v.Add ip = (v, false)) ∧
      (ip ∈ v.Nodes →
        v.Remove ip
          = some ({ v with Nodes := v.Nodes.filter (fun x => decide (x ≠ ip)) }, true)) ∧
      (ip ∉ v.Nodes → v.Remove ip = some (v, false)) ∧
      (v.Add ip).1.Nodes.Nodup ∧
      (v.Add ip).1.Add ip = ((v.Add ip).1, false) ∧
      (∀ w b, v.Remove ip = some (w, b) → w.Nodes.Nodup ∧ w.Remove ip = some (w, false)) := by
  have hfilter : (v.Nodes.filter (fun x => decide (x ≠ ip))).Nodup := hnd.filter _
  have hgone : ip ∉ v.Nodes.filter (fun x => decide (x ≠ ip)) := by
    intro h
    have := (List.mem_filter.1 h).2
    simp at this
  refine ⟨?_, ?_, ?_, Remove_member v ip hnd, Remove_absent v ip, ?_, ?_, ?_⟩
  · constructor
    · intro h
      exact ⟨ip, h, rfl, rfl⟩
    · rintro ⟨m, hm, h1, h2⟩
      have : m = ip := by
        obtain ⟨m1, m2⟩ := m
        obtain ⟨i1, i2⟩ := ip
        simp only at h1 h2
        rw [h1, h2]
      rw [← this]
      exact hm
  · intro h
    rw [Add_eq, if_neg h]
  · intro h
    rw [Add_eq, if_pos h]
  · rw [Add_eq]
    by_cases h : ip ∈ v.Nodes
    · rw [if_pos h]; exact hnd
    · rw [if_neg h]
      exact List.Nodup.append hnd (List.nodup_singleton ip) (by simpa using h)
  · have hin : ip ∈ (v.Add ip).1.Nodes := by
      rw [Add_eq v ip]
      by_cases h : ip ∈ v.Nodes
      · rw [if_pos h]; exact h
      · rw [if_neg h]; simp
    rw [Add_eq (v.Add ip).1 ip, if_pos hin]
  · intro w b hw
    by_cases h : ip ∈ v.Nodes
    · rw [Remove_member v ip hnd h] at hw
      obtain ⟨rfl, _⟩ := Prod.mk.inj (Option.some.inj hw)
      exact ⟨hfilter, Remove_absent _ ip hgone⟩
    · rw [Remove_absent v ip h] at hw
      obtain ⟨rfl, _⟩ := Prod.mk.inj (Option.some.inj hw)
      exact ⟨hnd, Remove_absent _ ip h⟩

/-- Witness of C28: the unit test of the package removes `192.168.1.2:8080`
from its view of five members. -/
theorem Add_Remove_set_operations_witness :
    testView.Remove ⟨"192.168.1.2", "8080"⟩
        = some ({ Nodes := [⟨"192.168.1.1", "8080"⟩, ⟨"192.168.1.3", "8080"⟩,
                            ⟨"192.168.1.4", "8080"⟩, ⟨"192.168.1.5", "8080"⟩],
                  Self := ⟨"192.168.1.1", "8080"⟩ }, true) ∧
      testView.Add ⟨"192.168.1.5", "8080"⟩ = (testView, false) :=
  ⟨((Add_Remove_set_operations testView ⟨"192.168.1.2", "8080"⟩ (by decide)).2.2.2.1
      (by decide)).trans (by decide),
    (Add_Remove_set_operations testView ⟨"192.168.1.5", "8080"⟩ (by decide)).2.2.1 (by decide)⟩

end node

namespace main

/-- C24, evaluated on the code.  For every put request with a non-empty
payload and a non-empty value of at most 1 MiB on which the store's `Put`
returns, `putKVRequest` answers the code Added with the status 200
(`http.StatusOK`) and replaced = false, and the code Replaced with the status
201 (`http.StatusCreated`) and replaced = true: the two statuses are the other
way round than the claim has them. -/
theorem putKVRequest_Added_200_Replaced_201 (fuel : Nat) (s : kvstore.KVStore)
    (key data : String) (payload : kvstore.Payload) (ident : Nat) (nodeConnecion : Bool)
    (now : Int) (unmarshal : String → kvstore.Value)
    (hp : payload ≠ kvstore.Payload.empty) (hd : data ≠ "")
    (hsize : data.utf8ByteSize ≤ 1024 * 1024)
    (s' : kvstore.KVStore) (v : kvstore.Value) (p : kvstore.Payload) (code : Int)
    (hput : kvstore.Put fuel s key
        { kvstore.Value.zero with
            Data := if nodeConnecion then (unmarshal data).Data else data,
            Timestamp := if nodeConnecion then (unmarshal data).Timestamp else now }
        payload ident = some (s', v, p, code)) :
    (code = kvstore.Added →
        putKVRequest fuel s key data payload ident nodeConnecion now unmarshal
          = some (s', v, { MethodReply.zero with Replaced := false, Msg := "Added successfully",
                                                 Payload := p }, 200)) ∧
      (code = kvstore.Replaced →
        putKVRequest fuel s key data payload ident nodeConnecion now unmarshal
          = some (s', v, { MethodReply.zero with Replaced := true, Msg := "Updated successfully",
                                                 Payload := p }, 201)) := by
  have hsize' : ¬ data.utf8ByteSize > 1024 * 1024 := Nat.not_lt.2 hsize
  constructor
  · intro hc
    subst hc
    unfold putKVRequest
    simp only [hp, hd, hsize', if_false, hput]
    rfl
  · intro hc
    subst hc
    unfold putKVRequest
    simp only [hp, hd, hsize', if_false, hput]
    rfl

/-- Failing input of C24: a first Put on the new store, which the store
reports as Added, is answered with 200; a second Put on the same key, which
the store reports as Replaced, is answered with 201. -/
theorem putKVRequest_Added_200_Replaced_201_witness :
    putKVRequest 1 kvstore.New "a" "1" (kvstore.payloadOf 0 "") 0 false 1
        (fun _ => kvstore.Value.zero)
      = some (kvstore.onlyA, kvstore.version "1" 1 0 "" true,
          { MethodReply.zero with Replaced := false, Msg := "Added successfully",
                                  Payload := kvstore.payloadOf 1 "a" }, 200) ∧
    putKVRequest 2 kvstore.onlyA "a" "2" (kvstore.payloadOf 1 "a") 0 false 2
        (fun _ => kvstore.Value.zero)
      = some (twoVersions, kvstore.version "2" 2 1 "a" true,
          { MethodReply.zero with Replaced := true, Msg := "Updated successfully",
                                  Payload := kvstore.payloadOf 2 "a" }, 201) :=
  ⟨(putKVRequest_Added_200_Replaced_201 1 kvstore.New "a" "1" (kvstore.payloadOf 0 "") 0 false 1
      (fun _ => kvstore.Value.zero) (by decide) (by decide) (by decide)
      kvstore.onlyA (kvstore.version "1" 1 0 "" true) (kvstore.payloadOf 1 "a") kvstore.Added
      (by decide)).1 rfl,
   (putKVRequest_Added_200_Replaced_201 2 kvstore.onlyA "a" "2" (kvstore.payloadOf 1 "a") 0 false
      2 (fun _ => kvstore.Value.zero) (by decide) (by decide) (by decide)
      twoVersions (kvstore.version "2" 2 1 "a" true) (kvstore.payloadOf 2 "a") kvstore.Replaced
      (by decide)).2 rfl⟩

/-- C25, evaluated on the code.  For every store, key and non-empty payload on
which the store's `Get` returns, `getKVRequest` answers Found with 200 and the
data of the selected Version, NotFound with 404, Diverged with 409 and Err
with 403; it answers Old with 200 and the data of the older Version, not with
400: the branch that returns 400 tests NotFound a second time. -/
theorem getKVRequest_status (fuel : Nat) (s : kvstore.KVStore) (key : String)
    (payload : kvstore.Payload) (hp : payload ≠ kvstore.Payload.empty)
    (v : kvstore.Value) (p : kvstore.Payload) (code : Int)
    (hget : kvstore.Get fuel s key payload = some (v, p, code)) :
    (code = kvstore.Found →
        getKVRequest fuel s key payload
          = some ({ MethodReply.zero with Result := "Success", Value := v.Data, Payload := p },
              200)) ∧
      (code = kvstore.NotFound →
        getKVRequest fuel s key payload
          = some ({ MethodReply.zero with Result := "Error", Msg := "Key does not exist",
                                          Payload := payload }, 404)) ∧
      (code = kvstore.Diverged →
        getKVRequest fuel s key payload
          = some ({ MethodReply.zero with Result := "Error",
                                          Msg := "Value is not causally related",
                                          Payload := payload }, 409)) ∧
      (code = kvstore.Err →
        getKVRequest fuel s key payload
          = some ({ MethodReply.zero with Result := "Error", Msg := "Something fucked up!",
                                          Payload := payload }, 403)) ∧
      (code = kvstore.Old →
        getKVRequest fuel s key payload
          = some ({ MethodReply.zero with Result := "Success", Value := v.Data, Payload := p },
              200)) := by
  refine ⟨?_, ?_, ?_, ?_, ?_⟩ <;>
  · intro hc
    subst hc
    unfold getKVRequest
    simp only [hp, if_false, hget]
    rfl

/-- Failing input of C25: the store holds one Version of "a" with the clock
`{0:1}`; `Get` with the context `{0:5}` reports Old, and `getKVRequest`
answers 200 with the data "1". -/
theorem getKVRequest_status_witness :
    kvstore.Get 1 kvstore.onlyA "a" (kvstore.payloadOf 5 "a")
        = some (kvstore.version "1" 1 0 "" true, kvstore.payloadOf 1 "a", kvstore.Old) ∧
      getKVRequest 1 kvstore.onlyA "a" (kvstore.payloadOf 5 "a")
        = some ({ MethodReply.zero with Result := "Success", Value := "1",
                                        Payload := kvstore.payloadOf 1 "a" }, 200) :=
  ⟨by decide,
   (getKVRequest_status 1 kvstore.onlyA "a" (kvstore.payloadOf 5 "a") (by decide)
      (kvstore.version "1" 1 0 "" true) (kvstore.payloadOf 1 "a") kvstore.Old
      (by decide)).2.2.2.2 rfl⟩

/-- C26.  `putKVRequest` validates before it touches the store: for every
store, key and value it returns 401 when the payload is empty, and otherwise
422 when the value is empty or longer than 1,048,576 bytes; in each of these
cases it returns at every depth of the availability check, with the store it
was given and the zero value. -/
theorem putKVRequest_validates (fuel : Nat) (s : kvstore.KVStore) (key data : String)
    (payload : kvstore.Payload) (ident : Nat) (nodeConnecion : Bool) (now : Int)
    (unmarshal : String → kvstore.Value) :
    (payload = kvstore.Payload.empty →
        ∃ reply, putKVRequest fuel s key data payload ident nodeConnecion now unmarshal
          = some (s, kvstore.Value.zero, reply, 401)) ∧
      (payload ≠ kvstore.Payload.empty → (data = "" ∨ data.utf8ByteSize > 1048576) →
        ∃ reply, putKVRequest fuel s key data payload ident nodeConnecion now unmarshal
          = some (s, kvstore.Value.zero, reply, 422)) := by
  constructor
  · intro hp
    unfold putKVRequest
    rw [if_pos hp]
    exact ⟨_, rfl⟩
  · intro hp hd
    unfold putKVRequest
    rw [if_neg hp]
    by_cases h0 : data = ""
    · simp only [h0, if_true]
      exact ⟨_, rfl⟩
    · have hbig : data.utf8ByteSize > 1024 * 1024 := by
        rcases hd with hd | hd
        · exact absurd hd h0
        · exact hd
      simp only [h0, if_false, hbig, if_true]
      exact ⟨_, rfl⟩

/-- Witness of C26: an empty payload, and an empty value with a payload. -/
theorem putKVRequest_validates_witness :
    (∃ reply, putKVRequest 1 kvstore.onlyA "a" "1" kvstore.Payload.empty 0 false 1
        (fun _ => kvstore.Value.zero) = some (kvstore.onlyA, kvstore.Value.zero, reply, 401)) ∧
      (∃ reply, putKVRequest 1 kvstore.onlyA "a" "" (kvstore.payloadOf 1 "a") 0 false 1
        (fun _ => kvstore.Value.zero) = some (kvstore.onlyA, kvstore.Value.zero, reply, 422)) :=
  ⟨(putKVRequest_validates 1 kvstore.onlyA "a" "1" kvstore.Payload.empty 0 false 1
      (fun _ => kvstore.Value.zero)).1 rfl,
   (putKVRequest_validates 1 kvstore.onlyA "a" "" (kvstore.payloadOf 1 "a") 0 false 1
      (fun _ => kvstore.Value.zero)).2 (by decide) (Or.inl rfl)⟩

theorem splitEscaped_ne_nil : ∀ (l : List Char), splitEscaped l ≠ []
  | [] => by simp [splitEscaped]
  | [c] => by simp [splitEscaped]
  | c :: d :: rest => by
    unfold splitEscaped
    split_ifs
    · simp
    · cases h : splitEscaped (d :: rest) <;> simp

theorem joinLoop_succ (pieces : List (List Char)) :
    ∀ (i : Nat) (acc : List Char),
      joinLoop pieces (i + 1) acc = acc ++ (pieces.map (fun v => quote :: v)).flatten := by
  induction pieces with
  | nil => intro i acc; simp [joinLoop]
  | cons v rest ih =>
    intro i acc
    simp only [joinLoop, Nat.add_one_ne_zero, if_false, ih, List.map_cons, List.flatten_cons]
    simp

/-- Splitting at each backslash followed by a quote and joining the pieces
with a quote replaces each backslash followed by a quote by a quote. -/
theorem joinLoop_splitEscaped : ∀ (l : List Char),
    joinLoop (splitEscaped l) 0 [] = replaceEscaped l
  | [] => by simp [splitEscaped, joinLoop, replaceEscaped]
  | [c] => by simp [splitEscaped, joinLoop, replaceEscaped]
  | c :: d :: rest => by
    have ih1 := joinLoop_splitEscaped rest
    have ih2 := joinLoop_splitEscaped (d :: rest)
    unfold splitEscaped replaceEscaped
    by_cases h : c = backslash ∧ d = quote
    · simp only [h, and_self, if_true]
      rw [← ih1]
      cases hs : splitEscaped rest with
      | nil => exact absurd hs (splitEscaped_ne_nil rest)
      | cons head tail =>
        simp [joinLoop, joinLoop_succ]
    · simp only [h, if_false]
      rw [← ih2]
      cases hs : splitEscaped (d :: rest) with
      | nil => exact absurd hs (splitEscaped_ne_nil (d :: rest))
      | cons head tail =>
        simp [joinLoop, joinLoop_succ]

theorem utf8ByteSize_lt_two (p : String) (h : p.utf8ByteSize < 2) :
    p.data = [] ∨ ∃ c, p.data = [c] := by
  obtain ⟨l⟩ := p
  cases l with
  | nil => exact Or.inl rfl
  | cons c rest =>
    cases rest with
    | nil => exact Or.inr ⟨c, rfl⟩
    | cons d rest' =>
      exfalso
      have hc := Char.utf8Size_pos c
      have hd := Char.utf8Size_pos d
      simp only [String.utf8ByteSize, String.utf8ByteSize.go] at h
      omega

/-- C27, as stated, fails: the text of the single character quote.
`cleanPayload` returns a text of fewer than two bytes as it is, so the quote
stays, where the description removes it. -/
theorem cleanPayload_single_quote :
    cleanPayload (String.mk [quote]) = String.mk [quote] ∧
      cleanPayloadSpec (String.mk [quote]) = "" := by
  decide

/-- C27, amended.  For every string p other than the string of the single
character quote, `cleanPayload(p)` equals the string obtained from p by
removing one leading ASCII double quote if present, then one trailing ASCII
double quote if present, and then replacing every occurrence of backslash
followed by double quote with a single double quote; the string of the single
character quote is returned unchanged. -/
theorem cleanPayload_eq (p : String) :
    cleanPayload p = if p = String.mk [quote] then p else cleanPayloadSpec p := by
  by_cases hlen : p.utf8ByteSize < 2
  · have hcode : cleanPayload p = p := by
      unfold cleanPayload
      rw [if_pos hlen]
    rw [hcode]
    split_ifs with hq
    · rfl
    · rcases utf8ByteSize_lt_two p hlen with h | ⟨c, h⟩
      · obtain ⟨l⟩ := p
        simp only at h
        subst h
        rfl
      · obtain ⟨l⟩ := p
        simp only at h
        subst h
        have hc : ¬ c = quote := by
          intro hc
          apply hq
          rw [hc]
        simp [cleanPayloadSpec, hc, replaceEscaped]
  · have hq : ¬ p = String.mk [quote] := by
      intro hq
      apply hlen
      rw [hq]
      decide
    rw [if_neg hq]
    unfold cleanPayload cleanPayloadSpec
    rw [if_neg hlen]
    simp only [joinLoop_splitEscaped]

end main

namespace kvstore

open vectorclock

/-- The inner loop of `findDependencies` reports the key of the context only. -/
theorem findInBucket_keys (context : CausalContext) (key : String) :
    ∀ (values : List Value) (index : Nat) (acc : List String × List Nat),
      (∀ k ∈ acc.1, k = context.Key) →
      ∀ k ∈ (findInBucket context key values index acc).1, k = context.Key := by
  intro values
  induction values with
  | nil => intro index acc h; exact h
  | cons v rest ih =>
    intro index acc h
    simp only [findInBucket]
    split_ifs with hc
    · apply ih
      intro k hk
      simp only [List.mem_append, List.mem_singleton] at hk
      rcases hk with hk | hk
      · exact h k hk
      · rw [hk]; exact hc.2
    · exact ih _ _ h

theorem findLoop_keys (locks : List String) (context : CausalContext) :
    ∀ (entries : List (String × List Value)) (acc res : List String × List Nat),
      findLoop locks context entries acc = some res → (∀ k ∈ acc.1, k = context.Key) →
      ∀ k ∈ res.1, k = context.Key := by
  intro entries
  induction entries with
  | nil =>
    intro acc res h hacc
    simp only [findLoop, Option.some.injEq] at h
    rw [← h]; exact hacc
  | cons e rest ih =>
    intro acc res h hacc
    obtain ⟨key, values⟩ := e
    simp only [findLoop] at h
    split_ifs at h
    exact ih _ res h (findInBucket_keys context key values 0 acc hacc)

/-- The rewriting loop of `delete`, whenever it returns, has touched the
bucket of `key` only. -/
theorem rewriteLoop_frame (key : String) (value : Value) :
    ∀ (keys : List String) (indices : List Nat) (s s' : KVStore),
      (∀ k ∈ keys, k = key) → rewriteLoop key value keys indices s = some s' →
      SameExcept s s' key := by
  intro keys
  induction keys with
  | nil =>
    intro indices s s' _ h
    simp only [rewriteLoop, Option.some.injEq] at h
    rw [← h]; exact SameExcept.refl s key
  | cons k keys ih =>
    intro indices s s' hk h
    cases indices with
    | nil =>
      simp only [rewriteLoop, Option.some.injEq] at h
      rw [← h]; exact SameExcept.refl s key
    | cons i indices =>
      have hkk : k = key := hk k (List.mem_cons_self _ _)
      subst hkk
      simp only [rewriteLoop, ne_eq, not_true_eq_false, false_and, if_false] at h
      cases hfound : ((mapGet s.data k).getD []).get? i with
      | none => simp only [hfound] at h; cases h
      | some found =>
        simp only [hfound] at h
        have hlt : i < (bucket s k).length := by
          have := List.get?_eq_some.1 hfound
          obtain ⟨hlt, _⟩ := this
          exact hlt
        have hmem := mem_keys_of_bucket_pos s k i hlt
        exact (SameExcept.of_mapSet s k _ hmem).trans
          (ih indices _ s' (fun k' hk' => hk k' (List.mem_cons_of_mem _ hk')) h)

/-- The internal `delete`, whenever it returns, has touched the bucket of
`key` only: same locks, same compaction flag, same keys, and the same bucket
under every other key. -/
theorem delete_frame (s : KVStore) (key : String) (value : Value) (index : Nat) (s' : KVStore)
    (h : delete s key value index = some s') : SameExcept s s' key := by
  unfold delete at h
  cases hdeps : findDependencies s { Clock := value.Clock, Key := key } with
  | none => simp only [hdeps] at h; cases h
  | some deps =>
    simp only [hdeps] at h
    have hkeys : ∀ k ∈ deps.1, k = key :=
      findLoop_keys s.locks { Clock := value.Clock, Key := key } s.data ([], []) deps hdeps
        (by simp)
    cases hrw : rewriteLoop key value deps.1 deps.2 s with
    | none => simp only [hrw] at h; cases h
    | some s1 =>
      simp only [hrw] at h
      have h1 := rewriteLoop_frame key value deps.1 deps.2 s s1 hkeys hrw
      split_ifs at h with hi
      simp only [Option.some.injEq] at h
      rw [← h]
      exact h1.trans (SameExcept.of_mapSet s1 key _ (mem_keys_of_bucket_pos s1 key index hi))

theorem deleteEach_frame (key : String) :
    ∀ (values : List Value) (indices : List Nat) (s s' : KVStore),
      deleteEach key values indices s = some s' → SameExcept s s' key := by
  intro values
  induction values with
  | nil =>
    intro indices s s' h
    simp only [deleteEach, Option.some.injEq] at h
    subst h; exact SameExcept.refl s key
  | cons v rest ih =>
    intro indices s s' h
    cases indices with
    | nil =>
      simp only [deleteEach, Option.some.injEq] at h
      subst h; exact SameExcept.refl s key
    | cons i indices =>
      simp only [deleteEach] at h
      cases hd : delete s key v i with
      | none => simp only [hd] at h; cases h
      | some s1 =>
        simp only [hd] at h
        exact (delete_frame s key v i s1 hd).trans (ih indices s1 s' h)

/-- `Delete`, whenever it returns, has touched the bucket of `key` only. -/
theorem Delete_frame (s s' : KVStore) (key : String) (payload : Payload) (removed : Bool)
    (h : Delete s key payload = some (s', removed)) : SameExcept s s' key := by
  cases payload with
  | empty =>
    simp only [Delete, Option.some.injEq, Prod.mk.injEq] at h
    rw [← h.1]; exact SameExcept.refl s key
  | malformed =>
    simp only [Delete, Option.some.injEq, Prod.mk.injEq] at h
    rw [← h.1]; exact SameExcept.refl s key
  | encoded C =>
    simp only [Delete] at h
    by_cases hk : key ∈ s.locks
    · simp only [hk, not_true_eq_false, if_false] at h
      cases htr : traverseValues (fun _ => some true) ((mapGet s.data key).getD []) C.Clock
          false with
      | none => simp only [htr] at h; cases h
      | some all =>
        simp only [htr] at h
        cases h1 : deleteEach key (all.1.at Equal) (all.2.at Equal) s with
        | none => simp only [h1] at h; cases h
        | some s1 =>
          simp only [h1] at h
          cases h2 : deleteEach key (all.1.at Smaller) (all.2.at Smaller) s1 with
          | none => simp only [h2] at h; cases h
          | some s2 =>
            simp only [h2, Option.some.injEq, Prod.mk.injEq] at h
            rw [← h.1]
            exact (deleteEach_frame key _ _ s s1 h1).trans (deleteEach_frame key _ _ s1 s2 h2)
    · simp only [hk, not_false_eq_true, if_true, Option.some.injEq, Prod.mk.injEq] at h
      rw [← h.1]; exact SameExcept.refl s key

/-- The compaction loop on one key, whenever it returns, has touched the
bucket of that key only. -/
theorem compactKey_frame (key : String) :
    ∀ (fuel : Nat) (s s' : KVStore), compactKey fuel s key = some s' → SameExcept s s' key := by
  intro fuel
  induction fuel with
  | zero =>
    intro s s' h
    simp only [compactKey] at h
    split_ifs at h
    simp only [Option.some.injEq] at h
    rw [← h]; exact SameExcept.refl s key
  | succ n ih =>
    intro s s' h
    cases hb : (mapGet s.data key).getD [] with
    | nil =>
      simp only [compactKey, hb, Option.some.injEq] at h
      rw [← h]; exact SameExcept.refl s key
    | cons first rest =>
      cases rest with
      | nil =>
        simp only [compactKey, hb, Option.some.injEq] at h
        rw [← h]; exact SameExcept.refl s key
      | cons second rest' =>
        simp only [compactKey, hb] at h
        split_ifs at h with c1 c2 c3
        · cases hd : delete s key first 0 with
          | none => simp only [hd] at h; cases h
          | some s1 =>
            simp only [hd] at h
            exact (delete_frame s key first 0 s1 hd).trans (ih s1 s' h)
        · cases hd : delete s key second 1 with
          | none => simp only [hd] at h; cases h
          | some s1 =>
            simp only [hd] at h
            exact (delete_frame s key second 1 s1 hd).trans (ih s1 s' h)
        · cases hd : delete s key second 1 with
          | none => simp only [hd] at h; cases h
          | some s1 =>
            simp only [hd] at h
            exact (delete_frame s key second 1 s1 hd).trans (ih s1 s' h)
        · cases hd : delete s key first 0 with
          | none => simp only [hd] at h; cases h
          | some s1 =>
            simp only [hd] at h
            exact (delete_frame s key first 0 s1 hd).trans (ih s1 s' h)

/-- C31.  For every store, key k, Version v and index i, the internal
`delete(k, v, i)`, whenever it returns, leaves the bucket of every other key
as it was (the same Versions, in the same order, with the same depends), and
the locks, the compaction flag and the set of keys as well; it returns when
the tables are consistent and the index is inside the bucket of k.
Consequently `Delete` on k and the compaction of k by the garbage collector
change no other key's bucket. -/
theorem delete_modifies_only_its_bucket (s : KVStore) (key : String) (value : Value)
    (index : Nat) :
    (∀ s', delete s key value index = some s' →
        SameExcept s s' key ∧ ∀ k, k ≠ key → bucket s' k = bucket s k) ∧
      (Tables s → index < (bucket s key).length → ∃ s', delete s key value index = some s') ∧
      (∀ payload s' removed, Delete s key payload = some (s', removed) →
        ∀ k, k ≠ key → bucket s' k = bucket s k) ∧
      (∀ fuel s', compactKey fuel s key = some s' →
        ∀ k, k ≠ key → bucket s' k = bucket s k) := by
  refine ⟨?_, ?_, ?_, ?_⟩
  · intro s' h
    have hf := delete_frame s key value index s' h
    exact ⟨hf, fun k hk => hf.bucket_eq k hk⟩
  · intro hs hi
    obtain ⟨s', h, _⟩ := delete_spec s hs key value index hi
    exact ⟨s', h⟩
  · intro payload s' removed h k hk
    exact (Delete_frame s s' key payload removed h).bucket_eq k hk
  · intro fuel s' h k hk
    exact (compactKey_frame key fuel s s' h).bucket_eq k hk

/-- Witness of C31: in the store `chained` the Version of "b" depends on the
Version of "a"; the internal delete of the Version of "a" returns and leaves
the bucket of "b" as it was. -/
theorem delete_modifies_only_its_bucket_witness :
    (∃ s', delete chained "a" (version "1" 1 0 "" true) 0 = some s') ∧
      bucket chainedDeleted "b" = bucket chained "b" :=
  ⟨(delete_modifies_only_its_bucket chained "a" (version "1" 1 0 "" true) 0).2.1
      (Reachable.wellFormed reachable_chained).1 (by decide),
   ((delete_modifies_only_its_bucket chained "a" (version "1" 1 0 "" true) 0).1 chainedDeleted
      (by decide)).2 "b" (by decide)⟩

end kvstore

namespace kvstore

open vectorclock

/-- The inner loop of `findDependencies` adds nothing for a bucket under
another key than the key of the context. -/
theorem findInBucket_other (context : CausalContext) (key : String) (hk : key ≠ context.Key) :
    ∀ (values : List Value) (index : Nat) (acc : List String × List Nat),
      findInBucket context key values index acc = acc := by
  intro values
  induction values with
  | nil => intro index acc; rfl
  | cons v rest ih =>
    intro index acc
    simp only [findInBucket, hk, and_false, if_false]
    exact ih _ _

theorem findLoop_eq (locks : List String) (context : CausalContext) :
    ∀ (entries : List (String × List Value)) (acc : List String × List Nat),
      (∀ e ∈ entries, e.1 ∈ locks) → (entries.map Prod.fst).Nodup →
      findLoop locks context entries acc
        = some (findInBucket context context.Key ((mapGet entries context.Key).getD []) 0 acc) := by
  intro entries
  induction entries with
  | nil => intro acc _ _; rfl
  | cons e rest ih =>
    intro acc hl hnd
    obtain ⟨key, values⟩ := e
    have hkey : key ∈ locks := hl (key, values) (List.mem_cons_self _ _)
    have hno : ¬ (key ≠ context.Key ∧ key ∉ locks) := fun h => h.2 hkey
    simp only [List.map_cons, List.nodup_cons] at hnd
    simp only [findLoop, hno, if_false]
    rw [ih _ (fun e' he' => hl e' (List.mem_cons_of_mem _ he')) hnd.2]
    by_cases hk : key = context.Key
    · have hnone : mapGet rest context.Key = none :=
        (mapGet_eq_none_iff rest context.Key).2 (hk ▸ hnd.1)
      simp [mapGet, hk, hnone, findInBucket]
    · rw [findInBucket_other context key hk]
      simp [mapGet, hk]

/-- On consistent tables `findDependencies` is the scan of the bucket of the
key of the context. -/
theorem findDependencies_eq (s : KVStore) (hs : Tables s) (context : CausalContext) :
    findDependencies s context
      = some (findInBucket context context.Key (bucket s context.Key) 0 ([], [])) := by
  unfold findDependencies bucket
  apply findLoop_eq
  · intro e he
    exact hs.2 e.1 (List.mem_map_of_mem Prod.fst he)
  · exact hs.1

/-- The rewriting loop of `delete` makes of the bucket of `key` what it makes
of it in any other store with the same bucket of `key`. -/
theorem rewriteLoop_local (key : String) (value : Value) :
    ∀ (keys : List String) (indices : List Nat) (s t : KVStore),
      (∀ k ∈ keys, k = key) → mapGet s.data key = mapGet t.data key →
      (rewriteLoop key value keys indices s).map (fun x => mapGet x.data key)
        = (rewriteLoop key value keys indices t).map (fun x => mapGet x.data key) := by
  intro keys
  induction keys with
  | nil => intro indices s t _ h; simp [rewriteLoop, h]
  | cons k keys ih =>
    intro indices s t hk h
    cases indices with
    | nil => simp [rewriteLoop, h]
    | cons i indices =>
      have hkk : k = key := hk k (List.mem_cons_self _ _)
      subst hkk
      simp only [rewriteLoop, ne_eq, not_true_eq_false, false_and, if_false, h]
      cases hfound : ((mapGet t.data k).getD []).get? i with
      | none => rfl
      | some found =>
        simp only
        apply ih
        · exact fun k' hk' => hk k' (List.mem_cons_of_mem _ hk')
        · simp only [mapGet_mapSet_self]

/-- The internal `delete` makes of the bucket of `key` what it makes of it in
any other store with the same bucket of `key`. -/
theorem delete_local (s t : KVStore) (hs : Tables s) (ht : Tables t) (key : String)
    (value : Value) (index : Nat) (h : mapGet s.data key = mapGet t.data key) :
    (delete s key value index).map (fun x => mapGet x.data key)
      = (delete t key value index).map (fun x => mapGet x.data key) := by
  have hb : bucket s key = bucket t key := by simp only [bucket, h]
  have hds := findDependencies_eq s hs { Clock := value.Clock, Key := key }
  have hdt := findDependencies_eq t ht { Clock := value.Clock, Key := key }
  simp only at hds hdt
  rw [hb] at hds
  have hkeys : ∀ k ∈ (findInBucket { Clock := value.Clock, Key := key } key (bucket t key) 0
      ([], [])).1, k = key :=
    findInBucket_keys { Clock := value.Clock, Key := key } key _ 0 ([], []) (by simp)
  have hrw := rewriteLoop_local key value _
    (findInBucket { Clock := value.Clock, Key := key } key (bucket t key) 0 ([], [])).2 s t
    hkeys h
  unfold delete
  simp only [hds, hdt]
  cases h1 : rewriteLoop key value
      (findInBucket { Clock := value.Clock, Key := key } key (bucket t key) 0 ([], [])).1
      (findInBucket { Clock := value.Clock, Key := key } key (bucket t key) 0 ([], [])).2 s with
  | none =>
    rw [h1] at hrw
    cases h2 : rewriteLoop key value
        (findInBucket { Clock := value.Clock, Key := key } key (bucket t key) 0 ([], [])).1
        (findInBucket { Clock := value.Clock, Key := key } key (bucket t key) 0 ([], [])).2 t with
    | none => rfl
    | some t1 => rw [h2] at hrw; cases hrw
  | some s1 =>
    rw [h1] at hrw
    cases h2 : rewriteLoop key value
        (findInBucket { Clock := value.Clock, Key := key } key (bucket t key) 0 ([], [])).1
        (findInBucket { Clock := value.Clock, Key := key } key (bucket t key) 0 ([], [])).2 t with
    | none => rw [h2] at hrw; cases hrw
    | some t1 =>
      rw [h2] at hrw
      simp only [Option.map_some', Option.some.injEq] at hrw
      simp only [hrw]
      split_ifs
      · simp only [Option.map_some', mapGet_mapSet_self]
      · rfl

/-- The compaction loop on one key makes of the bucket of that key what it
makes of it in any other store with the same bucket of that key. -/
theorem compactKey_local (key : String) :
    ∀ (fuel : Nat) (s t : KVStore), Tables s → Tables t →
      mapGet s.data key = mapGet t.data key →
      (compactKey fuel s key).map (fun x => mapGet x.data key)
        = (compactKey fuel t key).map (fun x => mapGet x.data key) := by
  intro fuel
  induction fuel with
  | zero =>
    intro s t _ _ h
    simp only [compactKey, h]
    split_ifs
    · rfl
    · simp only [Option.map_some', h]
  | succ n ih =>
    intro s t hs ht h
    have step : ∀ (v : Value) (i : Nat),
        (match delete s key v i with
          | none => none
          | some s1 => compactKey n s1 key).map (fun (x : KVStore) => mapGet x.data key)
        = (match delete t key v i with
          | none => none
          | some t1 => compactKey n t1 key).map (fun (x : KVStore) => mapGet x.data key) := by
      intro v i
      have hd := delete_local s t hs ht key v i h
      cases h1 : delete s key v i with
      | none =>
        rw [h1] at hd
        cases h2 : delete t key v i with
        | none => rfl
        | some t1 => rw [h2] at hd; cases hd
      | some s1 =>
        rw [h1] at hd
        cases h2 : delete t key v i with
        | none => rw [h2] at hd; cases hd
        | some t1 =>
          rw [h2] at hd
          simp only [Option.map_some', Option.some.injEq] at hd
          exact ih s1 t1 ((delete_frame s key v i s1 h1).tables hs)
            ((delete_frame t key v i t1 h2).tables ht) hd
    cases hb : (mapGet t.data key).getD [] with
    | nil => simp only [compactKey, h, hb, Option.map_some']
    | cons first rest =>
      cases rest with
      | nil => simp only [compactKey, h, hb, Option.map_some']
      | cons second rest' =>
        simp only [compactKey, h, hb]
        split_ifs
        · exact step first 0
        · exact step second 1
        · exact step second 1
        · exact step first 0

end kvstore

namespace kvstore

open vectorclock

/-- The compaction loop leaves a bucket of at most one Version as it is. -/
theorem compactKey_small (fuel : Nat) (s : KVStore) (key : String)
    (h : (bucket s key).length ≤ 1) : compactKey fuel s key = some s := by
  unfold bucket at h
  cases fuel with
  | zero =>
    have : ¬ ((mapGet s.data key).getD []).length > 1 := by omega
    simp only [compactKey, this, if_false]
  | succ n =>
    cases hb : (mapGet s.data key).getD [] with
    | nil => simp only [compactKey, hb]
    | cons first rest =>
      cases rest with
      | nil => simp only [compactKey, hb]
      | cons second rest' =>
        rw [hb] at h
        simp only [List.length_cons] at h
        omega

/-- Two Go maps with the same keys and the same value under each key are the
same association list. -/
theorem assoc_ext {κ α : Type} [DecidableEq κ] :
    ∀ (l1 l2 : List (κ × α)), l1.map Prod.fst = l2.map Prod.fst → (l1.map Prod.fst).Nodup →
      (∀ k, mapGet l1 k = mapGet l2 k) → l1 = l2 := by
  intro l1
  induction l1 with
  | nil =>
    intro l2 hk _ _
    cases l2 with
    | nil => rfl
    | cons b t => simp at hk
  | cons a t ih =>
    intro l2 hk hnd hget
    cases l2 with
    | nil => simp at hk
    | cons b t2 =>
      obtain ⟨ka, va⟩ := a
      obtain ⟨kb, vb⟩ := b
      simp only [List.map_cons, List.cons.injEq] at hk
      obtain ⟨hkab, hkt⟩ := hk
      subst hkab
      simp only [List.map_cons, List.nodup_cons] at hnd
      have hv : va = vb := by
        have := hget ka
        simpa [mapGet] using this
      subst hv
      have htail : t = t2 := by
        apply ih t2 hkt hnd.2
        intro k
        by_cases hk : ka = k
        · subst hk
          rw [(mapGet_eq_none_iff t ka).2 hnd.1, (mapGet_eq_none_iff t2 ka).2 (hkt ▸ hnd.1)]
        · have := hget k
          simpa [mapGet, hk] using this
      rw [htail]

/-- The compaction of the keys of `order` returns on consistent tables; the
bucket it leaves under a key of `order` is the bucket that the compaction of
that key alone leaves, and every other bucket is as it was. -/
theorem compactAll_char :
    ∀ (order : List String) (s : KVStore), Tables s →
      ∃ s', compactAll order s = some s' ∧ s'.locks = s.locks ∧ s'.gcInUse = s.gcInUse ∧
        s'.data.map Prod.fst = s.data.map Prod.fst ∧
        ∀ k, (k ∈ order → ∃ sk, compactKey (bucket s k).length s k = some sk ∧
                mapGet s'.data k = mapGet sk.data k) ∧
             (k ∉ order → mapGet s'.data k = mapGet s.data k) := by
  intro order
  induction order with
  | nil =>
    intro s _
    exact ⟨s, rfl, rfl, rfl, rfl, fun k => ⟨fun h => by simp at h, fun _ => rfl⟩⟩
  | cons key rest ih =>
    intro s hs
    obtain ⟨s1, h1, hse, hlen⟩ := compactKey_spec key (bucket s key).length s hs (by omega)
    obtain ⟨s', g1, gl, gg, gk, gb⟩ := ih s1 (hse.tables hs)
    refine ⟨s', ?_, gl.trans hse.1, gg.trans hse.2.1, gk.trans hse.2.2.1, ?_⟩
    · simp only [bucket] at h1
      simp only [compactAll, h1, g1]
    · intro k
      constructor
      · intro hk
        by_cases hrest : k ∈ rest
        · obtain ⟨sk1, hsk1, hget⟩ := (gb k).1 hrest
          by_cases hkey : k = key
          · subst hkey
            rw [compactKey_small _ s1 k hlen] at hsk1
            cases hsk1
            exact ⟨s1, h1, hget⟩
          · have hsame : mapGet s1.data k = mapGet s.data k := hse.2.2.2 k hkey
            have hb : bucket s1 k = bucket s k := hse.bucket_eq k hkey
            obtain ⟨sk, hsk, _, _⟩ := compactKey_spec k (bucket s k).length s hs (by omega)
            have hloc := compactKey_local k (bucket s k).length s1 s (hse.tables hs) hs hsame
            rw [hb] at hsk1
            rw [hsk1, hsk] at hloc
            simp only [Option.map_some', Option.some.injEq] at hloc
            exact ⟨sk, hsk, hget.trans hloc⟩
        · have hkey : k = key := by
            simp only [List.mem_cons] at hk
            rcases hk with hk | hk
            · exact hk
            · exact absurd hk hrest
          subst hkey
          exact ⟨s1, h1, (gb k).2 hrest⟩
      · intro hk
        simp only [List.mem_cons, not_or] at hk
        exact ((gb k).2 hk.2).trans (hse.2.2.2 k hk.1)

/-- C32.  On every store with consistent tables (the keys of `data` are
pairwise distinct, as in a Go map, and each of them owns a mutex), a
`garbageCollection` pass returns, and the store it produces is the same for
any two orders in which the same keys are visited, in particular for any two
enumerations of the keys of `locks`. -/
theorem garbageCollection_order_independent (s : KVStore) (hs : Tables s)
    (order order' : List String) (h : ∀ k, k ∈ order ↔ k ∈ order') :
    garbageCollection s order = garbageCollection s order' ∧
      ∃ s', garbageCollection s order = some s' := by
  by_cases hgc : s.gcInUse ≠ 0
  · unfold garbageCollection
    rw [if_pos hgc, if_pos hgc]
    exact ⟨rfl, s, rfl⟩
  · have hs1 : Tables { s with gcInUse := 1 } := Tables.of_gcInUse s 1 hs
    obtain ⟨s1, h1, hl1, hg1, hk1, hb1⟩ := compactAll_char order { s with gcInUse := 1 } hs1
    obtain ⟨s2, h2, hl2, hg2, hk2, hb2⟩ := compactAll_char order' { s with gcInUse := 1 } hs1
    have hdata : s1.data = s2.data := by
      apply assoc_ext s1.data s2.data (hk1.trans hk2.symm)
      · rw [hk1]; exact hs1.1
      · intro k
        by_cases hk : k ∈ order
        · obtain ⟨sk, hsk, hget⟩ := (hb1 k).1 hk
          obtain ⟨sk', hsk', hget'⟩ := (hb2 k).1 ((h k).1 hk)
          rw [hsk] at hsk'
          cases hsk'
          exact hget.trans hget'.symm
        · have hk' : k ∉ order' := fun hin => hk ((h k).2 hin)
          exact ((hb1 k).2 hk).trans ((hb2 k).2 hk').symm
    have heq : s1 = s2 := by
      obtain ⟨d1, l1, g1⟩ := s1
      obtain ⟨d2, l2, g2⟩ := s2
      simp only at hdata hl1 hl2 hg1 hg2
      rw [hdata, hl1, hl2, hg1, hg2]
    unfold garbageCollection
    rw [if_neg hgc, if_neg hgc, h1, h2, heq]
    exact ⟨rfl, _, rfl⟩

/-- Witness of C32: the two orders of the two keys of `twoBuckets`. -/
theorem garbageCollection_order_independent_witness :
    garbageCollection twoBuckets ["a", "b"] = garbageCollection twoBuckets ["b", "a"] ∧
      ∃ s', garbageCollection twoBuckets ["a", "b"] = some s' :=
  garbageCollection_order_independent twoBuckets ⟨by decide, by decide⟩ ["a", "b"] ["b", "a"]
    (fun k => by simp [or_comm])

end kvstore

namespace kvstore

open vectorclock

theorem countP_set (p : Phase → Bool) :
    ∀ (l : List Phase) (i : Nat) (a b : Phase), l.get? i = some a →
      (l.set i b).countP p + (if p a then 1 else 0) = l.countP p + (if p b then 1 else 0) := by
  intro l
  induction l with
  | nil => intro i a b h; simp at h
  | cons x t ih =>
    intro i a b h
    cases i with
    | zero =>
      simp only [List.get?_cons_zero, Option.some.injEq] at h
      subst h
      simp only [List.set_cons_zero, List.countP_cons]
      omega
    | succ j =>
      simp only [List.get?_cons_succ] at h
      have := ih j a b h
      simp only [List.set_cons_succ, List.countP_cons]
      omega

/-- The invariant of the compare-and-swap protocol: at most one invocation is
in the compaction phase, and none while `gcInUse` is 0. -/
theorem gcStep_invariant (c c' : Config) (i : Nat) (h : gcStep c i = some c')
    (hinv : c.calls.countP Phase.isCompacting ≤ 1 ∧
      (c.store.gcInUse = 0 → c.calls.countP Phase.isCompacting = 0)) :
    c'.calls.countP Phase.isCompacting ≤ 1 ∧
      (c'.store.gcInUse = 0 → c'.calls.countP Phase.isCompacting = 0) := by
  unfold gcStep at h
  cases hget : c.calls.get? i with
  | none => simp only [hget] at h; cases h
  | some ph =>
    cases ph with
    | ready order =>
      simp only [hget] at h
      have hcount := countP_set Phase.isCompacting c.calls i (Phase.ready order)
      split_ifs at h with h0
      · simp only [Option.some.injEq] at h
        subst h
        have := hcount (Phase.compacting order) hget
        have hz := hinv.2 h0
        simp only [Phase.isCompacting, if_true, Bool.false_eq_true, if_false] at this
        simp only
        constructor
        · omega
        · intro h1; cases h1
      · simp only [Option.some.injEq] at h
        subst h
        have := hcount Phase.returned hget
        simp only [Phase.isCompacting, Bool.false_eq_true, if_false] at this
        simp only
        constructor
        · omega
        · intro h1; have := hinv.2 h1; omega
    | compacting remaining =>
      cases remaining with
      | nil =>
        simp only [hget, Option.some.injEq] at h
        subst h
        have := countP_set Phase.isCompacting c.calls i (Phase.compacting []) Phase.returned hget
        simp only [Phase.isCompacting, if_true, Bool.false_eq_true, if_false] at this
        simp only
        constructor
        · omega
        · intro _; omega
      | cons key rest =>
        simp only [hget] at h
        cases hk : compactKey ((mapGet c.store.data key).getD []).length c.store key with
        | none => simp only [hk] at h; cases h
        | some s =>
          simp only [hk, Option.some.injEq] at h
          subst h
          have hflag : s.gcInUse = c.store.gcInUse := (compactKey_frame key _ c.store s hk).2.1
          have := countP_set Phase.isCompacting c.calls i (Phase.compacting (key :: rest))
            (Phase.compacting rest) hget
          simp only [Phase.isCompacting, if_true] at this
          simp only
          constructor
          · omega
          · intro h1
            rw [hflag] at h1
            have := hinv.2 h1
            omega
    | returned => simp only [hget] at h; cases h

theorem gcRun_invariant :
    ∀ (schedule : List Nat) (c c' : Config), gcRun c schedule = some c' →
      (c.calls.countP Phase.isCompacting ≤ 1 ∧
        (c.store.gcInUse = 0 → c.calls.countP Phase.isCompacting = 0)) →
      c'.calls.countP Phase.isCompacting ≤ 1 ∧
        (c'.store.gcInUse = 0 → c'.calls.countP Phase.isCompacting = 0) := by
  intro schedule
  induction schedule with
  | nil =>
    intro c c' h hinv
    simp only [gcRun, Option.some.injEq] at h
    rw [← h]; exact hinv
  | cons i rest ih =>
    intro c c' h hinv
    simp only [gcRun] at h
    cases hstep : gcStep c i with
    | none => simp only [hstep] at h; cases h
    | some c1 =>
      simp only [hstep] at h
      exact ih c1 c' h (gcStep_invariant c c1 i hstep hinv)

/-- The loop over the keys of one invocation that runs alone is the loop
`compactAll` of `garbageCollection`. -/
theorem gcRun_compacting :
    ∀ (rest : List String) (s : KVStore),
      gcRun { store := s, calls := [Phase.compacting rest] } (List.replicate (rest.length + 1) 0)
        = (compactAll rest s).map
            (fun s' => { store := { s' with gcInUse := 0 }, calls := [Phase.returned] }) := by
  intro rest
  induction rest with
  | nil => intro s; rfl
  | cons key rest ih =>
    intro s
    simp only [List.length_cons, List.replicate_succ, gcRun, gcStep, List.get?_cons_zero,
      compactAll]
    cases hk : compactKey ((mapGet s.data key).getD []).length s key with
    | none => rfl
    | some s1 =>
      simp only [List.set_cons_zero]
      have := ih s1
      simp only [List.replicate_succ] at this
      exact this

/-- One invocation that runs alone on a store with `gcInUse = 0` produces what
`garbageCollection` produces. -/
theorem gcRun_alone (s : KVStore) (order : List String) (h : s.gcInUse = 0) :
    gcRun { store := s, calls := [Phase.ready order] } (List.replicate (order.length + 2) 0)
      = (garbageCollection s order).map
          (fun s' => { store := s', calls := [Phase.returned] }) := by
  have hrun := gcRun_compacting order { s with gcInUse := 1 }
  have h0 : ¬ s.gcInUse ≠ 0 := by simp [h]
  have hstep : gcStep { store := s, calls := [Phase.ready order] } 0
      = some { store := { s with gcInUse := 1 }, calls := [Phase.compacting order] } := by
    simp [gcStep, h]
  have hsched : List.replicate (order.length + 2) 0 = 0 :: List.replicate (order.length + 1) 0 :=
    List.replicate_succ 0 (order.length + 1)
  rw [hsched, gcRun, hstep]
  simp only
  rw [hrun]
  unfold garbageCollection
  rw [if_neg h0]
  cases compactAll order { s with gcInUse := 1 } <;> rfl

/-- C33.  In every interleaving of invocations of `garbageCollection` on a
store, each an atomic compare-and-swap of `gcInUse` from 0 to 1, then the
compaction of its keys one after the other, then the store of 0, at most one
invocation is in the compaction phase in every configuration that the
interleaving reaches, and none while `gcInUse` is 0; an invocation whose
compare-and-swap fails returns in that step and leaves the store as it is. -/
theorem single_flight (s : KVStore) (orders : List (List String)) (schedule : List Nat)
    (c : Config)
    (hrun : gcRun { store := s, calls := orders.map Phase.ready } schedule = some c) :
    c.calls.countP Phase.isCompacting ≤ 1 ∧
      (c.store.gcInUse = 0 → c.calls.countP Phase.isCompacting = 0) ∧
      (∀ i order, c.calls.get? i = some (Phase.ready order) → c.store.gcInUse ≠ 0 →
        gcStep c i = some { store := c.store, calls := c.calls.set i Phase.returned }) := by
  have hinit : (orders.map Phase.ready).countP Phase.isCompacting = 0 := by
    rw [List.countP_eq_zero]
    intro ph hph
    obtain ⟨order, _, rfl⟩ := List.mem_map.1 hph
    simp [Phase.isCompacting]
  have hinv := gcRun_invariant schedule _ c hrun ⟨by simp only [hinit]; omega, fun _ => hinit⟩
  refine ⟨hinv.1, hinv.2, ?_⟩
  intro i order hget hne
  simp only [gcStep, hget, hne, if_false]

/-- Witness of C33: two invocations on `twoBuckets`.  The first wins the
compare-and-swap; the second, which runs next, returns and leaves the store as
it is, while the first is in the compaction phase. -/
theorem single_flight_witness :
    gcRun { store := twoBuckets, calls := [Phase.ready ["a", "b"], Phase.ready ["b", "a"]] }
        [0, 1]
      = some { store := { twoBuckets with gcInUse := 1 },
               calls := [Phase.compacting ["a", "b"], Phase.returned] } ∧
    List.countP Phase.isCompacting [Phase.compacting ["a", "b"], Phase.returned] ≤ 1 :=
  ⟨by decide,
   (single_flight twoBuckets [["a", "b"], ["b", "a"]] [0, 1]
      { store := { twoBuckets with gcInUse := 1 },
        calls := [Phase.compacting ["a", "b"], Phase.returned] } (by decide)).1⟩

end kvstore

namespace merkletree

/-- The loop of `Build` returns a list of at most one node as it is. -/
theorem buildLoop_done {δ η : Type} (sum : η → η → η) (fuel : Nat) (nodeList : List (Node δ η))
    (h : ¬ nodeList.length > 1) : buildLoop sum fuel nodeList = some nodeList := by
  cases fuel <;> simp only [buildLoop, h, if_false]

/-- C34, evaluated on the code.  For every list of five data items (the input
of `main`), after four iterations the loop of `Build` holds `loneParent`, the
parent of the fifth leaf and its copy, of level 1, followed by `quadParent`,
of level 2; the levels differ, so the fifth iteration pairs `loneParent`, an
internal node of level 1, with a copy of itself, and the root that `Build`
returns has that pair as its right child. -/
theorem Build_pairs_internal_node_with_itself {δ η : Type} (hash : δ → η) (sum : η → η → η)
    (d0 d1 d2 d3 d4 : δ) :
    buildStep sum (buildStep sum (buildStep sum (buildStep sum
        ([d0, d1, d2, d3, d4].map (leafNode hash)))))
        = [loneParent hash sum d4, quadParent hash sum d0 d1 d2 d3] ∧
      (loneParent hash sum d4).Leaf = false ∧ (loneParent hash sum d4).level = 1 ∧
      (quadParent hash sum d0 d1 d2 d3).level = 2 ∧
      buildStep sum [loneParent hash sum d4, quadParent hash sum d0 d1 d2 d3]
        = [quadParent hash sum d0 d1 d2 d3,
           parentNode sum (loneParent hash sum d4) (loneParent hash sum d4)] ∧
      ∀ fuel, Build hash sum (fuel + 6) [d0, d1, d2, d3, d4]
        = some (some (parentNode sum (quadParent hash sum d0 d1 d2 d3)
            (parentNode sum (loneParent hash sum d4) (loneParent hash sum d4)))) := by
  refine ⟨rfl, rfl, rfl, rfl, rfl, ?_⟩
  intro fuel
  have hsix : buildLoop sum (fuel + 6) ([d0, d1, d2, d3, d4].map (leafNode hash))
      = buildLoop sum fuel [parentNode sum (quadParent hash sum d0 d1 d2 d3)
          (parentNode sum (loneParent hash sum d4) (loneParent hash sum d4))] := rfl
  have hbuild : Build hash sum (fuel + 6) [d0, d1, d2, d3, d4]
      = match buildLoop sum (fuel + 6) ([d0, d1, d2, d3, d4].map (leafNode hash)) with
        | none => none
        | some nodeList => some nodeList.head? := rfl
  rw [hbuild, hsix, buildLoop_done sum fuel _ (by simp)]
  rfl

end merkletree
